import Mathlib

/-!
# career-koala: the chat write-confirmation protocol

A shallow embedding of `go/db/chat_writes.go` (the write-intent parser, the field
extraction and the write applier), of the insert functions of `go/db/db.go` and of
`go/agents/chat_confirm.go` (the pending-write store and the confirmation state
machine), followed by the properties proved about them.

Conventions of the embedding

* Go strings are Lean `String`s; the helpers work on the list of characters.
* A Go `error` is an `Option String` (`none` is `nil`, `some e` carries `e.Error()`).
* The pending-write map `pendingWrites.items` is a function from keys to optional
  entries; the mutex is not modelled, every call runs to completion on its own.
* A `*sql.DB` handle is an `Option DB`: `none` is the nil handle, `some db` is a
  live handle together with the database state `db` reachable through it.
* What the Go standard library contributes through data tables or parsers that
  are not part of the repository is collected in `Stdlib`.
* The data store is a function `QueryRow DB` that runs one insert statement on a
  database state; the properties of the applier hold for every such function.
* A value of a record is one of the dynamic types the helpers switch on. A `float64`
  is a sign, a mantissa and a binary exponent (or an infinity or a NaN); what `fmt`
  prints for it and what its conversion gives out of range are taken from `Stdlib`.
-/

set_option maxRecDepth 100000
set_option autoImplicit false

namespace CareerKoala

/-! ## Strings -/

/-- Go `unicode.IsSpace`: the Latin-1 cases and the `White_Space` property beyond them. -/
def isSpace (c : Char) : Bool :=
  let n := c.toNat
  n == 0x09 || n == 0x0A || n == 0x0B || n == 0x0C || n == 0x0D || n == 0x20 ||
  n == 0x85 || n == 0xA0 || n == 0x1680 || (0x2000 ≤ n && n ≤ 0x200A) ||
  n == 0x2028 || n == 0x2029 || n == 0x202F || n == 0x205F || n == 0x3000

/-- Characters of a string with the leading and trailing ones satisfying `p` removed. -/
def trimChars (p : Char → Bool) (s : List Char) : List Char :=
  ((s.dropWhile p).reverse.dropWhile p).reverse

/-- Go `strings.TrimSpace`. -/
def TrimSpace (s : String) : String :=
  String.mk (trimChars isSpace s.data)

/-- Go `strings.Trim(s, cutset)`: strips leading and trailing characters of `cutset`. -/
def Trim (s cutset : String) : String :=
  String.mk (trimChars (fun c => cutset.data.contains c) s.data)

/-- The loop of Go `strings.Fields` over the remaining characters; `cur` is the
field being read, in reverse. -/
def fieldsLoop : List Char → List Char → List String
  | [], cur => if cur.isEmpty then [] else [String.mk cur.reverse]
  | c :: cs, cur =>
    if isSpace c then
      if cur.isEmpty then fieldsLoop cs [] else String.mk cur.reverse :: fieldsLoop cs []
    else fieldsLoop cs (c :: cur)

/-- Go `strings.Fields`: the maximal runs of non-space characters, in order. -/
def Fields (s : String) : List String :=
  fieldsLoop s.data []

/-- Go `strings.HasPrefix` on characters. -/
def startsWith : List Char → List Char → Bool
  | _, [] => true
  | [], _ :: _ => false
  | c :: cs, p :: ps => c == p && startsWith cs ps

/-- Go `strings.Join`. -/
def Join (parts : List String) (sep : String) : String :=
  sep.intercalate parts

/-! ## Data model (`go/db/chat_writes.go`) -/

/-- A Go `float64`: a finite value, which is `mant * 2 ^ exp` with the sign `neg`, an
infinity or a NaN. -/
inductive Float64 where
  | finite (neg : Bool) (mant : Nat) (exp : Int) : Float64
  | inf (neg : Bool) : Float64
  | nan : Float64

/-- A value of a record, by its dynamic type. The first six are what `encoding/json`
produces for `interface{}` when the decoder runs with `UseNumber` (`nil`, `bool`,
`json.Number` with its source text, `string`, `[]interface{}`,
`map[string]interface{}`); the last three are the native types the type switches of
the helpers name besides them: `float64`, `int` (64 bits wide) and `[]string`. -/
inductive JsonValue where
  | null : JsonValue
  | bool (b : Bool) : JsonValue
  | number (text : String) : JsonValue
  | str (s : String) : JsonValue
  | arr (items : List JsonValue) : JsonValue
  | obj (fields : List (String × JsonValue)) : JsonValue
  | float64 (v : Float64) : JsonValue
  | int (v : Int) : JsonValue
  | strs (items : List String) : JsonValue

/-- One record, `map[string]interface{}`, as the list of its key/value pairs. -/
abbrev Record := List (String × JsonValue)

/-- Go `WriteRequest`. -/
structure WriteRequest where
  Action : String
  Table : String
  Records : List Record

/-- Go `WritePayload`. -/
structure WritePayload where
  WriteRequests : List WriteRequest

/-- The pieces of the standard library and of the language implementation whose
tables and parsers lie outside the repository. -/
structure Stdlib where
  /-- The lower-case mapping of `unicode.CaseRanges` for characters beyond ASCII. -/
  caseLower : Char → Char
  /-- The call `json.NewDecoder(strings.NewReader(raw))`, `UseNumber()`,
  `Decode(&payload)`: the error text, or the payload that was filled in. -/
  decodePayload : String → Except String WritePayload
  /-- The text `fmt` prints for a `float64` under `%v` (`strconv.FormatFloat` with the
  format `g` and the shortest precision). -/
  formatFloat : Float64 → String
  /-- The result of converting to a 64-bit integer a `float64` whose integer part the
  type cannot hold, or that is an infinity or a NaN; the language leaves it to the
  implementation. -/
  floatOverflow : Float64 → Int

/-- Go `unicode.ToLower`: ASCII is handled inline, the rest goes through the table. -/
def toLowerRune (L : Stdlib) (c : Char) : Char :=
  if c.toNat ≤ 0x7F then
    if 0x41 ≤ c.toNat ∧ c.toNat ≤ 0x5A then Char.ofNat (c.toNat + 0x20) else c
  else L.caseLower c

/-- Go `strings.ToLower`. -/
def ToLower (L : Stdlib) (s : String) : String :=
  String.mk (s.data.map (toLowerRune L))

/-! ## The write-intent parser (`go/db/chat_writes.go`) -/

/-- The class `\s` of Go's `regexp` (RE2 syntax): tab, newline, form feed, carriage
return and space. -/
def isRegexSpace (c : Char) : Bool :=
  let n := c.toNat
  n == 0x09 || n == 0x0A || n == 0x0C || n == 0x0D || n == 0x20

/-- The three backquotes that open and close a fenced block. -/
def fence : List Char := "```".data

/-- The lazy part `.*?\}` of `writeJSONBlockRegex` followed by `\s*` and the closing
fence: the shortest run of characters (any character, `(?s)` is set) ending in a
closing brace after which only `\s` characters precede the fence. The result is the
matched run, closing brace included. -/
def matchBody : List Char → Option (List Char)
  | [] => none
  | c :: rest =>
    if c == '\x7d' && startsWith (rest.dropWhile isRegexSpace) fence then some [c]
    else (matchBody rest).map (fun m => c :: m)

/-- The part `\s*(\{.*?\})\s*` and the closing fence of `writeJSONBlockRegex`; the
result is capture group 1. The greedy `\s*` takes every `\s` character, because
the character after it has to be the opening brace. -/
def matchObject (r : List Char) : Option (List Char) :=
  match r.dropWhile isRegexSpace with
  | [] => none
  | c :: body =>
    if c == '\x7b' then (matchBody body).map (fun m => c :: m) else none

/-- A match of `writeJSONBlockRegex` that starts at the head of `s`: the opening
fence, the optional tag `json` (tried first with the tag, then without), and the
object. -/
def matchHere (s : List Char) : Option (List Char) :=
  if startsWith s fence then
    let r := s.drop 3
    match (if startsWith r "json".data then matchObject (r.drop 4) else none) with
    | some m => some m
    | none => matchObject r
  else none

/-- The leftmost match of `writeJSONBlockRegex` in `s`, as its capture group 1. -/
def findMatch : List Char → Option (List Char)
  | [] => none
  | c :: cs =>
    match matchHere (c :: cs) with
    | some m => some m
    | none => findMatch cs

/-- Go `writeJSONBlockRegex.FindStringSubmatch(text)`, reduced to what the caller
reads: `none` when there is no match, otherwise `match[1]`. -/
def findWriteJSONBlock (text : String) : Option String :=
  (findMatch text.data).map String.mk

/-- The candidate JSON text `raw` of `ExtractWritePayload` (lines 27-35): the fenced
object when the pattern matches, otherwise the trimmed text when it starts with an
opening brace and ends with a closing brace, otherwise the empty string. -/
def candidate (text : String) : String :=
  match findWriteJSONBlock text with
  | some m => m
  | none =>
    let trimmed := TrimSpace text
    if startsWith trimmed.data ['\x7b'] && startsWith trimmed.data.reverse ['\x7d'] then trimmed
    else ""

/-- The validation loop of `ExtractWritePayload` (lines 49-56) over the remaining
requests, `summaryParts` holding the parts collected so far. `none` is the early
return with the error `invalid write request`. -/
def summaryLoop (L : Stdlib) : List WriteRequest → List String → Option (List String)
  | [], summaryParts => some summaryParts
  | req :: rest, summaryParts =>
    let action := ToLower L (TrimSpace req.Action)
    let table := TrimSpace req.Table
    if action ≠ "insert" ∨ table = "" ∨ req.Records.length = 0 then none
    else
      summaryLoop L rest
        (summaryParts ++ [action ++ " " ++ toString req.Records.length ++ " -> " ++ table])

/-- Go `ExtractWritePayload`: the payload (or nil), the raw JSON, the summary and the
error (or nil). -/
def ExtractWritePayload (L : Stdlib) (text : String) :
    Option WritePayload × String × String × Option String :=
  let raw := candidate text
  if raw = "" then (none, "", "", none)
  else
    match L.decodePayload raw with
    | .error err => (none, "", "", some err)
    | .ok payload =>
      if payload.WriteRequests.length = 0 then (none, "", "", none)
      else
        match summaryLoop L payload.WriteRequests [] with
        | none => (none, "", "", some "invalid write request")
        | some summaryParts => (some payload, raw, Join summaryParts ", ", none)

/-! ## The pending-write store and the confirmation state machine
(`go/agents/chat_confirm.go`) -/

/-- Go `pendingWrite`. -/
structure pendingWrite where
  Payload : WritePayload
  RawJSON : String
  Summary : String

/-- The map `pendingWrites.items`. -/
abbrev Items := String → Option pendingWrite

/-- The assignment `items[key] = entry`. -/
def Items.set (items : Items) (key : String) (entry : pendingWrite) : Items :=
  fun k => if k = key then some entry else items k

/-- The statement `delete(items, key)`. -/
def Items.delete (items : Items) (key : String) : Items :=
  fun k => if k = key then none else items k

/-- Go `pendingKey`. -/
def pendingKey (userID sessionID : String) : String :=
  userID ++ ":" ++ sessionID

/-- Go `isAffirmative`. -/
def isAffirmative (msg : String) : Bool :=
  (Fields msg).any fun token =>
    ["yes", "y", "yeah", "yep", "sure", "confirm", "ok", "okay"].contains (Trim token ".,!?;:")

/-- Go `isNegative`. -/
def isNegative (msg : String) : Bool :=
  (Fields msg).any fun token =>
    ["no", "n", "nope", "nah", "cancel"].contains (Trim token ".,!?;:")

/-- What one call of `HandlePendingWrite` leaves behind: the two return values, the
store and the database after the call, and the payloads with which
`ApplyWriteRequests` was invoked during the call, in order. -/
structure Outcome (DB : Type) where
  reply : String
  handled : Bool
  items : Items
  dbConn : Option DB
  applied : List WritePayload

/-- Go `HandlePendingWrite`. `ApplyWriteRequests db payload` is the applier run on a
live handle: its two return values (the summary, or the error text) and the
database it leaves. The `context` only bounds the applier's running time; running
out of time is one of the applier's errors. -/
def HandlePendingWrite {DB : Type} (L : Stdlib)
    (ApplyWriteRequests : DB → WritePayload → Except String String × DB)
    (items : Items) (userID sessionID message : String) (dbConn : Option DB) : Outcome DB :=
  let key := pendingKey userID sessionID
  match items key with
  | none => { reply := "", handled := false, items := items, dbConn := dbConn, applied := [] }
  | some pending =>
    let answer := TrimSpace (ToLower L message)
    if isAffirmative answer then
      match dbConn with
      | none =>
        { reply := "Failed to apply writes: database unavailable", handled := true,
          items := items.delete key, dbConn := none, applied := [] }
      | some db =>
        match ApplyWriteRequests db pending.Payload with
        | (.error err, db1) =>
          { reply := "Failed to apply writes: " ++ err, handled := true,
            items := items.delete key, dbConn := some db1, applied := [pending.Payload] }
        | (.ok result, db1) =>
          { reply := "Applied writes: " ++ result, handled := true,
            items := items.delete key, dbConn := some db1, applied := [pending.Payload] }
    else if isNegative answer then
      { reply := "Okay, skipping the write. Let me know how else I can help.", handled := true,
        items := items.delete key, dbConn := dbConn, applied := [] }
    else
      { reply := "Pending write request detected. Reply \"yes\" to apply or \"no\" to skip.\n\n"
          ++ pending.RawJSON,
        handled := true, items := items, dbConn := dbConn, applied := [] }

/-- Go `MaybeCaptureWrite`, as the loop over the remaining replies: the two return
values and the store after the call. -/
def MaybeCaptureWrite (L : Stdlib) (items : Items) (userID sessionID : String) :
    List String → String × Bool × Items
  | [] => ("", false, items)
  | reply :: rest =>
    match ExtractWritePayload L reply with
    | (some payload, rawJSON, summary, none) =>
      let key := pendingKey userID sessionID
      ("I can apply the following write request(s): " ++ summary
          ++ "\n\nReply \"yes\" to insert, or \"no\" to skip.\n\n```json\n" ++ rawJSON ++ "\n```",
        true,
        items.set key { Payload := payload, RawJSON := rawJSON, Summary := summary })
    | _ => MaybeCaptureWrite L items userID sessionID rest

/-! ## Sequences of calls -/

/-- One call of an entry point of the protocol, with its arguments. -/
inductive Call (DB : Type) where
  | capture (userID sessionID : String) (replies : List String) : Call DB
  | handle (userID sessionID message : String) (dbConn : Option DB) : Call DB

/-- The record of one executed call: the store it found, the call, the payloads with
which `ApplyWriteRequests` was invoked while it ran, and the store it left. -/
structure Step (DB : Type) where
  before : Items
  call : Call DB
  applied : List WritePayload
  after : Items

/-- Executes one call on a store. `MaybeCaptureWrite` is not given the applier and
so records no invocation. -/
def Call.exec {DB : Type} (L : Stdlib)
    (ApplyWriteRequests : DB → WritePayload → Except String String × DB)
    (items : Items) : Call DB → Step DB
  | .capture userID sessionID replies =>
    { before := items, call := .capture userID sessionID replies, applied := [],
      after := (MaybeCaptureWrite L items userID sessionID replies).2.2 }
  | .handle userID sessionID message dbConn =>
    let o := HandlePendingWrite L ApplyWriteRequests items userID sessionID message dbConn
    { before := items, call := .handle userID sessionID message dbConn, applied := o.applied,
      after := o.items }

/-- Executes a sequence of calls one after the other, each on the store the previous
one left, and returns the records of the calls in order. -/
def history {DB : Type} (L : Stdlib)
    (ApplyWriteRequests : DB → WritePayload → Except String String × DB) :
    Items → List (Call DB) → List (Step DB)
  | _, [] => []
  | items, c :: cs =>
    let st := c.exec L ApplyWriteRequests items
    st :: history L ApplyWriteRequests st.after cs

/-- The validity of one request as the parser checks it: the action is `insert` after
trimming and lower-casing, the trimmed table is not empty, there is a record. -/
def validRequest (L : Stdlib) (req : WriteRequest) : Prop :=
  ToLower L (TrimSpace req.Action) = "insert" ∧ TrimSpace req.Table ≠ "" ∧ req.Records ≠ []

/-! ## Field extraction (`go/db/chat_writes.go`, lines 198-317)

The values of a record are those of `JsonValue`. Go's `int` is taken to be 64 bits
wide, and integers are Lean `Int`s that the parsing functions and the conversion of
a `float64` keep within the 64-bit range. -/

/-- The two errors of `strconv`: `ErrSyntax` and `ErrRange`. -/
inductive NumError where
  | ErrSyntax : NumError
  | ErrRange : NumError
deriving DecidableEq

/-- The digit loop of Go `strconv.ParseUint(s, 10, 64)`: a character that is not a
decimal digit is a syntax error; a value beyond 64 bits stops the loop at once with
the largest value and a range error. -/
def parseUintLoop : List Char → Nat → Nat × Option NumError
  | [], n => (n, none)
  | c :: cs, n =>
    if 0x30 ≤ c.toNat ∧ c.toNat ≤ 0x39 then
      if n * 10 + (c.toNat - 0x30) ≥ 2 ^ 64 then (2 ^ 64 - 1, some NumError.ErrRange)
      else parseUintLoop cs (n * 10 + (c.toNat - 0x30))
    else (0, some NumError.ErrSyntax)

/-- Go `strconv.ParseUint(s, 10, 64)`. -/
def ParseUint (s : List Char) : Nat × Option NumError :=
  if s.isEmpty then (0, some NumError.ErrSyntax) else parseUintLoop s 0

/-- Go `strconv.ParseInt(s, 10, 64)`: the value and the error. On a syntax error the
value is 0, on a range error it is the nearest bound. -/
def ParseInt (s : String) : Int × Option NumError :=
  match s.data with
  | [] => (0, some NumError.ErrSyntax)
  | c :: cs =>
    let neg := c == '-'
    let digits := if c == '+' || c == '-' then cs else c :: cs
    match ParseUint digits with
    | (_, some NumError.ErrSyntax) => (0, some NumError.ErrSyntax)
    | (un, _) =>
      if !neg && un ≥ 2 ^ 63 then ((2 : Int) ^ 63 - 1, some NumError.ErrRange)
      else if neg && un > 2 ^ 63 then (-(2 : Int) ^ 63, some NumError.ErrRange)
      else (if neg then -(un : Int) else (un : Int), none)

/-- Go `strconv.Atoi`: on a 64-bit platform its value and error are those of
`ParseInt(s, 10, 64)`, on its fast path and on its slow path. -/
def Atoi (s : String) : Int × Option NumError :=
  ParseInt s

/-- A calendar date: what `time.Parse("2006-01-02", _)` returns is this date at
00:00:00 UTC. -/
structure Date where
  year : Nat
  month : Nat
  day : Nat
deriving DecidableEq

/-- The value of a decimal digit. -/
def digitVal (c : Char) : Option Nat :=
  if 0x30 ≤ c.toNat ∧ c.toNat ≤ 0x39 then some (c.toNat - 0x30) else none

/-- Leap years of the Gregorian calendar. -/
def isLeap (year : Nat) : Bool :=
  year % 4 == 0 && (year % 100 != 0 || year % 400 == 0)

/-- Go `daysIn`: the number of days of a month. -/
def daysIn (month year : Nat) : Nat :=
  if month == 2 then (if isLeap year then 29 else 28)
  else if month == 4 || month == 6 || month == 9 || month == 11 then 30
  else 31

/-- Go `time.Parse("2006-01-02", val)`, `none` standing for an error: four digits,
a hyphen, two digits, a hyphen, two digits and nothing else; the month within 1 to
12 and the day within the month. -/
def parseDate (val : String) : Option Date :=
  match val.data with
  | [y1, y2, y3, y4, s1, m1, m2, s2, d1, d2] =>
    match digitVal y1, digitVal y2, digitVal y3, digitVal y4,
      digitVal m1, digitVal m2, digitVal d1, digitVal d2 with
    | some a, some b, some c, some d, some e, some f, some g, some h =>
      let year := ((a * 10 + b) * 10 + c) * 10 + d
      let month := e * 10 + f
      let day := g * 10 + h
      if s1 == '-' && s2 == '-' && 1 ≤ month && month ≤ 12 && 1 ≤ day
          && day ≤ daysIn month year then
        some { year := year, month := month, day := day }
      else none
    | _, _, _, _, _, _, _, _ => none
  | _ => none

/-- The order of Go strings, byte by byte, which for text is the order of the
characters' code points. -/
def keyLess : List Char → List Char → Bool
  | _, [] => false
  | [], _ :: _ => true
  | a :: as, b :: bs => decide (a.toNat < b.toNat) || (a.toNat == b.toNat && keyLess as bs)

/-- Puts a formatted member into a list sorted by key. -/
def insertByKey (kv : String × String) : List (String × String) → List (String × String)
  | [] => [kv]
  | x :: xs => if keyLess kv.1.data x.1.data then kv :: x :: xs else x :: insertByKey kv xs

/-- Sorts formatted members by key, as `fmt` does when it prints a map. -/
def sortByKey (l : List (String × String)) : List (String × String) :=
  l.foldr insertByKey []

/-- The integer part of a finite `float64`, the fraction discarded. -/
def Float64.trunc : Float64 → Option Int
  | .finite neg mant exp =>
    let mag : Nat := if 0 ≤ exp then mant * 2 ^ exp.toNat else mant / 2 ^ (-exp).toNat
    some (if neg then -(mag : Int) else (mag : Int))
  | .inf _ => none
  | .nan => none

/-- The Go conversions `int64(v)` and `int(v)` of a `float64`: the value truncated
towards zero when the 64-bit integer can hold it. -/
def floatToInt (L : Stdlib) (v : Float64) : Int :=
  match v.trunc with
  | some t => if -(2 : Int) ^ 63 ≤ t ∧ t < (2 : Int) ^ 63 then t else L.floatOverflow v
  | none => L.floatOverflow v

mutual
/-- Go `fmt.Sprintf("%v", v)` for a value of a record: strings and numbers as their
text, `nil` as `<nil>`, a slice as its elements between brackets, a map as `map[...]`
with its members `key:value` in key order, an `int` in decimal. -/
def formatValue (L : Stdlib) : JsonValue → String
  | .null => "<nil>"
  | .bool b => if b then "true" else "false"
  | .number text => text
  | .str s => s
  | .arr items => "[" ++ " ".intercalate (formatItems L items) ++ "]"
  | .obj fields =>
    "map[" ++ " ".intercalate
      ((sortByKey (formatMembers L fields)).map fun kv => kv.1 ++ ":" ++ kv.2) ++ "]"
  | .float64 v => L.formatFloat v
  | .int v => toString v
  | .strs items => "[" ++ " ".intercalate items ++ "]"
/-- The elements of a slice, each formatted. -/
def formatItems (L : Stdlib) : List JsonValue → List String
  | [] => []
  | v :: vs => formatValue L v :: formatItems L vs
/-- The members of a map, each value formatted. -/
def formatMembers (L : Stdlib) : List (String × JsonValue) → List (String × String)
  | [] => []
  | (k, v) :: rest => (k, formatValue L v) :: formatMembers L rest
end

/-- Go `getString`. -/
def getString (L : Stdlib) (record : Record) (key : String) : String :=
  match record.lookup key with
  | none => ""
  | some .null => ""
  | some (.str v) => v
  | some (.number v) => v
  | some v => formatValue L v

/-- Go `getBool`. -/
def getBool (L : Stdlib) (record : Record) (key : String) : Bool :=
  match record.lookup key with
  | none => false
  | some .null => false
  | some (.bool v) => v
  | some (.str v) => ToLower L v == "true"
  | some (.number v) => (ParseInt v).2 == none && (ParseInt v).1 != 0
  | some _ => false

/-- Go `getInt`. -/
def getInt (L : Stdlib) (record : Record) (key : String) : Int :=
  match record.lookup key with
  | none => 0
  | some .null => 0
  | some (.number v) => (ParseInt v).1
  | some (.float64 v) => floatToInt L v
  | some (.int v) => v
  | some (.str v) => (Atoi v).1
  | some _ => 0

/-- Go `getIntPtr`. -/
def getIntPtr (L : Stdlib) (record : Record) (key : String) : Option Int :=
  match record.lookup key with
  | none => none
  | some .null => none
  | some (.number v) => if (ParseInt v).2 == none then some (ParseInt v).1 else none
  | some (.float64 v) => some (floatToInt L v)
  | some (.int v) => some v
  | some (.str v) => if (ParseInt v).2 == none then some (ParseInt v).1 else none
  | some _ => none

/-- Go `getDate`. -/
def getDate (L : Stdlib) (record : Record) (key : String) : Option Date :=
  let val := getString L record key
  if TrimSpace val = "" then none else parseDate val

/-- Go `getDatePtr`. -/
def getDatePtr (L : Stdlib) (record : Record) (key : String) : Option Date :=
  getDate L record key

/-- Go `getStringSlice`. -/
def getStringSlice (L : Stdlib) (record : Record) (key : String) : List String :=
  match record.lookup key with
  | some (.arr v) =>
    v.filterMap fun item =>
      match item with
      | .null => none
      | x => some (formatValue L x)
  | some (.strs v) => v
  | _ => []

/-! ## The target schema (`go/db/db.go`) -/

/-- Go `JobApplication`. -/
structure JobApplication where
  ID : Int
  JobTitle : String
  Company : String
  JobLink : String
  Applied : Option Date
  ResultDate : Option Date
  Status : String
  Notes : String
deriving DecidableEq

/-- Go `CodingProblem`. -/
structure CodingProblem where
  ID : Int
  LeetCodeNumber : Int
  Title : String
  Pattern : String
  ProblemLink : String
  Difficulty : String
  AlreadySolved : Bool
  Notes : String
deriving DecidableEq

/-- Go `Project`. -/
structure Project where
  ID : Int
  Name : String
  RepoURL : String
  Active : Bool
  TechStack : List String
  Summary : String
deriving DecidableEq

/-- Go `NetworkingContact`. -/
structure NetworkingContact where
  ID : Int
  PersonName : String
  HowMet : String
  LinkedInConnected : Bool
  Company : String
  Position : String
  Notes : String
deriving DecidableEq

/-- Go `Goal`. -/
structure Goal where
  ID : Int
  Description : String
  TargetDate : Date
  Completed : Bool
  JobApplication : Option Int
  CodingProblem : Option Int
  Project : Option Int
  Contact : Option Int
deriving DecidableEq

/-- The `INSERT ... RETURNING id` statement one of the seven insert functions sends,
with the struct whose fields are its arguments. -/
inductive Row where
  | job_applications (input : JobApplication) : Row
  | coding_problems (input : CodingProblem) : Row
  | projects (input : Project) : Row
  | networking_contacts (input : NetworkingContact) : Row
  | daily_goals (input : Goal) : Row
  | weekly_goals (input : Goal) : Row
  | monthly_goals (input : Goal) : Row
deriving DecidableEq

/-- The data store behind a live handle: running one insert statement on a database
gives the generated identifier or an error text, and the database afterwards. -/
abbrev QueryRow (DB : Type) := DB → Row → Except String Int × DB

/-- Go `InsertJobApplication`. -/
def InsertJobApplication {DB : Type} (queryRow : QueryRow DB) (db : DB)
    (input : JobApplication) : Except String Int × DB :=
  queryRow db (Row.job_applications input)

/-- Go `InsertCodingProblem`. -/
def InsertCodingProblem {DB : Type} (queryRow : QueryRow DB) (db : DB)
    (input : CodingProblem) : Except String Int × DB :=
  queryRow db (Row.coding_problems input)

/-- Go `InsertProject`. -/
def InsertProject {DB : Type} (queryRow : QueryRow DB) (db : DB)
    (input : Project) : Except String Int × DB :=
  queryRow db (Row.projects input)

/-- Go `InsertNetworkingContact`. -/
def InsertNetworkingContact {DB : Type} (queryRow : QueryRow DB) (db : DB)
    (input : NetworkingContact) : Except String Int × DB :=
  queryRow db (Row.networking_contacts input)

/-- Go `InsertDailyGoal`. -/
def InsertDailyGoal {DB : Type} (queryRow : QueryRow DB) (db : DB)
    (input : Goal) : Except String Int × DB :=
  queryRow db (Row.daily_goals input)

/-- Go `InsertWeeklyGoal`. -/
def InsertWeeklyGoal {DB : Type} (queryRow : QueryRow DB) (db : DB)
    (input : Goal) : Except String Int × DB :=
  queryRow db (Row.weekly_goals input)

/-- Go `InsertMonthlyGoal`. -/
def InsertMonthlyGoal {DB : Type} (queryRow : QueryRow DB) (db : DB)
    (input : Goal) : Except String Int × DB :=
  queryRow db (Row.monthly_goals input)

/-! ## The write applier (`go/db/chat_writes.go`, lines 60-196) -/

/-- The `JobApplication` literal of the `job_applications` case. -/
def jobApplicationOf (L : Stdlib) (record : Record) : JobApplication :=
  { ID := 0,
    JobTitle := getString L record "job_title",
    Company := getString L record "company",
    JobLink := getString L record "job_link",
    Applied := getDatePtr L record "applied_date",
    ResultDate := getDatePtr L record "result_date",
    Status := getString L record "status",
    Notes := getString L record "notes" }

/-- The `CodingProblem` literal of the `coding_problems` case. -/
def codingProblemOf (L : Stdlib) (record : Record) : CodingProblem :=
  { ID := 0,
    LeetCodeNumber := getInt L record "leetcode_number",
    Title := getString L record "title",
    Pattern := getString L record "pattern",
    ProblemLink := getString L record "problem_link",
    Difficulty := getString L record "difficulty",
    AlreadySolved := getBool L record "already_solved",
    Notes := getString L record "notes" }

/-- The `Project` literal of the `projects` case. -/
def projectOf (L : Stdlib) (record : Record) : Project :=
  { ID := 0,
    Name := getString L record "name",
    RepoURL := getString L record "repo_url",
    Active := getBool L record "active",
    TechStack := getStringSlice L record "tech_stack",
    Summary := getString L record "summary" }

/-- The `NetworkingContact` literal of the `networking_contacts` case. -/
def networkingContactOf (L : Stdlib) (record : Record) : NetworkingContact :=
  { ID := 0,
    PersonName := getString L record "person_name",
    HowMet := getString L record "how_met",
    LinkedInConnected := getBool L record "linkedin_connected",
    Company := getString L record "company",
    Position := getString L record "position",
    Notes := getString L record "notes" }

/-- The `Goal` literal of the three goal cases, `date` being the dereferenced date. -/
def goalOf (L : Stdlib) (record : Record) (date : Date) : Goal :=
  { ID := 0,
    Description := getString L record "description",
    TargetDate := date,
    Completed := getBool L record "completed",
    JobApplication := getIntPtr L record "job_application_id",
    CodingProblem := getIntPtr L record "coding_problem_id",
    Project := getIntPtr L record "project_id",
    Contact := getIntPtr L record "contact_id" }

/-- The table switch of `ApplyWriteRequests`: for each of the seven cases the body of
its loop over the records, run on one record (the date check of the goal tables,
then the insert); `none` is the `default` case. -/
def applyCase {DB : Type} (L : Stdlib) (queryRow : QueryRow DB) (table : String) :
    Option (DB → Record → Except String Int × DB) :=
  if table = "job_applications" then
    some fun db record => InsertJobApplication queryRow db (jobApplicationOf L record)
  else if table = "coding_problems" then
    some fun db record => InsertCodingProblem queryRow db (codingProblemOf L record)
  else if table = "projects" then
    some fun db record => InsertProject queryRow db (projectOf L record)
  else if table = "networking_contacts" then
    some fun db record => InsertNetworkingContact queryRow db (networkingContactOf L record)
  else if table = "daily_goals" then
    some fun db record =>
      match getDate L record "target_date" with
      | none => (.error "daily_goals requires target_date", db)
      | some date => InsertDailyGoal queryRow db (goalOf L record date)
  else if table = "weekly_goals" then
    some fun db record =>
      match getDate L record "week_of" with
      | none => (.error "weekly_goals requires week_of", db)
      | some date => InsertWeeklyGoal queryRow db (goalOf L record date)
  else if table = "monthly_goals" then
    some fun db record =>
      match getDate L record "month_of" with
      | none => (.error "monthly_goals requires month_of", db)
      | some date => InsertMonthlyGoal queryRow db (goalOf L record date)
  else none

/-- The loop over the records of one request: the body `step` on each record in
order, returning at the first error; `total` is the running count. -/
def insertRecords {DB : Type} (step : DB → Record → Except String Int × DB) :
    DB → List Record → Nat → Except String Nat × DB
  | db, [], total => (.ok total, db)
  | db, record :: rest, total =>
    match step db record with
    | (.error err, db1) => (.error err, db1)
    | (.ok _, db1) => insertRecords step db1 rest (total + 1)

/-- The loop of `ApplyWriteRequests` over the remaining requests, with the running
`total` and `summaries`. The fragment added after a request is the one of its case,
which is the count followed by the matched table name. -/
def applyRequests {DB : Type} (L : Stdlib) (queryRow : QueryRow DB) :
    DB → List WriteRequest → Nat → List String → Except String (Nat × List String) × DB
  | db, [], total, summaries => (.ok (total, summaries), db)
  | db, req :: rest, total, summaries =>
    let action := ToLower L (TrimSpace req.Action)
    let table := ToLower L (TrimSpace req.Table)
    if action ≠ "insert" then (.error ("unsupported action: " ++ req.Action), db)
    else
      match applyCase L queryRow table with
      | none => (.error ("unsupported table: " ++ req.Table), db)
      | some step =>
        match insertRecords step db req.Records total with
        | (.error err, db1) => (.error err, db1)
        | (.ok total1, db1) =>
          applyRequests L queryRow db1 rest total1
            (summaries ++ [toString req.Records.length ++ " " ++ table])

/-- Go `ApplyWriteRequests` on a live handle: the summary or the error text (the
returned string is empty whenever there is an error), and the database afterwards. -/
def ApplyWriteRequests {DB : Type} (L : Stdlib) (queryRow : QueryRow DB) (db : DB)
    (payload : WritePayload) : Except String String × DB :=
  match applyRequests L queryRow db payload.WriteRequests 0 [] with
  | (.error err, db1) => (.error err, db1)
  | (.ok (total, summaries), db1) =>
    (.ok (toString total ++ " records (" ++ Join summaries ", " ++ ")"), db1)

/-! ## A reference instance of `Stdlib`

The theorems below hold for every `Stdlib`. The worked examples need one to run
the parser on concrete texts: `refLib` leaves characters beyond ASCII unchanged
when lower-casing and decodes JSON as laid out here. It follows the JSON grammar
of RFC 8259 and the decoding rules of `encoding/json` for the two structs (a key
is matched to a field tag exactly or ignoring ASCII case, `null` leaves a field
at its zero value, a value of the wrong kind is an error, what follows the first
value is not read). Of an object's repeated keys the last one counts; the error
texts are not those of the library. -/

/-- JSON white space: space, tab, line feed, carriage return. -/
def isJsonSpace (c : Char) : Bool :=
  let n := c.toNat
  n == 0x20 || n == 0x09 || n == 0x0A || n == 0x0D

/-- The value of a hexadecimal digit. -/
def hexDigit (c : Char) : Option Nat :=
  let n := c.toNat
  if 0x30 ≤ n ∧ n ≤ 0x39 then some (n - 0x30)
  else if 0x61 ≤ n ∧ n ≤ 0x66 then some (n - 0x61 + 10)
  else if 0x41 ≤ n ∧ n ≤ 0x46 then some (n - 0x41 + 10)
  else none

/-- The one-letter escapes of a JSON string, each with the character it stands for. -/
def escapeTable : List (Char × Char) :=
  [('"', '"'), ('\\', '\\'), ('/', '/'), ('b', Char.ofNat 8), ('f', Char.ofNat 12),
   ('n', Char.ofNat 10), ('r', Char.ofNat 13), ('t', Char.ofNat 9)]

/-- The character a one-letter escape stands for. -/
def simpleEscape (c : Char) : Option Char :=
  escapeTable.lookup c

/-- Four hexadecimal digits at the head of the text, as a number. -/
def hex4 : List Char → Option (Nat × List Char)
  | h1 :: h2 :: h3 :: h4 :: rest =>
    match hexDigit h1, hexDigit h2, hexDigit h3, hexDigit h4 with
    | some a, some b, some c, some d => some (((a * 16 + b) * 16 + c) * 16 + d, rest)
    | _, _, _, _ => none
  | _ => none

/-- An escape `\uXXXX` of a low surrogate at the head of the text. -/
def lowSurrogate : List Char → Option (Nat × List Char)
  | b :: u :: rest =>
    if b == '\\' && u == 'u' then
      match hex4 rest with
      | some (m, rest1) => if 0xDC00 ≤ m ∧ m ≤ 0xDFFF then some (m, rest1) else none
      | none => none
    else none
  | _ => none

/-- Reads a string literal after its opening quote; `acc` holds the characters read
so far, in reverse. A high surrogate escape followed by a low one is the character
the pair encodes; any other surrogate escape is U+FFFD. -/
def parseStringBody : Nat → List Char → List Char → Option (String × List Char)
  | 0, _, _ => none
  | _ + 1, [], _ => none
  | fuel + 1, c :: rest, acc =>
    if c == '"' then some (String.mk acc.reverse, rest)
    else if c == '\\' then
      match rest with
      | [] => none
      | e :: rest1 =>
        if e == 'u' then
          match hex4 rest1 with
          | none => none
          | some (n, rest2) =>
            if 0xD800 ≤ n ∧ n ≤ 0xDFFF then
              match (if n < 0xDC00 then lowSurrogate rest2 else none) with
              | some (m, rest3) =>
                parseStringBody fuel rest3
                  (Char.ofNat (0x10000 + (n - 0xD800) * 0x400 + (m - 0xDC00)) :: acc)
              | none => parseStringBody fuel rest2 (Char.ofNat 0xFFFD :: acc)
            else parseStringBody fuel rest2 (Char.ofNat n :: acc)
        else
          match simpleEscape e with
          | some x => parseStringBody fuel rest1 (x :: acc)
          | none => none
    else if c.toNat < 0x20 then none
    else parseStringBody fuel rest (c :: acc)

/-- The leading decimal digits of `s` and what follows them. -/
def spanDigits (s : List Char) : List Char × List Char :=
  s.span Char.isDigit

/-- Reads a JSON number and returns its text. -/
def parseNumber (s : List Char) : Option (String × List Char) :=
  let (sign, s1) := match s with
    | '-' :: t => (['-'], t)
    | _ => ([], s)
  let (intPart, s2) := spanDigits s1
  if intPart.isEmpty || (intPart.length > 1 && intPart.head? == some '0') then none
  else
    let fracResult : Option (List Char × List Char) :=
      match s2 with
      | '.' :: t =>
        let (ds, t1) := spanDigits t
        if ds.isEmpty then none else some ('.' :: ds, t1)
      | _ => some ([], s2)
    match fracResult with
    | none => none
    | some (frac, s3) =>
      let expResult : Option (List Char × List Char) :=
        match s3 with
        | e :: t =>
          if e == 'e' || e == 'E' then
            let (sg, t1) := match t with
              | '+' :: u => (['+'], u)
              | '-' :: u => (['-'], u)
              | _ => ([], t)
            let (ds, t2) := spanDigits t1
            if ds.isEmpty then none else some (e :: sg ++ ds, t2)
          else some ([], s3)
        | [] => some ([], s3)
      match expResult with
      | none => none
      | some (ex, s4) => some (String.mk (sign ++ intPart ++ frac ++ ex), s4)

/-- Sets `key` to `v` in an object read so far: a repeated key replaces the earlier one. -/
def upsert (fields : List (String × JsonValue)) (key : String) (v : JsonValue) :
    List (String × JsonValue) :=
  fields.filter (fun kv => kv.1 != key) ++ [(key, v)]

mutual
/-- Reads one JSON value at the head of the text (white space skipped by the caller). -/
def parseValue : Nat → List Char → Option (JsonValue × List Char)
  | 0, _ => none
  | _ + 1, [] => none
  | fuel + 1, c :: rest =>
    if c == '\x7b' then
      match rest.dropWhile isJsonSpace with
      | [] => none
      | d :: rest1 =>
        if d == '\x7d' then some (JsonValue.obj [], rest1)
        else parseMembers fuel (d :: rest1) []
    else if c == '[' then
      match rest.dropWhile isJsonSpace with
      | [] => none
      | d :: rest1 =>
        if d == ']' then some (JsonValue.arr [], rest1)
        else parseElements fuel (d :: rest1) []
    else if c == '"' then
      match parseStringBody (rest.length + 1) rest [] with
      | some (s, rest1) => some (JsonValue.str s, rest1)
      | none => none
    else if startsWith (c :: rest) "true".data then some (JsonValue.bool true, rest.drop 3)
    else if startsWith (c :: rest) "false".data then some (JsonValue.bool false, rest.drop 4)
    else if startsWith (c :: rest) "null".data then some (JsonValue.null, rest.drop 3)
    else
      match parseNumber (c :: rest) with
      | some (t, rest1) => some (JsonValue.number t, rest1)
      | none => none
/-- Reads the members of an object from the first key on; `acc` holds the members read. -/
def parseMembers : Nat → List Char → List (String × JsonValue) → Option (JsonValue × List Char)
  | 0, _, _ => none
  | fuel + 1, s, acc =>
    match s with
    | [] => none
    | q :: rest =>
      if q == '"' then
        match parseStringBody (rest.length + 1) rest [] with
        | none => none
        | some (key, rest1) =>
          match rest1.dropWhile isJsonSpace with
          | [] => none
          | colon :: rest2 =>
            if colon == ':' then
              match parseValue fuel (rest2.dropWhile isJsonSpace) with
              | none => none
              | some (v, rest3) =>
                match rest3.dropWhile isJsonSpace with
                | [] => none
                | d :: rest4 =>
                  if d == '\x7d' then some (JsonValue.obj (upsert acc key v), rest4)
                  else if d == ',' then
                    parseMembers fuel (rest4.dropWhile isJsonSpace) (upsert acc key v)
                  else none
            else none
      else none
/-- Reads the elements of an array from the first one on; `acc` holds them in reverse. -/
def parseElements : Nat → List Char → List JsonValue → Option (JsonValue × List Char)
  | 0, _, _ => none
  | fuel + 1, s, acc =>
    match parseValue fuel s with
    | none => none
    | some (v, rest) =>
      match rest.dropWhile isJsonSpace with
      | [] => none
      | d :: rest1 =>
        if d == ']' then some (JsonValue.arr (v :: acc).reverse, rest1)
        else if d == ',' then parseElements fuel (rest1.dropWhile isJsonSpace) (v :: acc)
        else none
end

/-- The first JSON value of a text; the rest of the text is not looked at. -/
def parseJson (raw : String) : Option JsonValue :=
  (parseValue (raw.length + 1) (raw.data.dropWhile isJsonSpace)).map Prod.fst

/-- Lower-casing of ASCII letters, for the matching of keys to field tags. -/
def asciiLower (s : String) : String :=
  String.mk (s.data.map fun c =>
    if 0x41 ≤ c.toNat ∧ c.toNat ≤ 0x5A then Char.ofNat (c.toNat + 0x20) else c)

/-- The value an object supplies for the struct field tagged `tag`: that of the last
key that matches the tag, ignoring case. -/
def fieldValue (tag : String) (fields : List (String × JsonValue)) : Option JsonValue :=
  ((fields.filter fun kv => asciiLower kv.1 == tag).getLast?).map Prod.snd

/-- Decodes a value into a Go `string` field. -/
def decodeString : Option JsonValue → Except String String
  | none => .ok ""
  | some .null => .ok ""
  | some (.str s) => .ok s
  | some _ => .error "json: cannot unmarshal into Go value of type string"

/-- Decodes a value into one `map[string]interface{}` of `Records`. -/
def decodeRecord : JsonValue → Except String Record
  | .null => .ok []
  | .obj fields => .ok fields
  | _ => .error "json: cannot unmarshal into Go value of type map[string]interface {}"

/-- Decodes a value into the `Records` field. -/
def decodeRecords : Option JsonValue → Except String (List Record)
  | none => .ok []
  | some .null => .ok []
  | some (.arr items) => items.mapM decodeRecord
  | some _ => .error "json: cannot unmarshal into Go value of type []map[string]interface {}"

/-- Decodes a value into a `WriteRequest`. -/
def decodeRequest : JsonValue → Except String WriteRequest
  | .null => .ok { Action := "", Table := "", Records := [] }
  | .obj fields => do
    let action ← decodeString (fieldValue "action" fields)
    let table ← decodeString (fieldValue "table" fields)
    let records ← decodeRecords (fieldValue "records" fields)
    pure { Action := action, Table := table, Records := records }
  | _ => .error "json: cannot unmarshal into Go value of type db.WriteRequest"

/-- Decodes a value into a `WritePayload`. -/
def decodeWritePayload : JsonValue → Except String WritePayload
  | .null => .ok { WriteRequests := [] }
  | .obj fields =>
    match fieldValue "write_requests" fields with
    | none => .ok { WriteRequests := [] }
    | some .null => .ok { WriteRequests := [] }
    | some (.arr items) => do
      let reqs ← items.mapM decodeRequest
      pure { WriteRequests := reqs }
    | some _ => .error "json: cannot unmarshal into Go value of type []db.WriteRequest"
  | _ => .error "json: cannot unmarshal into Go value of type db.WritePayload"

/-- The reference decoder: parse the first value, then fill the payload. -/
def refDecode (raw : String) : Except String WritePayload :=
  match parseJson raw with
  | none => .error "invalid JSON"
  | some v => decodeWritePayload v

/-- A reference for `formatFloat`: NaN and the infinities as `fmt` prints them, a
finite value by its integer part, which is right for the whole numbers below a
million other than negative zero. No worked example formats a `float64`. -/
def refFormatFloat (v : Float64) : String :=
  match v with
  | .nan => "NaN"
  | .inf neg => if neg then "-Inf" else "+Inf"
  | .finite _ _ _ =>
    match v.trunc with
    | some t => toString t
    | none => "NaN"

/-- The reference instance of the library parameters; the conversion of a `float64`
out of range gives the smallest integer, as on amd64. -/
def refLib : Stdlib :=
  { caseLower := fun c => c, decodePayload := refDecode,
    formatFloat := refFormatFloat, floatOverflow := fun _ => -(2 : Int) ^ 63 }

/-! ## Worked-example data -/

/-- A stand-in applier for the worked examples. Its database is the list of the
requests applied so far; a payload that names the table `widgets` fails. -/
def exampleApplier (db : List WriteRequest) (payload : WritePayload) :
    Except String String × List WriteRequest :=
  if payload.WriteRequests.any (fun r => r.Table == "widgets") then
    (.error "unsupported table: widgets", db)
  else (.ok (toString payload.WriteRequests.length ++ " requests"), db ++ payload.WriteRequests)

/-- The agent reply of `chat_confirm_test.go`: a fenced block with one insert of one
record into `job_applications`. -/
def replyEngineer : String :=
  "```json\n\x7b\"write_requests\":[\x7b\"action\":\"insert\",\"table\":\"job_applications\",\"records\":[\x7b\"job_title\":\"Engineer\"\x7d]\x7d]\x7d\n```"

/-- The raw JSON inside `replyEngineer`. -/
def rawEngineer : String :=
  "\x7b\"write_requests\":[\x7b\"action\":\"insert\",\"table\":\"job_applications\",\"records\":[\x7b\"job_title\":\"Engineer\"\x7d]\x7d]\x7d"

/-- The payload `replyEngineer` decodes to. -/
def payloadEngineer : WritePayload :=
  { WriteRequests :=
      [{ Action := "insert", Table := "job_applications",
         Records := [[("job_title", JsonValue.str "Engineer")]] }] }

/-- The pending entry a capture of `replyEngineer` stores. -/
def entryEngineer : pendingWrite :=
  { Payload := payloadEngineer, RawJSON := rawEngineer, Summary := "insert 1 -> job_applications" }

/-- The text of `TestExtractWritePayloadInvalidAction`: a fenced block with one
request whose action is `update`. -/
def replyUpdate : String :=
  "```json\n\x7b\"write_requests\":[\x7b\"action\":\"update\",\"table\":\"projects\",\"records\":[\x7b\"name\":\"Koala\"\x7d]\x7d]\x7d\n```"

/-- The payload `replyUpdate` decodes to. -/
def payloadUpdate : WritePayload :=
  { WriteRequests :=
      [{ Action := "update", Table := "projects",
         Records := [[("name", JsonValue.str "Koala")]] }] }

/-- The empty store. -/
def noItems : Items := fun _ => none

/-- The store holding `entryEngineer` for user `u1`, session `s1`. -/
def itemsEngineer : Items := noItems.set (pendingKey "u1" "s1") entryEngineer

/-- A capture of `replyEngineer` followed by the answer `yes` on a live handle. -/
def callsYes : List (Call (List WriteRequest)) :=
  [Call.capture "u1" "s1" [replyEngineer], Call.handle "u1" "s1" "yes" (some [])]

/-- The record of the second call of `callsYes`. -/
def stepYes : Step (List WriteRequest) :=
  (Call.handle "u1" "s1" "yes" (some [])).exec refLib exampleApplier itemsEngineer

/-! ## Notions the claims use -/

/-- Two characters are the same letter up to case when their lower-case forms agree. -/
def sameLetter (L : Stdlib) (c c' : Char) : Prop :=
  toLowerRune L c = toLowerRune L c'

/-- Two messages differ at most in letter case: same length, and position by
position the same letter up to case. -/
def caseVariant (L : Stdlib) (m m' : String) : Prop :=
  List.Forall₂ (sameLetter L) m.data m'.data

/-- The stripping the specification describes: trailing punctuation only. -/
def stripTrailing (token cutset : String) : String :=
  String.mk ((token.data.reverse.dropWhile fun c => cutset.data.contains c).reverse)

/-- A reply fragment on which `MaybeCaptureWrite` acts: `ExtractWritePayload` returns
a payload and no error for it. -/
def capturable (L : Stdlib) (reply : String) : Prop :=
  (ExtractWritePayload L reply).1 ≠ none ∧ (ExtractWritePayload L reply).2.2.2 = none

/-- The seven table names of the switch. -/
def supportedTables : List String :=
  ["job_applications", "coding_problems", "projects", "networking_contacts",
   "daily_goals", "weekly_goals", "monthly_goals"]

/-- The goal tables, each with the date field it requires and the error reported
when a record has no such date. -/
def goalTables : List (String × String × String) :=
  [("daily_goals", "target_date", "daily_goals requires target_date"),
   ("weekly_goals", "week_of", "weekly_goals requires week_of"),
   ("monthly_goals", "month_of", "monthly_goals requires month_of")]

/-- The insert a record calls for in a request routed to `table`: `none` when the
table is not one of the seven or when a goal table's record has no parseable date. -/
def rowOf (L : Stdlib) (table : String) (record : Record) : Option Row :=
  if table = "job_applications" then some (Row.job_applications (jobApplicationOf L record))
  else if table = "coding_problems" then some (Row.coding_problems (codingProblemOf L record))
  else if table = "projects" then some (Row.projects (projectOf L record))
  else if table = "networking_contacts" then
    some (Row.networking_contacts (networkingContactOf L record))
  else if table = "daily_goals" then
    (getDate L record "target_date").map fun date => Row.daily_goals (goalOf L record date)
  else if table = "weekly_goals" then
    (getDate L record "week_of").map fun date => Row.weekly_goals (goalOf L record date)
  else if table = "monthly_goals" then
    (getDate L record "month_of").map fun date => Row.monthly_goals (goalOf L record date)
  else none

/-- The inserts the records of one request call for, in record order. -/
def requestRows (L : Stdlib) (req : WriteRequest) : List Row :=
  req.Records.filterMap (rowOf L (ToLower L (TrimSpace req.Table)))

/-- The inserts a list of requests calls for: request by request, and record by
record within a request. -/
def plannedRows (L : Stdlib) (reqs : List WriteRequest) : List Row :=
  (reqs.map (requestRows L)).flatten

/-- The database after the given inserts have been run on it one after the other. -/
def runRows {DB : Type} (queryRow : QueryRow DB) (db : DB) (rows : List Row) : DB :=
  rows.foldl (fun d row => (queryRow d row).2) db

/-- Every one of the given inserts, run one after the other, succeeds. -/
def allSucceed {DB : Type} (queryRow : QueryRow DB) : DB → List Row → Prop
  | _, [] => True
  | db, row :: rest =>
    (∃ id, (queryRow db row).1 = .ok id) ∧ allSucceed queryRow (queryRow db row).2 rest

/-- The body `step` of a case inserts the row `rowOpt` assigns to a record, and
returns an error without touching the database when `rowOpt` assigns none. -/
def stepFollows {DB : Type} (queryRow : QueryRow DB)
    (step : DB → Record → Except String Int × DB) (rowOpt : Record → Option Row) : Prop :=
  ∀ db record,
    (∀ row, rowOpt record = some row → step db record = queryRow db row) ∧
    (rowOpt record = none → ∃ msg, step db record = (.error msg, db))

/-- The number of records of a list of requests. -/
def recordCount (reqs : List WriteRequest) : Nat :=
  (reqs.map fun req => req.Records.length).sum

/-- The summary fragments of a list of requests: for each request the number of its
records and its table name, trimmed and lower-cased. -/
def fragments (L : Stdlib) (reqs : List WriteRequest) : List String :=
  reqs.map fun req => toString req.Records.length ++ " " ++ ToLower L (TrimSpace req.Table)

/-- A data store for the worked examples: the database is the list of the rows
inserted so far, every insert succeeds and returns the row's position. -/
def logStore : QueryRow (List Row) :=
  fun db row => (.ok (db.length + 1), db ++ [row])

/-! ## More worked-example data -/

/-- The text of `TestExtractWritePayloadRawJSON`: a bare JSON object with one insert
of one record into `projects`. -/
def replyKoala : String :=
  "\x7b\"write_requests\":[\x7b\"action\":\"insert\",\"table\":\"projects\",\"records\":[\x7b\"name\":\"Koala\"\x7d]\x7d]\x7d"

/-- The payload `replyKoala` decodes to. -/
def payloadKoala : WritePayload :=
  { WriteRequests :=
      [{ Action := "insert", Table := "projects",
         Records := [[("name", JsonValue.str "Koala")]] }] }

/-- A payload of two requests: two records for `job_applications`, one for the
table written ` Projects `. -/
def payloadTwo : WritePayload :=
  { WriteRequests :=
      [{ Action := "insert", Table := "job_applications",
         Records := [[("job_title", JsonValue.str "Engineer")],
                     [("job_title", JsonValue.str "Analyst"),
                      ("applied_date", JsonValue.str "2025-12-01")]] },
       { Action := " INSERT", Table := " Projects ",
         Records := [[("name", JsonValue.str "Koala"),
                      ("tech_stack", JsonValue.arr [JsonValue.str "go", JsonValue.null,
                        JsonValue.number "7"])]] }] }

/-- A payload with one `daily_goals` request: its first record has a date, its
second has none. -/
def payloadGoals : WritePayload :=
  { WriteRequests :=
      [{ Action := "insert", Table := "daily_goals",
         Records := [[("description", JsonValue.str "apply"),
                      ("target_date", JsonValue.str "2025-12-01")],
                     [("description", JsonValue.str "rest")]] }] }

/-- A payload whose request names the table `Projects`, with a capital letter. -/
def payloadCapital : WritePayload :=
  { WriteRequests :=
      [{ Action := "insert", Table := "Projects",
         Records := [[("name", JsonValue.str "Koala")]] }] }

/-- The request of `payloadEngineer`, then a request for the table `widgets`, then
the request of `payloadKoala`. -/
def payloadWidgets : WritePayload :=
  { WriteRequests :=
      payloadEngineer.WriteRequests ++
        { Action := "insert", Table := "widgets",
          Records := [[("name", JsonValue.str "X")]] } :: payloadKoala.WriteRequests }

/-- The request of `payloadEngineer`, then a `weekly_goals` request of three records
whose second has a `week_of` that is not a date of the calendar. -/
def payloadWeekly : WritePayload :=
  { WriteRequests :=
      payloadEngineer.WriteRequests ++
        [{ Action := "insert", Table := "Weekly_Goals",
           Records := [[("week_of", JsonValue.str "2025-12-01")],
                       [("week_of", JsonValue.str "2025-02-30")],
                       [("week_of", JsonValue.str "2025-12-08")]] }] }

/-! ## Notions on summaries, stored payloads, numbers, dates and fences -/

/-- The table an insert statement writes to. -/
def Row.table : Row → String
  | .job_applications _ => "job_applications"
  | .coding_problems _ => "coding_problems"
  | .projects _ => "projects"
  | .networking_contacts _ => "networking_contacts"
  | .daily_goals _ => "daily_goals"
  | .weekly_goals _ => "weekly_goals"
  | .monthly_goals _ => "monthly_goals"

/-- The summary item of one request as the parser writes it: the action trimmed and
lower-cased, the number of records in decimal, the table trimmed. -/
def summaryItem (L : Stdlib) (req : WriteRequest) : String :=
  ToLower L (TrimSpace req.Action) ++ " " ++ toString req.Records.length ++ " -> "
    ++ TrimSpace req.Table

/-- The parser's validity predicate on a payload: at least one request, and every
request valid. -/
def validPayload (L : Stdlib) (payload : WritePayload) : Prop :=
  payload.WriteRequests ≠ [] ∧ ∀ req ∈ payload.WriteRequests, validRequest L req

/-- The text of `TestExtractWritePayloadRawJSON` with the table `widgets`. -/
def replyWidgets : String :=
  "\x7b\"write_requests\":[\x7b\"action\":\"insert\",\"table\":\"widgets\",\"records\":[\x7b\"name\":\"X\"\x7d]\x7d]\x7d"

/-- The payload `replyWidgets` decodes to. -/
def payloadOnlyWidgets : WritePayload :=
  { WriteRequests :=
      [{ Action := "insert", Table := "widgets",
         Records := [[("name", JsonValue.str "X")]] }] }

/-- The store has only entries with valid payloads. -/
def validStore (L : Stdlib) (items : Items) : Prop :=
  ∀ k e, items k = some e → validPayload L e.Payload

/-- A capture of `replyEngineer` followed by the answer `yes` on a live handle, for
the real applier on the logging store. -/
def callsLogged : List (Call (List Row)) :=
  [Call.capture "u1" "s1" [replyEngineer], Call.handle "u1" "s1" "yes" (some [])]

/-- The record of the second call of `callsLogged`. -/
def stepLogged : Step (List Row) :=
  (Call.handle "u1" "s1" "yes" (some [])).exec refLib (ApplyWriteRequests refLib logStore)
    itemsEngineer

/-- A decimal digit `0` to `9`. -/
def isDecimal (c : Char) : Bool :=
  decide (0x30 ≤ c.toNat ∧ c.toNat ≤ 0x39)

/-- The number a run of decimal digits denotes when read after the number `n`. -/
def decimalFrom (n : Nat) (ds : List Char) : Nat :=
  ds.foldl (fun n c => n * 10 + (c.toNat - 0x30)) n

/-- The number a run of decimal digits denotes. -/
def decimalValue (ds : List Char) : Nat :=
  decimalFrom 0 ds

/-- The text is a base-10 integer that denotes `i`: an optional sign and at least one
decimal digit, nothing else. -/
def denotesInt (t : String) (i : Int) : Prop :=
  ∃ ds, ds ≠ [] ∧ (∀ c ∈ ds, isDecimal c = true) ∧
    ((t.data = ds ∧ i = (decimalValue ds : Int)) ∨
     (t.data = '+' :: ds ∧ i = (decimalValue ds : Int)) ∨
     (t.data = '-' :: ds ∧ i = -(decimalValue ds : Int)))

/-- The range of a signed 64-bit integer. -/
def inInt64 (i : Int) : Prop :=
  -(2 : Int) ^ 63 ≤ i ∧ i < (2 : Int) ^ 63

/-- The nearest signed 64-bit integer. -/
def clampInt64 (i : Int) : Int :=
  if i ≥ (2 : Int) ^ 63 then (2 : Int) ^ 63 - 1
  else if i < -(2 : Int) ^ 63 then -(2 : Int) ^ 63
  else i

/-- The characters of a text after its sign, when it has one. -/
def unsignedPart (t : String) : List Char :=
  match t.data with
  | [] => []
  | c :: cs => if c == '+' || c == '-' then cs else c :: cs

/-- A JSON text with one `coding_problems` record whose `already_solved` is the
number 1.5. -/
def replyFraction : String :=
  "\x7b\"write_requests\":[\x7b\"action\":\"insert\",\"table\":\"coding_problems\",\"records\":[\x7b\"already_solved\":1.5\x7d]\x7d]\x7d"

/-- The payload `replyFraction` decodes to. -/
def payloadFraction : WritePayload :=
  { WriteRequests :=
      [{ Action := "insert", Table := "coding_problems",
         Records := [[("already_solved", JsonValue.number "1.5")]] }] }

/-- The character of a decimal digit. -/
def digitChar (k : Nat) : Char :=
  Char.ofNat (0x30 + k)

/-- A number below 100 in two digits. -/
def twoDigits (n : Nat) : List Char :=
  [digitChar (n / 10), digitChar (n % 10)]

/-- A number below 10000 in four digits. -/
def fourDigits (n : Nat) : List Char :=
  [digitChar (n / 1000), digitChar (n / 100 % 10), digitChar (n / 10 % 10), digitChar (n % 10)]

/-- The form `YYYY-MM-DD` of a date. -/
def dateText (d : Date) : List Char :=
  fourDigits d.year ++ '-' :: twoDigits d.month ++ '-' :: twoDigits d.day

/-- A date of the calendar with a year of four digits. -/
def realDate (d : Date) : Prop :=
  d.year ≤ 9999 ∧ 1 ≤ d.month ∧ d.month ≤ 12 ∧ 1 ≤ d.day ∧ d.day ≤ daysIn d.month d.year

/-- The pattern `writeJSONBlockRegex` matches at the head of `s` with the capture group
`m`: the fence, the optional tag `json`, white space, the group, which opens with a
brace and closes with a brace, white space, the fence, and the rest of the text. -/
def fencedAt (s m : List Char) : Prop :=
  ∃ tag ws1 body ws2 post, (tag = [] ∨ tag = "json".data) ∧
    (∀ c ∈ ws1, isRegexSpace c = true) ∧ (∀ c ∈ ws2, isRegexSpace c = true) ∧
    m = '\x7b' :: body ++ ['\x7d'] ∧
    s = fence ++ tag ++ ws1 ++ m ++ ws2 ++ fence ++ post

/-- The integer `t` is the finite value `v` with its fraction discarded: its sign is
that of `v` and its magnitude `q` satisfies `q ≤ mant * 2 ^ exp < q + 1`, written
without division. -/
def truncatesTo (v : Float64) (t : Int) : Prop :=
  ∃ (neg : Bool) (mant : Nat) (exp : Int) (q : Nat), v = Float64.finite neg mant exp ∧
    t = (if neg then -(q : Int) else (q : Int)) ∧
    q * 2 ^ (-exp).toNat ≤ mant * 2 ^ exp.toNat ∧
    mant * 2 ^ exp.toNat < (q + 1) * 2 ^ (-exp).toNat

/-! ## Shared lemmas -/

section Lemmas

variable {DB : Type} (L : Stdlib)
  (ApplyWriteRequests : DB → WritePayload → Except String String × DB)

theorem Items.delete_self (items : Items) (key : String) : items.delete key key = none := by
  simp [Items.delete]

theorem Items.delete_other (items : Items) (key k : String) (h : k ≠ key) :
    items.delete key k = items k := by
  simp [Items.delete, h]

/-- With no entry under the key the call returns at once. -/
theorem handle_absent (items : Items) (userID sessionID message : String) (dbConn : Option DB)
    (h : items (pendingKey userID sessionID) = none) :
    HandlePendingWrite L ApplyWriteRequests items userID sessionID message dbConn =
      { reply := "", handled := false, items := items, dbConn := dbConn, applied := [] } := by
  simp [HandlePendingWrite, h]

/-- The affirmative branch on a nil handle. -/
theorem handle_affirm_nil (items : Items) (userID sessionID message : String)
    (pending : pendingWrite) (h : items (pendingKey userID sessionID) = some pending)
    (ha : isAffirmative (TrimSpace (ToLower L message)) = true) :
    HandlePendingWrite L ApplyWriteRequests items userID sessionID message none =
      { reply := "Failed to apply writes: database unavailable", handled := true,
        items := items.delete (pendingKey userID sessionID), dbConn := none, applied := [] } := by
  simp [HandlePendingWrite, h, ha]

/-- The affirmative branch on a live handle when the applier succeeds. -/
theorem handle_affirm_ok (items : Items) (userID sessionID message : String) (db db1 : DB)
    (pending : pendingWrite) (result : String)
    (h : items (pendingKey userID sessionID) = some pending)
    (ha : isAffirmative (TrimSpace (ToLower L message)) = true)
    (hr : ApplyWriteRequests db pending.Payload = (.ok result, db1)) :
    HandlePendingWrite L ApplyWriteRequests items userID sessionID message (some db) =
      { reply := "Applied writes: " ++ result, handled := true,
        items := items.delete (pendingKey userID sessionID), dbConn := some db1,
        applied := [pending.Payload] } := by
  simp [HandlePendingWrite, h, ha, hr]

/-- The affirmative branch on a live handle when the applier fails. -/
theorem handle_affirm_error (items : Items) (userID sessionID message : String) (db db1 : DB)
    (pending : pendingWrite) (err : String)
    (h : items (pendingKey userID sessionID) = some pending)
    (ha : isAffirmative (TrimSpace (ToLower L message)) = true)
    (hr : ApplyWriteRequests db pending.Payload = (.error err, db1)) :
    HandlePendingWrite L ApplyWriteRequests items userID sessionID message (some db) =
      { reply := "Failed to apply writes: " ++ err, handled := true,
        items := items.delete (pendingKey userID sessionID), dbConn := some db1,
        applied := [pending.Payload] } := by
  simp [HandlePendingWrite, h, ha, hr]

/-- The negative branch. -/
theorem handle_negative (items : Items) (userID sessionID message : String) (dbConn : Option DB)
    (pending : pendingWrite) (h : items (pendingKey userID sessionID) = some pending)
    (ha : isAffirmative (TrimSpace (ToLower L message)) = false)
    (hn : isNegative (TrimSpace (ToLower L message)) = true) :
    HandlePendingWrite L ApplyWriteRequests items userID sessionID message dbConn =
      { reply := "Okay, skipping the write. Let me know how else I can help.", handled := true,
        items := items.delete (pendingKey userID sessionID), dbConn := dbConn, applied := [] } := by
  simp [HandlePendingWrite, h, ha, hn]

/-- The ambiguous branch. -/
theorem handle_ambiguous (items : Items) (userID sessionID message : String)
    (dbConn : Option DB) (pending : pendingWrite)
    (h : items (pendingKey userID sessionID) = some pending)
    (ha : isAffirmative (TrimSpace (ToLower L message)) = false)
    (hn : isNegative (TrimSpace (ToLower L message)) = false) :
    HandlePendingWrite L ApplyWriteRequests items userID sessionID message dbConn =
      { reply := "Pending write request detected. Reply \"yes\" to apply or \"no\" to skip.\n\n"
          ++ pending.RawJSON,
        handled := true, items := items, dbConn := dbConn, applied := [] } := by
  simp [HandlePendingWrite, h, ha, hn]

/-- A call that is not affirmative, or finds no entry, or has a nil handle, invokes
nothing; any other call invokes the applier once, on the stored payload. -/
theorem handle_applied (items : Items) (userID sessionID message : String)
    (dbConn : Option DB) :
    (HandlePendingWrite L ApplyWriteRequests items userID sessionID message dbConn).applied = [] ∨
    ∃ db pending, dbConn = some db ∧ items (pendingKey userID sessionID) = some pending ∧
      isAffirmative (TrimSpace (ToLower L message)) = true ∧
      (HandlePendingWrite L ApplyWriteRequests items userID sessionID message dbConn).applied
        = [pending.Payload] := by
  cases h : items (pendingKey userID sessionID) with
  | none => left; rw [handle_absent L ApplyWriteRequests items _ _ _ _ h]
  | some pending =>
    cases ha : isAffirmative (TrimSpace (ToLower L message)) with
    | false =>
      cases hn : isNegative (TrimSpace (ToLower L message)) with
      | false => left; rw [handle_ambiguous L ApplyWriteRequests items _ _ _ _ pending h ha hn]
      | true => left; rw [handle_negative L ApplyWriteRequests items _ _ _ _ pending h ha hn]
    | true =>
      cases dbConn with
      | none => left; rw [handle_affirm_nil L ApplyWriteRequests items _ _ _ pending h ha]
      | some db =>
        right
        refine ⟨db, pending, rfl, rfl, rfl, ?_⟩
        rcases hr : ApplyWriteRequests db pending.Payload with ⟨r, db1⟩
        cases r with
        | error err => rw [handle_affirm_error L ApplyWriteRequests items _ _ _ db db1 pending err h ha hr]
        | ok result => rw [handle_affirm_ok L ApplyWriteRequests items _ _ _ db db1 pending result h ha hr]

/-- A call that is not affirmative invokes nothing. -/
theorem handle_applied_of_not_affirmative (items : Items) (userID sessionID message : String)
    (dbConn : Option DB) (ha : isAffirmative (TrimSpace (ToLower L message)) = false) :
    (HandlePendingWrite L ApplyWriteRequests items userID sessionID message dbConn).applied = [] := by
  rcases handle_applied L ApplyWriteRequests items userID sessionID message dbConn with h | h
  · exact h
  · obtain ⟨_, _, _, _, ha1, _⟩ := h
    rw [ha] at ha1
    exact absurd ha1 (by simp)

/-- The steps of a history are executions of its calls. -/
theorem history_mem (items : Items) (calls : List (Call DB)) (st : Step DB)
    (hst : st ∈ history L ApplyWriteRequests items calls) :
    ∃ items0 c, st = Call.exec L ApplyWriteRequests items0 c := by
  induction calls generalizing items with
  | nil => simp [history] at hst
  | cons c cs ih =>
    simp only [history, List.mem_cons] at hst
    rcases hst with h | h
    · exact ⟨items, c, h⟩
    · exact ih _ h

end Lemmas

/-- With an entry under the key every branch reports `handled`. -/
theorem handle_present_handled {DB : Type} (L : Stdlib)
    (ApplyWriteRequests : DB → WritePayload → Except String String × DB)
    (items : Items) (userID sessionID message : String) (dbConn : Option DB)
    (pending : pendingWrite) (h : items (pendingKey userID sessionID) = some pending) :
    (HandlePendingWrite L ApplyWriteRequests items userID sessionID message dbConn).handled
      = true := by
  cases ha : isAffirmative (TrimSpace (ToLower L message)) with
  | false =>
    cases hn : isNegative (TrimSpace (ToLower L message)) with
    | false => rw [handle_ambiguous L ApplyWriteRequests items _ _ _ _ pending h ha hn]
    | true => rw [handle_negative L ApplyWriteRequests items _ _ _ _ pending h ha hn]
  | true =>
    cases dbConn with
    | none => rw [handle_affirm_nil L ApplyWriteRequests items _ _ _ pending h ha]
    | some db =>
      rcases hr : ApplyWriteRequests db pending.Payload with ⟨r, db1⟩
      cases r with
      | error err =>
        rw [handle_affirm_error L ApplyWriteRequests items _ _ _ db db1 pending err h ha hr]
      | ok result =>
        rw [handle_affirm_ok L ApplyWriteRequests items _ _ _ db db1 pending result h ha hr]

/-- `isAffirmative` holds exactly when some field of the message, stripped of the
punctuation, is one of the affirmative words. -/
theorem isAffirmative_iff (msg : String) :
    isAffirmative msg = true ↔
      ∃ token ∈ Fields msg,
        Trim token ".,!?;:" ∈ ["yes", "y", "yeah", "yep", "sure", "confirm", "ok", "okay"] := by
  simp [isAffirmative, List.any_eq_true]

/-- A reply that starts with "Failed" is not the decline acknowledgment. -/
theorem failed_ne_decline (e : String) :
    "Failed to apply writes: " ++ e
      ≠ "Okay, skipping the write. Let me know how else I can help." := by
  intro h
  have := congrArg String.data h
  simp at this

/-- A reply that starts with "Applied" is not the decline acknowledgment. -/
theorem applied_ne_decline (s : String) :
    "Applied writes: " ++ s
      ≠ "Okay, skipping the write. Let me know how else I can help." := by
  intro h
  have := congrArg String.data h
  simp at this

/-- The validation loop fails exactly when some request is not valid. -/
theorem summaryLoop_eq_none_iff (L : Stdlib) (reqs : List WriteRequest) (parts : List String) :
    summaryLoop L reqs parts = none ↔ ∃ req ∈ reqs, ¬ validRequest L req := by
  induction reqs generalizing parts with
  | nil => simp [summaryLoop]
  | cons req rest ih =>
    by_cases hv : validRequest L req
    · have hv1 := hv
      obtain ⟨h1, h2, h3⟩ := hv1
      have h3l : req.Records.length ≠ 0 := fun hl => h3 (List.length_eq_zero.mp hl)
      simp only [summaryLoop, h1, h2, h3l, ne_eq, not_true_eq_false, or_self, ↓reduceIte, ih,
        List.mem_cons, exists_eq_or_imp, hv, false_or]
    · have hc : ToLower L (TrimSpace req.Action) ≠ "insert" ∨ TrimSpace req.Table = "" ∨
          req.Records.length = 0 := by
        by_contra hcon
        push_neg at hcon
        exact hv ⟨hcon.1, hcon.2.1, fun hnil => hcon.2.2 (by simp [hnil])⟩
      simp only [summaryLoop, ne_eq, hc, ↓reduceIte, List.mem_cons, exists_eq_or_imp, hv,
        not_false_eq_true, true_or]

/-- The validation loop succeeds exactly when every request is valid. -/
theorem summaryLoop_isSome_iff (L : Stdlib) (reqs : List WriteRequest) (parts : List String) :
    (∃ out, summaryLoop L reqs parts = some out) ↔ ∀ req ∈ reqs, validRequest L req := by
  have h := summaryLoop_eq_none_iff L reqs parts
  constructor
  · rintro ⟨out, ho⟩ req hreq
    by_contra hv
    rw [h.mpr ⟨req, hreq, hv⟩] at ho
    simp at ho
  · intro hall
    cases hs : summaryLoop L reqs parts with
    | some out => exact ⟨out, rfl⟩
    | none =>
      obtain ⟨req, hreq, hv⟩ := h.mp hs
      exact absurd (hall req hreq) hv

/-- The result of `ExtractWritePayload` when the candidate decodes to a payload with
at least one request, in terms of the validation loop. -/
theorem extract_of_decoded (L : Stdlib) (text : String) (payload : WritePayload)
    (hc : candidate text ≠ "") (hd : L.decodePayload (candidate text) = .ok payload)
    (hne : payload.WriteRequests ≠ []) :
    ExtractWritePayload L text =
      match summaryLoop L payload.WriteRequests [] with
      | none => (none, "", "", some "invalid write request")
      | some summaryParts => (some payload, candidate text, Join summaryParts ", ", none) := by
  have hl : payload.WriteRequests.length ≠ 0 := fun h => hne (List.length_eq_zero.mp h)
  simp only [ExtractWritePayload, hc, hd, hl, ↓reduceIte]

/-- A request with the action `update` is not valid. -/
theorem update_not_valid (L : Stdlib) (table : String) (records : List Record) :
    ¬ validRequest L { Action := "update", Table := table, Records := records } := by
  intro h
  have h1 : ToLower L (TrimSpace "update") = "update" := rfl
  have h2 := h.1
  simp only [h1] at h2
  exact absurd h2 (by decide)

/-- `startsWith` on a one-character pattern looks at the head. -/
theorem startsWith_singleton (l : List Char) (c : Char) :
    startsWith l [c] = true ↔ l.head? = some c := by
  cases l with
  | nil => simp [startsWith]
  | cons a t => simp [startsWith]

/-! ## Lemmas on fields and trimming -/

/-- A run of white space holds no field. -/
theorem fieldsLoop_spaces (ws : List Char) (h : ∀ c ∈ ws, isSpace c = true) :
    fieldsLoop ws [] = [] := by
  induction ws with
  | nil => rfl
  | cons c cs ih =>
    have hc := h c (List.mem_cons_self _ _)
    simp only [fieldsLoop, hc, ↓reduceIte, List.isEmpty_nil]
    exact ih (fun x hx => h x (List.mem_cons_of_mem _ hx))

/-- White space at the end adds no field. -/
theorem fieldsLoop_append_spaces (s ws cur : List Char) (h : ∀ c ∈ ws, isSpace c = true) :
    fieldsLoop (s ++ ws) cur = fieldsLoop s cur := by
  induction s generalizing cur with
  | nil =>
    cases ws with
    | nil => rfl
    | cons c cs =>
      have hc := h c (List.mem_cons_self _ _)
      have hcs := fieldsLoop_spaces cs (fun x hx => h x (List.mem_cons_of_mem _ hx))
      cases cur with
      | nil => simp [fieldsLoop, hc, hcs]
      | cons d ds => simp [fieldsLoop, hc, hcs]
  | cons a t ih =>
    have e1 := ih []
    have e2 := ih (a :: cur)
    simp only [List.cons_append, fieldsLoop, List.append_eq, e1, e2]

/-- White space at the start adds no field. -/
theorem fieldsLoop_spaces_append (ws s : List Char) (h : ∀ c ∈ ws, isSpace c = true) :
    fieldsLoop (ws ++ s) [] = fieldsLoop s [] := by
  induction ws with
  | nil => rfl
  | cons c cs ih =>
    have hc := h c (List.mem_cons_self _ _)
    simp only [List.cons_append, fieldsLoop, hc, ↓reduceIte, List.isEmpty_nil]
    exact ih (fun x hx => h x (List.mem_cons_of_mem _ hx))

/-- A list is what trimming keeps of it, between a stripped head and a stripped tail. -/
theorem trimChars_decomp (p : Char → Bool) (s : List Char) :
    ∃ pre post, (∀ c ∈ pre, p c = true) ∧ (∀ c ∈ post, p c = true) ∧
      s = pre ++ trimChars p s ++ post := by
  refine ⟨s.takeWhile p, (((s.dropWhile p).reverse).takeWhile p).reverse, ?_, ?_, ?_⟩
  · intro c hc
    exact List.mem_takeWhile_imp hc
  · intro c hc
    rw [List.mem_reverse] at hc
    exact List.mem_takeWhile_imp hc
  · have h1 : s = s.takeWhile p ++ s.dropWhile p := (List.takeWhile_append_dropWhile p s).symm
    have h2 : (s.dropWhile p)
        = trimChars p s ++ (((s.dropWhile p).reverse).takeWhile p).reverse := by
      unfold trimChars
      rw [← List.reverse_append, List.takeWhile_append_dropWhile, List.reverse_reverse]
    rw [List.append_assoc, ← h2]
    exact h1

/-- Dropping a stripped head in front of a list that starts with a kept character. -/
theorem dropWhile_append_kept (p : Char → Bool) (pre : List Char) (a : Char) (t : List Char)
    (hpre : ∀ c ∈ pre, p c = true) (ha : p a = false) :
    (pre ++ a :: t).dropWhile p = a :: t := by
  induction pre with
  | nil => simp [List.dropWhile, ha]
  | cons c cs ih =>
    have hc := hpre c (List.mem_cons_self _ _)
    simp only [List.cons_append, List.dropWhile, hc]
    exact ih (fun x hx => hpre x (List.mem_cons_of_mem _ hx))

/-- Trimming a word wrapped in stripped characters gives the word back, when the
word starts and ends with a kept character. -/
theorem trimChars_wrapped (p : Char → Bool) (pre w post : List Char)
    (hpre : ∀ c ∈ pre, p c = true) (hpost : ∀ c ∈ post, p c = true)
    (hhead : w.head?.map p = some false) (hlast : w.getLast?.map p = some false) :
    trimChars p (pre ++ w ++ post) = w := by
  obtain ⟨a, t, rfl⟩ : ∃ a t, w = a :: t := by
    cases w with
    | nil => simp at hhead
    | cons a t => exact ⟨a, t, rfl⟩
  have ha : p a = false := by simpa using hhead
  have h1 : (pre ++ (a :: t) ++ post).dropWhile p = (a :: t) ++ post := by
    rw [List.append_assoc, List.cons_append]
    exact dropWhile_append_kept p pre a (t ++ post) hpre ha
  obtain ⟨b, r, hr⟩ : ∃ b r, (a :: t).reverse = b :: r := by
    cases hrev : (a :: t).reverse with
    | nil => simp at hrev
    | cons b r => exact ⟨b, r, rfl⟩
  have hb : p b = false := by
    rw [← List.head?_reverse, hr] at hlast
    simpa using hlast
  unfold trimChars
  rw [h1, List.reverse_append, hr]
  have h2 := dropWhile_append_kept p post.reverse b r
    (fun c hc => hpost c (List.mem_reverse.mp hc)) hb
  rw [h2, ← hr, List.reverse_reverse]

/-- A token trims to a given word exactly when it is the word wrapped in characters
of the cut set, for a word that neither starts nor ends with such a character. -/
theorem Trim_eq_iff_wrapped (token cutset w : String)
    (hhead : w.data.head?.map (fun c => cutset.data.contains c) = some false)
    (hlast : w.data.getLast?.map (fun c => cutset.data.contains c) = some false) :
    Trim token cutset = w ↔
      ∃ pre post : List Char, (∀ c ∈ pre, c ∈ cutset.data) ∧ (∀ c ∈ post, c ∈ cutset.data) ∧
        token.data = pre ++ w.data ++ post := by
  constructor
  · intro h
    obtain ⟨pre, post, hpre, hpost, hs⟩ :=
      trimChars_decomp (fun c => cutset.data.contains c) token.data
    refine ⟨pre, post, fun c hc => ?_, fun c hc => ?_, ?_⟩
    · simpa using hpre c hc
    · simpa using hpost c hc
    · rw [← h]
      exact hs
  · rintro ⟨pre, post, hpre, hpost, hs⟩
    unfold Trim
    rw [hs, trimChars_wrapped _ pre w.data post (fun c hc => by simpa using hpre c hc)
      (fun c hc => by simpa using hpost c hc) hhead hlast]

/-- `isNegative` holds exactly when some field of the message, stripped of the
punctuation, is one of the negative words. -/
theorem isNegative_iff (msg : String) :
    isNegative msg = true ↔
      ∃ token ∈ Fields msg, Trim token ".,!?;:" ∈ ["no", "n", "nope", "nah", "cancel"] := by
  simp [isNegative, List.any_eq_true]

/-- Membership of the trimmed token in a list of words, each of which neither starts
nor ends with a character of the cut set. -/
theorem Trim_mem_iff_wrapped (token cutset : String) (words : List String)
    (hw : ∀ w ∈ words,
      w.data.head?.map (fun c => cutset.data.contains c) = some false ∧
      w.data.getLast?.map (fun c => cutset.data.contains c) = some false) :
    Trim token cutset ∈ words ↔
      ∃ w ∈ words, ∃ pre post : List Char,
        (∀ c ∈ pre, c ∈ cutset.data) ∧ (∀ c ∈ post, c ∈ cutset.data) ∧
        token.data = pre ++ w.data ++ post := by
  constructor
  · intro h
    exact ⟨_, h, (Trim_eq_iff_wrapped token cutset _ (hw _ h).1 (hw _ h).2).mp rfl⟩
  · rintro ⟨w, hmem, hex⟩
    rw [(Trim_eq_iff_wrapped token cutset w (hw w hmem).1 (hw w hmem).2).mpr hex]
    exact hmem

/-- Fields do not see the trimming of white space. -/
theorem Fields_TrimSpace (s : String) : Fields (TrimSpace s) = Fields s := by
  obtain ⟨pre, post, hpre, hpost, hs⟩ := trimChars_decomp isSpace s.data
  show fieldsLoop (trimChars isSpace s.data) [] = fieldsLoop s.data []
  conv_rhs => rw [hs]
  rw [List.append_assoc, fieldsLoop_spaces_append _ _ hpre, fieldsLoop_append_spaces _ _ _ hpost]

/-- The classification reads only the fields of the lower-cased message. -/
theorem isAffirmative_answer (L : Stdlib) (m : String) :
    isAffirmative (TrimSpace (ToLower L m)) = isAffirmative (ToLower L m) := by
  unfold isAffirmative
  rw [Fields_TrimSpace]

/-- The classification reads only the fields of the lower-cased message. -/
theorem isNegative_answer (L : Stdlib) (m : String) :
    isNegative (TrimSpace (ToLower L m)) = isNegative (ToLower L m) := by
  unfold isNegative
  rw [Fields_TrimSpace]

/-- Lower-casing sees no difference between messages that differ in letter case. -/
theorem ToLower_caseVariant (L : Stdlib) (m m' : String) (h : caseVariant L m m') :
    ToLower L m = ToLower L m' := by
  have key : ∀ l l' : List Char, List.Forall₂ (sameLetter L) l l' →
      l.map (toLowerRune L) = l'.map (toLowerRune L) := by
    intro l l' hl
    induction hl with
    | nil => rfl
    | cons hc _ ih =>
      simp only [List.map_cons, ih]
      rw [hc]
  unfold ToLower
  rw [key m.data m'.data h]

/-- The fields of a lower-cased message are not changed by white space around it. -/
theorem Fields_ToLower_padded (L : Stdlib)
    (hL : ∀ c, isSpace c = true → isSpace (toLowerRune L c) = true) (pre m post : String)
    (hpre : ∀ c ∈ pre.data, isSpace c = true) (hpost : ∀ c ∈ post.data, isSpace c = true) :
    Fields (ToLower L (pre ++ m ++ post)) = Fields (ToLower L m) := by
  show fieldsLoop ((pre ++ m ++ post).data.map (toLowerRune L)) []
    = fieldsLoop (m.data.map (toLowerRune L)) []
  rw [String.data_append, String.data_append, List.map_append, List.map_append,
    List.append_assoc, fieldsLoop_spaces_append, fieldsLoop_append_spaces]
  · intro c hc
    obtain ⟨d, hd, rfl⟩ := List.mem_map.mp hc
    exact hL d (hpost d hd)
  · intro c hc
    obtain ⟨d, hd, rfl⟩ := List.mem_map.mp hc
    exact hL d (hpre d hd)

/-- An ASCII capital letter and its small letter have the same lower-case form. -/
theorem sameLetter_ascii (L : Stdlib) (c : Char) (h : 0x41 ≤ c.toNat ∧ c.toNat ≤ 0x5A) :
    sameLetter L c (Char.ofNat (c.toNat + 0x20)) := by
  have hn : ∀ n : Nat, 0x41 ≤ n → n ≤ 0x5A → (Char.ofNat (n + 0x20)).toNat = n + 0x20 := by
    intro n h1 h2
    interval_cases n <;> rfl
  have hv : (Char.ofNat (c.toNat + 0x20)).toNat = c.toNat + 0x20 := hn c.toNat h.1 h.2
  unfold sameLetter toLowerRune
  rw [hv]
  have h1 : c.toNat ≤ 0x7F := by omega
  have h2 : c.toNat + 0x20 ≤ 0x7F := by omega
  have h3 : ¬ (0x41 ≤ c.toNat + 0x20 ∧ c.toNat + 0x20 ≤ 0x5A) := by omega
  simp only [h1, h2, h, h3, ↓reduceIte, and_self]

/-! ## Lemmas on the capture step and on keys -/

/-- A fragment that is not capturable is skipped. -/
theorem capture_skip (L : Stdlib) (items : Items) (userID sessionID reply : String)
    (rest : List String) (h : ¬ capturable L reply) :
    MaybeCaptureWrite L items userID sessionID (reply :: rest)
      = MaybeCaptureWrite L items userID sessionID rest := by
  rcases he : ExtractWritePayload L reply with ⟨p, raw, summary, e⟩
  cases p with
  | none => simp [MaybeCaptureWrite, he]
  | some payload =>
    cases e with
    | some err => simp [MaybeCaptureWrite, he]
    | none =>
      exfalso
      apply h
      simp [capturable, he]

/-- A capturable fragment at the head is taken. -/
theorem capture_take (L : Stdlib) (items : Items) (userID sessionID reply : String)
    (rest : List String) (payload : WritePayload) (raw summary : String)
    (he : ExtractWritePayload L reply = (some payload, raw, summary, none)) :
    MaybeCaptureWrite L items userID sessionID (reply :: rest) =
      ("I can apply the following write request(s): " ++ summary
          ++ "\n\nReply \"yes\" to insert, or \"no\" to skip.\n\n```json\n" ++ raw ++ "\n```",
        true,
        items.set (pendingKey userID sessionID)
          { Payload := payload, RawJSON := raw, Summary := summary }) := by
  simp [MaybeCaptureWrite, he]

/-- Fragments that are not capturable in front are skipped. -/
theorem capture_skip_all (L : Stdlib) (items : Items) (userID sessionID : String)
    (pre rest : List String) (h : ∀ x ∈ pre, ¬ capturable L x) :
    MaybeCaptureWrite L items userID sessionID (pre ++ rest)
      = MaybeCaptureWrite L items userID sessionID rest := by
  induction pre with
  | nil => rfl
  | cons x xs ih =>
    rw [List.cons_append, capture_skip L items _ _ x _ (h x (List.mem_cons_self _ _))]
    exact ih (fun y hy => h y (List.mem_cons_of_mem _ hy))

/-- Every list of fragments has a first capturable one, or none at all. -/
theorem capture_cases (L : Stdlib) (replies : List String) :
    (∀ x ∈ replies, ¬ capturable L x) ∨
    ∃ pre r post, replies = pre ++ r :: post ∧ (∀ x ∈ pre, ¬ capturable L x) ∧
      capturable L r := by
  induction replies with
  | nil => left; simp
  | cons x xs ih =>
    by_cases hx : capturable L x
    · exact Or.inr ⟨[], x, xs, rfl, by simp, hx⟩
    · rcases ih with h | ⟨pre, r, post, rfl, hpre, hr⟩
      · left
        intro y hy
        rcases List.mem_cons.mp hy with rfl | hy
        · exact hx
        · exact h y hy
      · refine Or.inr ⟨x :: pre, r, post, rfl, ?_, hr⟩
        intro y hy
        rcases List.mem_cons.mp hy with rfl | hy
        · exact hx
        · exact hpre y hy

/-- What a capturable fragment yields. -/
theorem capturable_result (L : Stdlib) (r : String) (h : capturable L r) :
    ∃ payload raw summary, ExtractWritePayload L r = (some payload, raw, summary, none) := by
  rcases he : ExtractWritePayload L r with ⟨p, raw, summary, e⟩
  rw [capturable, he] at h
  obtain ⟨h1, h2⟩ := h
  cases p with
  | none => exact absurd rfl h1
  | some payload =>
    simp only at h2
    subst h2
    exact ⟨payload, raw, summary, rfl⟩

/-- For one user, distinct sessions have distinct keys. -/
theorem pendingKey_session_injective (userID s1 s2 : String)
    (h : pendingKey userID s1 = pendingKey userID s2) : s1 = s2 := by
  have hd := congrArg String.data h
  simp only [pendingKey, String.data_append, List.append_assoc] at hd
  have := List.append_cancel_left (List.append_cancel_left hd)
  exact String.ext this

/-- `HandlePendingWrite` leaves every other key of the store alone. -/
theorem handle_items_other {DB : Type} (L : Stdlib)
    (ApplyWriteRequests : DB → WritePayload → Except String String × DB)
    (items : Items) (userID sessionID message : String) (dbConn : Option DB) (k : String)
    (hk : k ≠ pendingKey userID sessionID) :
    (HandlePendingWrite L ApplyWriteRequests items userID sessionID message dbConn).items k
      = items k := by
  cases h : items (pendingKey userID sessionID) with
  | none => rw [handle_absent L ApplyWriteRequests items _ _ _ _ h]
  | some pending =>
    cases ha : isAffirmative (TrimSpace (ToLower L message)) with
    | false =>
      cases hn : isNegative (TrimSpace (ToLower L message)) with
      | false => rw [handle_ambiguous L ApplyWriteRequests items _ _ _ _ pending h ha hn]
      | true =>
        rw [handle_negative L ApplyWriteRequests items _ _ _ _ pending h ha hn]
        exact Items.delete_other _ _ _ hk
    | true =>
      cases dbConn with
      | none =>
        rw [handle_affirm_nil L ApplyWriteRequests items _ _ _ pending h ha]
        exact Items.delete_other _ _ _ hk
      | some db =>
        rcases hr : ApplyWriteRequests db pending.Payload with ⟨r, db1⟩
        cases r with
        | error err =>
          rw [handle_affirm_error L ApplyWriteRequests items _ _ _ db db1 pending err h ha hr]
          exact Items.delete_other _ _ _ hk
        | ok result =>
          rw [handle_affirm_ok L ApplyWriteRequests items _ _ _ db db1 pending result h ha hr]
          exact Items.delete_other _ _ _ hk

/-- `MaybeCaptureWrite` leaves every other key of the store alone. -/
theorem capture_items_other (L : Stdlib) (items : Items) (userID sessionID : String)
    (replies : List String) (k : String) (hk : k ≠ pendingKey userID sessionID) :
    (MaybeCaptureWrite L items userID sessionID replies).2.2 k = items k := by
  induction replies with
  | nil => rfl
  | cons x xs ih =>
    by_cases hx : capturable L x
    · obtain ⟨payload, raw, summary, he⟩ := capturable_result L x hx
      rw [capture_take L items _ _ x xs payload raw summary he]
      simp [Items.set, hk]
    · rw [capture_skip L items _ _ x xs hx]
      exact ih

/-! ## Lemmas on the write applier -/

/-- Running inserts one list after the other. -/
theorem runRows_append {DB : Type} (queryRow : QueryRow DB) (db : DB) (a b : List Row) :
    runRows queryRow db (a ++ b) = runRows queryRow (runRows queryRow db a) b := by
  simp [runRows, List.foldl_append]

/-- Success of inserts run one list after the other. -/
theorem allSucceed_append {DB : Type} (queryRow : QueryRow DB) (db : DB) (a b : List Row) :
    allSucceed queryRow db (a ++ b) ↔
      allSucceed queryRow db a ∧ allSucceed queryRow (runRows queryRow db a) b := by
  induction a generalizing db with
  | nil => simp [allSucceed, runRows]
  | cons row rest ih =>
    simp only [List.cons_append, allSucceed, List.append_eq, ih, runRows, List.foldl_cons,
      and_assoc]

/-- The switch has a case exactly for the seven tables, and the body of a case
follows `rowOf`. -/
theorem applyCase_spec {DB : Type} (L : Stdlib) (queryRow : QueryRow DB) (table : String) :
    (table ∉ supportedTables → applyCase L queryRow table = none) ∧
    (table ∈ supportedTables →
      ∃ step, applyCase L queryRow table = some step ∧
        stepFollows queryRow step (rowOf L table)) := by
  constructor
  · intro h
    simp only [supportedTables, List.mem_cons, List.mem_singleton, List.not_mem_nil, or_false,
      not_or] at h
    obtain ⟨h1, h2, h3, h4, h5, h6, h7⟩ := h
    simp [applyCase, h1, h2, h3, h4, h5, h6, h7]
  · intro h
    simp only [supportedTables, List.mem_cons, List.mem_singleton, List.not_mem_nil,
      or_false] at h
    rcases h with rfl | rfl | rfl | rfl | rfl | rfl | rfl
    · cases h : applyCase L queryRow _ with
      | none => simp [applyCase] at h
      | some step =>
        simp only [applyCase, String.reduceEq, ↓reduceIte, Option.some.injEq] at h
        subst h
        exact ⟨_, rfl, fun db record => by simp [rowOf, InsertJobApplication]⟩
    · cases h : applyCase L queryRow _ with
      | none => simp [applyCase] at h
      | some step =>
        simp only [applyCase, String.reduceEq, ↓reduceIte, Option.some.injEq] at h
        subst h
        exact ⟨_, rfl, fun db record => by simp [rowOf, InsertCodingProblem]⟩
    · cases h : applyCase L queryRow _ with
      | none => simp [applyCase] at h
      | some step =>
        simp only [applyCase, String.reduceEq, ↓reduceIte, Option.some.injEq] at h
        subst h
        exact ⟨_, rfl, fun db record => by simp [rowOf, InsertProject]⟩
    · cases h : applyCase L queryRow _ with
      | none => simp [applyCase] at h
      | some step =>
        simp only [applyCase, String.reduceEq, ↓reduceIte, Option.some.injEq] at h
        subst h
        exact ⟨_, rfl, fun db record => by simp [rowOf, InsertNetworkingContact]⟩
    · cases h : applyCase L queryRow _ with
      | none => simp [applyCase] at h
      | some step =>
        simp only [applyCase, String.reduceEq, ↓reduceIte, Option.some.injEq] at h
        subst h
        refine ⟨_, rfl, fun db record => ?_⟩
        cases hd : getDate L record "target_date" <;> simp [rowOf, InsertDailyGoal, hd]
    · cases h : applyCase L queryRow _ with
      | none => simp [applyCase] at h
      | some step =>
        simp only [applyCase, String.reduceEq, ↓reduceIte, Option.some.injEq] at h
        subst h
        refine ⟨_, rfl, fun db record => ?_⟩
        cases hd : getDate L record "week_of" <;> simp [rowOf, InsertWeeklyGoal, hd]
    · cases h : applyCase L queryRow _ with
      | none => simp [applyCase] at h
      | some step =>
        simp only [applyCase, String.reduceEq, ↓reduceIte, Option.some.injEq] at h
        subst h
        refine ⟨_, rfl, fun db record => ?_⟩
        cases hd : getDate L record "month_of" <;> simp [rowOf, InsertMonthlyGoal, hd]

/-- For a goal table the body of its case reports the table's error on a record
without a date, and `rowOf` assigns no row exactly to such records. -/
theorem applyCase_goal {DB : Type} (L : Stdlib) (queryRow : QueryRow DB)
    (table field msg : String) (hg : (table, field, msg) ∈ goalTables) :
    table ∈ supportedTables ∧
    (∀ record, rowOf L table record = none ↔ getDate L record field = none) ∧
    (∀ step, applyCase L queryRow table = some step →
      ∀ db record, getDate L record field = none → step db record = (.error msg, db)) := by
  simp only [goalTables, List.mem_cons, List.mem_singleton, List.not_mem_nil, or_false,
    Prod.mk.injEq] at hg
  rcases hg with ⟨rfl, rfl, rfl⟩ | ⟨rfl, rfl, rfl⟩ | ⟨rfl, rfl, rfl⟩
  · refine ⟨by simp [supportedTables], fun record => by simp [rowOf], ?_⟩
    intro step hs db record hd
    simp only [applyCase, String.reduceEq, ↓reduceIte, Option.some.injEq] at hs
    subst hs
    simp [hd]
  · refine ⟨by simp [supportedTables], fun record => by simp [rowOf], ?_⟩
    intro step hs db record hd
    simp only [applyCase, String.reduceEq, ↓reduceIte, Option.some.injEq] at hs
    subst hs
    simp [hd]
  · refine ⟨by simp [supportedTables], fun record => by simp [rowOf], ?_⟩
    intro step hs db record hd
    simp only [applyCase, String.reduceEq, ↓reduceIte, Option.some.injEq] at hs
    subst hs
    simp [hd]

/-- The record loop over records that all have a row whose insert succeeds. -/
theorem insertRecords_good {DB : Type} (queryRow : QueryRow DB)
    (step : DB → Record → Except String Int × DB) (rowOpt : Record → Option Row)
    (hstep : stepFollows queryRow step rowOpt) (good rest : List Record) (db : DB) (total : Nat)
    (hrow : ∀ r ∈ good, rowOpt r ≠ none)
    (hins : allSucceed queryRow db (good.filterMap rowOpt)) :
    insertRecords step db (good ++ rest) total =
      insertRecords step (runRows queryRow db (good.filterMap rowOpt)) rest
        (total + good.length) := by
  induction good generalizing db total with
  | nil => simp [runRows]
  | cons r rs ih =>
    obtain ⟨row, hr⟩ := Option.ne_none_iff_exists'.mp (hrow r (List.mem_cons_self _ _))
    have hq := (hstep db r).1 row hr
    simp only [List.filterMap_cons, hr, allSucceed] at hins
    obtain ⟨⟨id, hid⟩, hrest⟩ := hins
    have hq2 : step db r = (.ok id, (queryRow db row).2) := by
      rw [hq]
      exact Prod.ext hid rfl
    have := ih (queryRow db row).2 (total + 1)
      (fun x hx => hrow x (List.mem_cons_of_mem _ hx)) hrest
    have e : total + (rs.length + 1) = total + 1 + rs.length := by omega
    simp only [List.cons_append, insertRecords, hq2, List.filterMap_cons, hr, runRows,
      List.foldl_cons, List.length_cons, List.append_eq, e]
    exact this

/-- A record loop that completes has inserted one row for every record. -/
theorem insertRecords_ok {DB : Type} (queryRow : QueryRow DB)
    (step : DB → Record → Except String Int × DB) (rowOpt : Record → Option Row)
    (hstep : stepFollows queryRow step rowOpt) (records : List Record) (db db1 : DB)
    (total total1 : Nat)
    (h : insertRecords step db records total = (.ok total1, db1)) :
    (∀ r ∈ records, rowOpt r ≠ none) ∧
    allSucceed queryRow db (records.filterMap rowOpt) ∧
    db1 = runRows queryRow db (records.filterMap rowOpt) ∧
    total1 = total + records.length := by
  induction records generalizing db total with
  | nil =>
    simp only [insertRecords, Prod.mk.injEq, Except.ok.injEq] at h
    simp [allSucceed, runRows, h.1.symm, h.2.symm]
  | cons r rs ih =>
    cases hr : rowOpt r with
    | none =>
      obtain ⟨msg, hm⟩ := (hstep db r).2 hr
      simp [insertRecords, hm] at h
    | some row =>
      have hq := (hstep db r).1 row hr
      rcases hres : queryRow db row with ⟨res, db2⟩
      cases res with
      | error e =>
        rw [hres] at hq
        simp [insertRecords, hq] at h
      | ok id =>
        rw [hres] at hq
        simp only [insertRecords, hq] at h
        obtain ⟨h1, h2, h3, h4⟩ := ih db2 (total + 1) h
        refine ⟨?_, ?_, ?_, ?_⟩
        · intro x hx
          rcases List.mem_cons.mp hx with rfl | hx
          · rw [hr]
            simp
          · exact h1 x hx
        · simp only [List.filterMap_cons, hr, allSucceed, hres]
          exact ⟨⟨id, rfl⟩, h2⟩
        · simp only [List.filterMap_cons, hr, runRows, List.foldl_cons, hres]
          exact h3
        · rw [h4, List.length_cons]
          omega

/-- The record loop stops at the first record without a row, after the inserts of
the records before it. -/
theorem insertRecords_stop {DB : Type} (queryRow : QueryRow DB)
    (step : DB → Record → Except String Int × DB) (rowOpt : Record → Option Row)
    (hstep : stepFollows queryRow step rowOpt) (good : List Record) (bad : Record)
    (rest : List Record) (db : DB) (total : Nat) (msg : String)
    (hrow : ∀ r ∈ good, rowOpt r ≠ none)
    (hins : allSucceed queryRow db (good.filterMap rowOpt))
    (hbad : ∀ d, step d bad = (.error msg, d)) :
    insertRecords step db (good ++ bad :: rest) total =
      (.error msg, runRows queryRow db (good.filterMap rowOpt)) := by
  rw [insertRecords_good queryRow step rowOpt hstep good (bad :: rest) db total hrow hins]
  simp [insertRecords, hbad]

/-- A request whose action is not `insert` stops the loop. -/
theorem applyRequests_bad_action {DB : Type} (L : Stdlib) (queryRow : QueryRow DB) (db : DB)
    (req : WriteRequest) (rest : List WriteRequest) (total : Nat) (summaries : List String)
    (h : ToLower L (TrimSpace req.Action) ≠ "insert") :
    applyRequests L queryRow db (req :: rest) total summaries
      = (.error ("unsupported action: " ++ req.Action), db) := by
  simp [applyRequests, h]

/-- A request for a table outside the seven stops the loop. -/
theorem applyRequests_bad_table {DB : Type} (L : Stdlib) (queryRow : QueryRow DB) (db : DB)
    (req : WriteRequest) (rest : List WriteRequest) (total : Nat) (summaries : List String)
    (ha : ToLower L (TrimSpace req.Action) = "insert")
    (ht : ToLower L (TrimSpace req.Table) ∉ supportedTables) :
    applyRequests L queryRow db (req :: rest) total summaries
      = (.error ("unsupported table: " ++ req.Table), db) := by
  simp [applyRequests, ha, (applyCase_spec L queryRow _).1 ht]

/-- A request with an error in its record loop stops the loop. -/
theorem applyRequests_record_error {DB : Type} (L : Stdlib) (queryRow : QueryRow DB) (db : DB)
    (req : WriteRequest) (rest : List WriteRequest) (total : Nat) (summaries : List String)
    (step : DB → Record → Except String Int × DB) (msg : String) (db1 : DB)
    (ha : ToLower L (TrimSpace req.Action) = "insert")
    (hs : applyCase L queryRow (ToLower L (TrimSpace req.Table)) = some step)
    (hr : insertRecords step db req.Records total = (.error msg, db1)) :
    applyRequests L queryRow db (req :: rest) total summaries = (.error msg, db1) := by
  simp [applyRequests, ha, hs, hr]

/-- A request whose record loop completes hands over to the next request. -/
theorem applyRequests_record_ok {DB : Type} (L : Stdlib) (queryRow : QueryRow DB) (db : DB)
    (req : WriteRequest) (rest : List WriteRequest) (total : Nat) (summaries : List String)
    (step : DB → Record → Except String Int × DB) (total1 : Nat) (db1 : DB)
    (ha : ToLower L (TrimSpace req.Action) = "insert")
    (hs : applyCase L queryRow (ToLower L (TrimSpace req.Table)) = some step)
    (hr : insertRecords step db req.Records total = (.ok total1, db1)) :
    applyRequests L queryRow db (req :: rest) total summaries =
      applyRequests L queryRow db1 rest total1
        (summaries ++ [toString req.Records.length ++ " " ++ ToLower L (TrimSpace req.Table)]) := by
  simp [applyRequests, ha, hs, hr]

/-- What a completed first request tells: its action, its table, its records. -/
theorem applyRequests_head_ok {DB : Type} (L : Stdlib) (queryRow : QueryRow DB) (db : DB)
    (req : WriteRequest) (rest : List WriteRequest) (total : Nat) (summaries : List String)
    (out : Nat × List String) (db2 : DB)
    (h : applyRequests L queryRow db (req :: rest) total summaries = (.ok out, db2)) :
    ToLower L (TrimSpace req.Action) = "insert" ∧
    ToLower L (TrimSpace req.Table) ∈ supportedTables ∧
    ∃ step total1 db1,
      applyCase L queryRow (ToLower L (TrimSpace req.Table)) = some step ∧
      stepFollows queryRow step (rowOf L (ToLower L (TrimSpace req.Table))) ∧
      insertRecords step db req.Records total = (.ok total1, db1) ∧
      applyRequests L queryRow db1 rest total1
        (summaries ++ [toString req.Records.length ++ " " ++ ToLower L (TrimSpace req.Table)])
        = (.ok out, db2) := by
  by_cases ha : ToLower L (TrimSpace req.Action) = "insert"
  · by_cases ht : ToLower L (TrimSpace req.Table) ∈ supportedTables
    · obtain ⟨step, hs, hf⟩ := (applyCase_spec L queryRow _).2 ht
      rcases hr : insertRecords step db req.Records total with ⟨res, db1⟩
      cases res with
      | error msg =>
        rw [applyRequests_record_error L queryRow db req rest total summaries step msg db1
          ha hs hr] at h
        simp at h
      | ok total1 =>
        rw [applyRequests_record_ok L queryRow db req rest total summaries step total1 db1
          ha hs hr] at h
        exact ⟨ha, ht, step, total1, db1, hs, hf, hr, h⟩
    · rw [applyRequests_bad_table L queryRow db req rest total summaries ha ht] at h
      simp at h
  · rw [applyRequests_bad_action L queryRow db req rest total summaries ha] at h
    simp at h

/-- A loop that completes on a list of requests continues with what follows. -/
theorem applyRequests_append {DB : Type} (L : Stdlib) (queryRow : QueryRow DB)
    (pre rest : List WriteRequest) (db db1 : DB) (total total1 : Nat)
    (summaries summaries1 : List String)
    (h : applyRequests L queryRow db pre total summaries = (.ok (total1, summaries1), db1)) :
    applyRequests L queryRow db (pre ++ rest) total summaries
      = applyRequests L queryRow db1 rest total1 summaries1 := by
  induction pre generalizing db total summaries with
  | nil =>
    simp only [applyRequests, Prod.mk.injEq, Except.ok.injEq] at h
    obtain ⟨⟨rfl, rfl⟩, rfl⟩ := h
    rfl
  | cons req reqs ih =>
    obtain ⟨ha, _, step, t2, db2, hs, _, hr, hrest⟩ :=
      applyRequests_head_ok L queryRow db req reqs total summaries _ db1 h
    rw [List.cons_append,
      applyRequests_record_ok L queryRow db req (reqs ++ rest) total summaries step t2 db2
        ha hs hr]
    exact ih db2 t2 _ hrest

/-- A loop that completes has taken every request through its case and inserted one
row for every record, in order. -/
theorem applyRequests_ok {DB : Type} (L : Stdlib) (queryRow : QueryRow DB)
    (reqs : List WriteRequest) (db db1 : DB) (total total1 : Nat)
    (summaries summaries1 : List String)
    (h : applyRequests L queryRow db reqs total summaries = (.ok (total1, summaries1), db1)) :
    (∀ req ∈ reqs,
      ToLower L (TrimSpace req.Action) = "insert" ∧
      ToLower L (TrimSpace req.Table) ∈ supportedTables ∧
      ∀ r ∈ req.Records, rowOf L (ToLower L (TrimSpace req.Table)) r ≠ none) ∧
    allSucceed queryRow db (plannedRows L reqs) ∧
    db1 = runRows queryRow db (plannedRows L reqs) ∧
    total1 = total + recordCount reqs ∧
    summaries1 = summaries ++ fragments L reqs := by
  induction reqs generalizing db total summaries with
  | nil =>
    simp only [applyRequests, Prod.mk.injEq, Except.ok.injEq] at h
    obtain ⟨⟨rfl, rfl⟩, rfl⟩ := h
    simp [plannedRows, allSucceed, runRows, recordCount, fragments]
  | cons req rest ih =>
    obtain ⟨ha, ht, step, t2, db2, _, hf, hr, hrest⟩ :=
      applyRequests_head_ok L queryRow db req rest total summaries _ db1 h
    obtain ⟨r1, r2, r3, r4⟩ := insertRecords_ok queryRow step _ hf req.Records db db2 total t2 hr
    obtain ⟨i1, i2, i3, i4, i5⟩ := ih db2 t2 _ hrest
    have hp : plannedRows L (req :: rest) = requestRows L req ++ plannedRows L rest := by
      simp [plannedRows]
    refine ⟨?_, ?_, ?_, ?_, ?_⟩
    · intro x hx
      rcases List.mem_cons.mp hx with rfl | hx
      · exact ⟨ha, ht, r1⟩
      · exact i1 x hx
    · rw [hp, allSucceed_append]
      refine ⟨r2, ?_⟩
      have : runRows queryRow db (requestRows L req) = db2 := r3.symm
      rw [this]
      exact i2
    · rw [hp, runRows_append]
      have : runRows queryRow db (requestRows L req) = db2 := r3.symm
      rw [this]
      exact i3
    · rw [i4, r4]
      simp only [recordCount, List.map_cons, List.sum_cons]
      omega
    · rw [i5]
      simp [fragments]

/-- The loop completes when every request has the action `insert` and a table of the
seven, every record has a row, and every insert succeeds. -/
theorem applyRequests_complete {DB : Type} (L : Stdlib) (queryRow : QueryRow DB)
    (reqs : List WriteRequest) (db : DB) (total : Nat) (summaries : List String)
    (hreq : ∀ req ∈ reqs,
      ToLower L (TrimSpace req.Action) = "insert" ∧
      ToLower L (TrimSpace req.Table) ∈ supportedTables ∧
      ∀ r ∈ req.Records, rowOf L (ToLower L (TrimSpace req.Table)) r ≠ none)
    (hins : allSucceed queryRow db (plannedRows L reqs)) :
    applyRequests L queryRow db reqs total summaries =
      (.ok (total + recordCount reqs, summaries ++ fragments L reqs),
        runRows queryRow db (plannedRows L reqs)) := by
  induction reqs generalizing db total summaries with
  | nil => simp [applyRequests, plannedRows, runRows, recordCount, fragments]
  | cons req rest ih =>
    obtain ⟨ha, ht, hrow⟩ := hreq req (List.mem_cons_self _ _)
    obtain ⟨step, hs, hf⟩ := (applyCase_spec L queryRow _).2 ht
    have hp : plannedRows L (req :: rest) = requestRows L req ++ plannedRows L rest := by
      simp [plannedRows]
    rw [hp, allSucceed_append] at hins
    have hg := insertRecords_good queryRow step _ hf req.Records [] db total hrow hins.1
    rw [List.append_nil] at hg
    have hr : insertRecords step db req.Records total
        = (.ok (total + req.Records.length), runRows queryRow db (requestRows L req)) := by
      rw [hg]
      rfl
    rw [applyRequests_record_ok L queryRow db req rest total summaries step _ _ ha hs hr,
      ih _ _ _ (fun x hx => hreq x (List.mem_cons_of_mem _ hx)) hins.2, hp, runRows_append]
    simp only [recordCount, List.map_cons, List.sum_cons, fragments, List.append_assoc,
      List.singleton_append, Nat.add_assoc]

/-- The applier fails as its loop does. -/
theorem apply_error_of_loop {DB : Type} (L : Stdlib) (queryRow : QueryRow DB) (db db2 : DB)
    (payload : WritePayload) (msg : String)
    (h : applyRequests L queryRow db payload.WriteRequests 0 [] = (.error msg, db2)) :
    ApplyWriteRequests L queryRow db payload = (.error msg, db2) := by
  simp [ApplyWriteRequests, h]

/-- The applier on a payload whose requests before `req` complete: its loop goes on
from `req` with the database those requests left. -/
theorem apply_reaches {DB : Type} (L : Stdlib) (queryRow : QueryRow DB) (db db1 db2 : DB)
    (payload : WritePayload) (pre : List WriteRequest) (req : WriteRequest)
    (post : List WriteRequest) (total1 : Nat) (summaries1 : List String) (msg : String)
    (hsplit : payload.WriteRequests = pre ++ req :: post)
    (hpre : applyRequests L queryRow db pre 0 [] = (.ok (total1, summaries1), db1))
    (hreq : applyRequests L queryRow db1 (req :: post) total1 summaries1 = (.error msg, db2)) :
    ApplyWriteRequests L queryRow db payload = (.error msg, db2) := by
  apply apply_error_of_loop
  rw [hsplit, applyRequests_append L queryRow pre (req :: post) db db1 0 total1 [] summaries1
    hpre, hreq]

/-- A record of a table of the seven has a row, given its date when the table is a
goal table. -/
theorem rowOf_ne_none (L : Stdlib) (table : String) (record : Record)
    (ht : table ∈ supportedTables)
    (hd : ∀ g ∈ goalTables, g.1 = table → getDate L record g.2.1 ≠ none) :
    rowOf L table record ≠ none := by
  simp only [supportedTables, List.mem_cons, List.mem_singleton, List.not_mem_nil,
    or_false] at ht
  rcases ht with rfl | rfl | rfl | rfl | rfl | rfl | rfl
  · simp [rowOf]
  · simp [rowOf]
  · simp [rowOf]
  · simp [rowOf]
  · have := hd ("daily_goals", "target_date", "daily_goals requires target_date")
      (by simp [goalTables]) rfl
    simpa [rowOf] using this
  · have := hd ("weekly_goals", "week_of", "weekly_goals requires week_of")
      (by simp [goalTables]) rfl
    simpa [rowOf] using this
  · have := hd ("monthly_goals", "month_of", "monthly_goals requires month_of")
      (by simp [goalTables]) rfl
    simpa [rowOf] using this

/-- Where every record has a row, the rows kept are the rows assigned. -/
theorem filterMap_all_some (f : Record → Option Row) (l : List Record)
    (h : ∀ r ∈ l, f r ≠ none) : (l.filterMap f).map some = l.map f := by
  induction l with
  | nil => rfl
  | cons r rs ih =>
    obtain ⟨row, hr⟩ := Option.ne_none_iff_exists'.mp (h r (List.mem_cons_self _ _))
    simp only [List.filterMap_cons, hr, List.map_cons]
    rw [ih (fun x hx => h x (List.mem_cons_of_mem _ hx))]

/-- `getDate` finds no date in a field that is absent, null, blank or not a date. -/
theorem getDate_eq_none (L : Stdlib) (record : Record) (key : String)
    (h : record.lookup key = none ∨ record.lookup key = some JsonValue.null ∨
      ∃ s, (record.lookup key = some (JsonValue.str s) ∨
            record.lookup key = some (JsonValue.number s)) ∧
        (TrimSpace s = "" ∨ parseDate s = none)) :
    getDate L record key = none := by
  rcases h with h | h | ⟨s, h, hs⟩
  · have : getString L record key = "" := by simp [getString, h]
    simp only [getDate, this]
    rfl
  · have : getString L record key = "" := by simp [getString, h]
    simp only [getDate, this]
    rfl
  · have : getString L record key = s := by
      rcases h with h | h <;> simp [getString, h]
    simp only [getDate, this]
    rcases hs with hs | hs
    · simp [hs]
    · simp [hs]

/-! ## Lemmas on the result of the parser and on stored payloads -/

/-- The validation loop, when it succeeds, has added one item per request. -/
theorem summaryLoop_some (L : Stdlib) (reqs : List WriteRequest) (parts out : List String)
    (h : summaryLoop L reqs parts = some out) :
    out = parts ++ reqs.map (summaryItem L) := by
  induction reqs generalizing parts with
  | nil =>
    simp only [summaryLoop, Option.some.injEq] at h
    simp [h]
  | cons req rest ih =>
    by_cases hc : ToLower L (TrimSpace req.Action) ≠ "insert" ∨ TrimSpace req.Table = "" ∨
        req.Records.length = 0
    · simp only [summaryLoop] at h
      rw [if_pos hc] at h
      exact absurd h (by simp)
    · have h2 : summaryLoop L rest
          (parts ++ [ToLower L (TrimSpace req.Action) ++ " " ++ toString req.Records.length
            ++ " -> " ++ TrimSpace req.Table]) = some out := by
        simpa only [summaryLoop, hc, ↓reduceIte] using h
      rw [ih _ h2]
      simp [summaryItem]

/-- What a call that returns a payload has gone through. -/
theorem extract_some (L : Stdlib) (text : String) (payload : WritePayload)
    (h : (ExtractWritePayload L text).1 = some payload) :
    candidate text ≠ "" ∧ L.decodePayload (candidate text) = .ok payload ∧
    payload.WriteRequests ≠ [] ∧
    ∃ parts, summaryLoop L payload.WriteRequests [] = some parts ∧
      ExtractWritePayload L text = (some payload, candidate text, Join parts ", ", none) := by
  by_cases hc : candidate text = ""
  · simp [ExtractWritePayload, hc] at h
  · cases hd : L.decodePayload (candidate text) with
    | error err => simp [ExtractWritePayload, hc, hd] at h
    | ok p =>
      by_cases hl : p.WriteRequests.length = 0
      · simp [ExtractWritePayload, hc, hd, hl] at h
      · cases hs : summaryLoop L p.WriteRequests [] with
        | none => simp [ExtractWritePayload, hc, hd, hl, hs] at h
        | some parts =>
          have hp : p = payload := by
            simpa [ExtractWritePayload, hc, hd, hl, hs] using h
          subst hp
          refine ⟨hc, rfl, fun hn => hl (by simp [hn]), parts, hs, ?_⟩
          simp [ExtractWritePayload, hc, hd, hl, hs]

/-- A payload the parser returns is valid. -/
theorem extract_valid (L : Stdlib) (text : String) (payload : WritePayload)
    (h : (ExtractWritePayload L text).1 = some payload) : validPayload L payload := by
  obtain ⟨_, _, hne, parts, hs, _⟩ := extract_some L text payload h
  exact ⟨hne, (summaryLoop_isSome_iff L _ []).mp ⟨parts, hs⟩⟩

/-- After a successful capture the store holds, under the key, an entry whose payload
the parser returned for one of the fragments. -/
theorem capture_entry (L : Stdlib) (items : Items) (userID sessionID : String)
    (replies : List String)
    (hok : (MaybeCaptureWrite L items userID sessionID replies).2.1 = true) :
    ∃ r payload raw summary, r ∈ replies ∧
      ExtractWritePayload L r = (some payload, raw, summary, none) ∧
      (MaybeCaptureWrite L items userID sessionID replies).2.2 (pendingKey userID sessionID)
        = some { Payload := payload, RawJSON := raw, Summary := summary } := by
  rcases capture_cases L replies with h | ⟨pre, r, post, rfl, hpre, hr⟩
  · have := capture_skip_all L items userID sessionID replies [] h
    rw [List.append_nil] at this
    rw [this] at hok
    simp [MaybeCaptureWrite] at hok
  · obtain ⟨payload, raw, summary, he⟩ := capturable_result L r hr
    refine ⟨r, payload, raw, summary, by simp, he, ?_⟩
    rw [capture_skip_all L items userID sessionID pre (r :: post) hpre,
      capture_take L items _ _ r post payload raw summary he]
    simp [Items.set]

/-- A row assigned for a table writes to that table. -/
theorem rowOf_table (L : Stdlib) (table : String) (record : Record) (row : Row)
    (h : rowOf L table record = some row) : row.table = table := by
  unfold rowOf at h
  split_ifs at h with h1 h2 h3 h4 h5 h6 h7
  · simp only [Option.some.injEq] at h
    subst h
    exact h1.symm
  · simp only [Option.some.injEq] at h
    subst h
    exact h2.symm
  · simp only [Option.some.injEq] at h
    subst h
    exact h3.symm
  · simp only [Option.some.injEq] at h
    subst h
    exact h4.symm
  · obtain ⟨d, _, rfl⟩ := Option.map_eq_some'.mp h
    exact h5.symm
  · obtain ⟨d, _, rfl⟩ := Option.map_eq_some'.mp h
    exact h6.symm
  · obtain ⟨d, _, rfl⟩ := Option.map_eq_some'.mp h
    exact h7.symm

/-- `HandlePendingWrite` leaves each key as it was or empties it. -/
theorem handle_items_cases {DB : Type} (L : Stdlib)
    (ApplyWriteRequests : DB → WritePayload → Except String String × DB)
    (items : Items) (userID sessionID message : String) (dbConn : Option DB) (k : String) :
    (HandlePendingWrite L ApplyWriteRequests items userID sessionID message dbConn).items k
      = items k ∨
    (HandlePendingWrite L ApplyWriteRequests items userID sessionID message dbConn).items k
      = none := by
  by_cases hk : k = pendingKey userID sessionID
  · subst hk
    cases h : items (pendingKey userID sessionID) with
    | none =>
      left
      rw [handle_absent L ApplyWriteRequests items _ _ _ _ h]
      exact h
    | some pending =>
      cases ha : isAffirmative (TrimSpace (ToLower L message)) with
      | false =>
        cases hn : isNegative (TrimSpace (ToLower L message)) with
        | false =>
          left
          rw [handle_ambiguous L ApplyWriteRequests items _ _ _ _ pending h ha hn]
          exact h
        | true =>
          right
          rw [handle_negative L ApplyWriteRequests items _ _ _ _ pending h ha hn]
          exact Items.delete_self _ _
      | true =>
        right
        cases dbConn with
        | none =>
          rw [handle_affirm_nil L ApplyWriteRequests items _ _ _ pending h ha]
          exact Items.delete_self _ _
        | some db =>
          rcases hr : ApplyWriteRequests db pending.Payload with ⟨r, db1⟩
          cases r with
          | error err =>
            rw [handle_affirm_error L ApplyWriteRequests items _ _ _ db db1 pending err h ha hr]
            exact Items.delete_self _ _
          | ok result =>
            rw [handle_affirm_ok L ApplyWriteRequests items _ _ _ db db1 pending result h ha hr]
            exact Items.delete_self _ _
  · exact Or.inl (handle_items_other L ApplyWriteRequests items _ _ _ _ k hk)

/-- A capture keeps the store valid. -/
theorem capture_keeps_valid (L : Stdlib) (items : Items) (userID sessionID : String)
    (replies : List String) (h : validStore L items) :
    validStore L (MaybeCaptureWrite L items userID sessionID replies).2.2 := by
  induction replies with
  | nil => exact h
  | cons x xs ih =>
    by_cases hx : capturable L x
    · obtain ⟨payload, raw, summary, he⟩ := capturable_result L x hx
      rw [capture_take L items _ _ x xs payload raw summary he]
      intro k e hk
      by_cases hkey : k = pendingKey userID sessionID
      · simp only [Items.set, hkey, ↓reduceIte, Option.some.injEq] at hk
        subst hk
        exact extract_valid L x payload (by rw [he])
      · simp only [Items.set, hkey, ↓reduceIte] at hk
        exact h k e hk
    · rw [capture_skip L items _ _ x xs hx]
      exact ih

/-- A call keeps the store valid. -/
theorem exec_keeps_valid {DB : Type} (L : Stdlib)
    (ApplyWriteRequests : DB → WritePayload → Except String String × DB)
    (items : Items) (c : Call DB) (h : validStore L items) :
    validStore L (Call.exec L ApplyWriteRequests items c).after := by
  cases c with
  | capture u s replies => exact capture_keeps_valid L items u s replies h
  | handle u s m dbConn =>
    intro k e hk
    rcases handle_items_cases L ApplyWriteRequests items u s m dbConn k with h1 | h1
    · exact h k e (h1 ▸ hk)
    · simp only [Call.exec] at hk
      rw [h1] at hk
      simp at hk

/-- Each step of a history starts from a valid store when the history does, and is
the execution of a call on the store it starts from. -/
theorem history_valid {DB : Type} (L : Stdlib)
    (ApplyWriteRequests : DB → WritePayload → Except String String × DB)
    (items : Items) (calls : List (Call DB)) (h0 : validStore L items) (st : Step DB)
    (hst : st ∈ history L ApplyWriteRequests items calls) :
    validStore L st.before ∧ validStore L st.after ∧
    ∃ c, st = Call.exec L ApplyWriteRequests st.before c := by
  induction calls generalizing items with
  | nil => simp [history] at hst
  | cons c cs ih =>
    simp only [history, List.mem_cons] at hst
    rcases hst with h | h
    · subst h
      have hb : (Call.exec L ApplyWriteRequests items c).before = items := by
        cases c <;> rfl
      refine ⟨?_, exec_keeps_valid L ApplyWriteRequests items c h0, c, ?_⟩
      · rw [hb]
        exact h0
      · rw [hb]
    · exact ih _ (exec_keeps_valid L ApplyWriteRequests items c h0) h

/-- An error of the body of a case is the error of a missing date or an error of the
data store. -/
theorem applyCase_error {DB : Type} (L : Stdlib) (queryRow : QueryRow DB) (table : String)
    (step : DB → Record → Except String Int × DB)
    (hs : applyCase L queryRow table = some step) (d d1 : DB) (record : Record) (e : String)
    (h : step d record = (.error e, d1)) :
    (∃ g ∈ goalTables, e = g.2.2) ∨ (∃ row, (queryRow d row).1 = .error e) := by
  have ht : table ∈ supportedTables := by
    by_contra hn
    rw [(applyCase_spec L queryRow table).1 hn] at hs
    simp at hs
  obtain ⟨step', hs', hf⟩ := (applyCase_spec L queryRow table).2 ht
  have hst : step = step' := by
    rw [hs] at hs'
    exact Option.some.inj hs'
  subst hst
  cases hr : rowOf L table record with
  | some row =>
    right
    refine ⟨row, ?_⟩
    rw [← (hf d record).1 row hr, h]
  | none =>
    left
    by_contra hno
    have hd : ∀ g ∈ goalTables, g.1 = table → getDate L record g.2.1 ≠ none := by
      intro g hg hgt hdate
      apply hno
      refine ⟨g, hg, ?_⟩
      have := (applyCase_goal L queryRow g.1 g.2.1 g.2.2 hg).2.2 step (hgt ▸ hs) d record hdate
      rw [h] at this
      simp only [Prod.mk.injEq, Except.error.injEq] at this
      exact this.1
    exact rowOf_ne_none L table record ht hd hr

/-- An error of the record loop is an error of the body of the case on some record. -/
theorem insertRecords_error {DB : Type} (step : DB → Record → Except String Int × DB)
    (records : List Record) (db db1 : DB) (total : Nat) (e : String)
    (h : insertRecords step db records total = (.error e, db1)) :
    ∃ d d1 record, step d record = (.error e, d1) := by
  induction records generalizing db total with
  | nil => simp [insertRecords] at h
  | cons r rs ih =>
    rcases hr : step db r with ⟨res, db2⟩
    cases res with
    | error e2 =>
      simp only [insertRecords, hr, Prod.mk.injEq, Except.error.injEq] at h
      exact ⟨db, db2, r, by rw [hr, h.1]⟩
    | ok id =>
      simp only [insertRecords, hr] at h
      exact ih db2 (total + 1) h

/-- The four sources of an error of the request loop. -/
theorem applyRequests_error {DB : Type} (L : Stdlib) (queryRow : QueryRow DB)
    (reqs : List WriteRequest) (db db1 : DB) (total : Nat) (summaries : List String)
    (e : String)
    (h : applyRequests L queryRow db reqs total summaries = (.error e, db1)) :
    (∃ req ∈ reqs, ToLower L (TrimSpace req.Action) ≠ "insert" ∧
      e = "unsupported action: " ++ req.Action) ∨
    (∃ req ∈ reqs, e = "unsupported table: " ++ req.Table) ∨
    (∃ g ∈ goalTables, e = g.2.2) ∨
    (∃ d row, (queryRow d row).1 = .error e) := by
  induction reqs generalizing db total summaries with
  | nil => simp [applyRequests] at h
  | cons req rest ih =>
    by_cases ha : ToLower L (TrimSpace req.Action) = "insert"
    · by_cases ht : ToLower L (TrimSpace req.Table) ∈ supportedTables
      · obtain ⟨step, hs, _⟩ := (applyCase_spec L queryRow _).2 ht
        rcases hr : insertRecords step db req.Records total with ⟨res, db2⟩
        cases res with
        | error msg =>
          rw [applyRequests_record_error L queryRow db req rest total summaries step msg db2
            ha hs hr] at h
          simp only [Prod.mk.injEq, Except.error.injEq] at h
          obtain ⟨d, d1, record, hstep⟩ := insertRecords_error step _ db db2 total msg hr
          rcases applyCase_error L queryRow _ step hs d d1 record msg hstep with hg | ⟨row, hq⟩
          · exact Or.inr (Or.inr (Or.inl (h.1 ▸ hg)))
          · exact Or.inr (Or.inr (Or.inr ⟨d, row, h.1 ▸ hq⟩))
        | ok total1 =>
          rw [applyRequests_record_ok L queryRow db req rest total summaries step total1 db2
            ha hs hr] at h
          rcases ih db2 total1 _ h with ⟨r, hr1, hr2⟩ | ⟨r, hr1, hr2⟩ | hg | hq
          · exact Or.inl ⟨r, List.mem_cons_of_mem _ hr1, hr2⟩
          · exact Or.inr (Or.inl ⟨r, List.mem_cons_of_mem _ hr1, hr2⟩)
          · exact Or.inr (Or.inr (Or.inl hg))
          · exact Or.inr (Or.inr (Or.inr hq))
      · rw [applyRequests_bad_table L queryRow db req rest total summaries ha ht] at h
        simp only [Prod.mk.injEq, Except.error.injEq] at h
        exact Or.inr (Or.inl ⟨req, List.mem_cons_self _ _, h.1.symm⟩)
    · rw [applyRequests_bad_action L queryRow db req rest total summaries ha] at h
      simp only [Prod.mk.injEq, Except.error.injEq] at h
      exact Or.inl ⟨req, List.mem_cons_self _ _, ha, h.1.symm⟩

/-- An error of the applier is an error of its loop. -/
theorem apply_error_inv {DB : Type} (L : Stdlib) (queryRow : QueryRow DB) (db : DB)
    (payload : WritePayload) (e : String)
    (h : (ApplyWriteRequests L queryRow db payload).1 = .error e) :
    ∃ db1, applyRequests L queryRow db payload.WriteRequests 0 [] = (.error e, db1) := by
  rcases hr : applyRequests L queryRow db payload.WriteRequests 0 [] with ⟨res, db1⟩
  cases res with
  | error msg =>
    simp only [ApplyWriteRequests, hr, Except.error.injEq] at h
    exact ⟨db1, by rw [h]⟩
  | ok out =>
    simp [ApplyWriteRequests, hr] at h

/-! ## Lemmas on the parsing of integers -/

theorem decimalFrom_cons (n : Nat) (c : Char) (cs : List Char) :
    decimalFrom n (c :: cs) = decimalFrom (n * 10 + (c.toNat - 0x30)) cs := rfl

/-- Reading more digits does not make the number smaller. -/
theorem decimalFrom_ge (n : Nat) (ds : List Char) : n ≤ decimalFrom n ds := by
  induction ds generalizing n with
  | nil => exact Nat.le_refl _
  | cons c cs ih =>
    rw [decimalFrom_cons]
    exact Nat.le_trans (by omega) (ih _)

/-- The digit loop in one formula: a range error as soon as the digits read so far
pass 64 bits, otherwise the value when every character is a digit, otherwise a syntax
error. -/
theorem parseUintLoop_eq (ds : List Char) (n : Nat) (hn : n < 2 ^ 64) :
    parseUintLoop ds n =
      if 2 ^ 64 ≤ decimalFrom n (ds.takeWhile isDecimal) then
        (2 ^ 64 - 1, some NumError.ErrRange)
      else if ds.all isDecimal = true then (decimalFrom n ds, none)
      else (0, some NumError.ErrSyntax) := by
  induction ds generalizing n with
  | nil =>
    have h : ¬ 2 ^ 64 ≤ decimalFrom n [] := Nat.not_le.mpr hn
    simp only [List.takeWhile_nil, if_neg h, List.all_nil, ↓reduceIte]
    rfl
  | cons c cs ih =>
    by_cases hd : 0x30 ≤ c.toNat ∧ c.toNat ≤ 0x39
    · have hdec : isDecimal c = true := by simp only [isDecimal, hd, and_self, decide_True]
      by_cases hov : n * 10 + (c.toNat - 0x30) ≥ 2 ^ 64
      · have h : 2 ^ 64 ≤ decimalFrom n ((c :: cs).takeWhile isDecimal) := by
          rw [List.takeWhile_cons_of_pos hdec, decimalFrom_cons]
          exact Nat.le_trans hov (decimalFrom_ge _ _)
        rw [if_pos h]
        simp only [parseUintLoop]
        rw [if_pos hd, if_pos hov]
      · simp only [parseUintLoop]
        rw [if_pos hd, if_neg hov, ih _ (Nat.not_le.mp hov), List.takeWhile_cons_of_pos hdec,
          decimalFrom_cons, decimalFrom_cons]
        simp only [List.all_cons, hdec, Bool.true_and]
    · have hdec : isDecimal c = false := by simp only [isDecimal, hd, decide_False]
      have h : ¬ 2 ^ 64 ≤ decimalFrom n ((c :: cs).takeWhile isDecimal) := by
        rw [List.takeWhile_cons_of_neg (by simp [hdec])]
        exact Nat.not_le.mpr hn
      rw [if_neg h]
      simp only [parseUintLoop]
      rw [if_neg hd]
      simp only [List.all_cons, hdec, Bool.false_and, Bool.false_eq_true, ↓reduceIte]

/-- On a run of digits `takeWhile` takes everything. -/
theorem takeWhile_digits (ds : List Char) (h : ∀ c ∈ ds, isDecimal c = true) :
    ds.takeWhile isDecimal = ds := by
  induction ds with
  | nil => rfl
  | cons c cs ih =>
    rw [List.takeWhile_cons_of_pos (h c (List.mem_cons_self _ _)),
      ih (fun x hx => h x (List.mem_cons_of_mem _ hx))]

/-- `ParseUint` on a run of digits that is not empty. -/
theorem ParseUint_digits (ds : List Char) (hne : ds ≠ [])
    (h : ∀ c ∈ ds, isDecimal c = true) :
    ParseUint ds =
      if 2 ^ 64 ≤ decimalValue ds then (2 ^ 64 - 1, some NumError.ErrRange)
      else (decimalValue ds, none) := by
  have he : ds.isEmpty = false := by
    cases ds with
    | nil => exact absurd rfl hne
    | cons _ _ => rfl
  have hall : ds.all isDecimal = true := List.all_eq_true.mpr h
  simp only [ParseUint, he, Bool.false_eq_true, ↓reduceIte]
  rw [parseUintLoop_eq ds 0 (by norm_num), takeWhile_digits ds h]
  simp only [hall, ↓reduceIte, decimalValue]

/-- A decimal digit is not a sign. -/
theorem isDecimal_not_sign (c : Char) (h : isDecimal c = true) :
    (c == '+') = false ∧ (c == '-') = false := by
  constructor
  · by_contra hc
    simp only [Bool.not_eq_false, beq_iff_eq] at hc
    subst hc
    revert h
    decide
  · by_contra hc
    simp only [Bool.not_eq_false, beq_iff_eq] at hc
    subst hc
    revert h
    decide

/-- `ParseInt` without its pattern matching: the sign, then `ParseUint` on the rest,
then the two range tests. -/
theorem ParseInt_cons (s : String) (c : Char) (cs : List Char) (h : s.data = c :: cs) :
    ParseInt s =
      if (ParseUint (if c == '+' || c == '-' then cs else c :: cs)).2
          = some NumError.ErrSyntax then (0, some NumError.ErrSyntax)
      else if !(c == '-') && (ParseUint (if c == '+' || c == '-' then cs else c :: cs)).1 ≥ 2 ^ 63
        then ((2 : Int) ^ 63 - 1, some NumError.ErrRange)
      else if (c == '-') && (ParseUint (if c == '+' || c == '-' then cs else c :: cs)).1 > 2 ^ 63
        then (-(2 : Int) ^ 63, some NumError.ErrRange)
      else (if c == '-' then
          -((ParseUint (if c == '+' || c == '-' then cs else c :: cs)).1 : Int)
        else ((ParseUint (if c == '+' || c == '-' then cs else c :: cs)).1 : Int), none) := by
  simp only [ParseInt, h]
  generalize (if c == '+' || c == '-' then cs else c :: cs) = digits
  rcases hp : ParseUint digits with ⟨un, e⟩
  cases e with
  | none => simp
  | some x => cases x <;> simp
/-- `ParseInt` on digits without a sign or after a plus sign. -/
theorem ParseInt_plus (t : String) (ds : List Char) (hne : ds ≠ [])
    (hd : ∀ c ∈ ds, isDecimal c = true) (h : t.data = ds ∨ t.data = '+' :: ds) :
    ParseInt t =
      if 2 ^ 63 ≤ decimalValue ds then ((2 : Int) ^ 63 - 1, some NumError.ErrRange)
      else ((decimalValue ds : Int), none) := by
  have key : ∀ c cs, t.data = c :: cs → (c == '-') = false →
      (if c == '+' || c == '-' then cs else c :: cs) = ds →
      ParseInt t =
        if 2 ^ 63 ≤ decimalValue ds then ((2 : Int) ^ 63 - 1, some NumError.ErrRange)
        else ((decimalValue ds : Int), none) := by
    intro c cs hc hm hds
    rw [ParseInt_cons t c cs hc, hds, ParseUint_digits ds hne hd, hm]
    by_cases h64 : 2 ^ 64 ≤ decimalValue ds
    · have h63 : 2 ^ 63 ≤ decimalValue ds := Nat.le_trans (by norm_num) h64
      rw [if_pos h64, if_pos h63]
      simp
    · rw [if_neg h64]
      by_cases h63 : 2 ^ 63 ≤ decimalValue ds
      · rw [if_pos h63]
        simp
        omega
      · rw [if_neg h63]
        simp
        omega
  rcases h with h | h
  · cases ds with
    | nil => exact absurd rfl hne
    | cons c cs =>
      have hs := isDecimal_not_sign c (hd c (List.mem_cons_self _ _))
      exact key c cs h hs.2 (by simp [hs.1, hs.2])
  · exact key '+' ds h (by decide) (by simp)

/-- `ParseInt` on digits after a minus sign. -/
theorem ParseInt_minus (t : String) (ds : List Char) (hne : ds ≠ [])
    (hd : ∀ c ∈ ds, isDecimal c = true) (h : t.data = '-' :: ds) :
    ParseInt t =
      if 2 ^ 63 < decimalValue ds then (-(2 : Int) ^ 63, some NumError.ErrRange)
      else (-(decimalValue ds : Int), none) := by
  rw [ParseInt_cons t '-' ds h]
  have hds : (if ('-' == '+' || '-' == '-') = true then ds else '-' :: ds) = ds := by simp
  rw [hds, ParseUint_digits ds hne hd]
  by_cases h64 : 2 ^ 64 ≤ decimalValue ds
  · have h63 : 2 ^ 63 < decimalValue ds := Nat.lt_of_lt_of_le (by norm_num) h64
    rw [if_pos h64, if_pos h63]
    simp
  · rw [if_neg h64]
    by_cases h63 : 2 ^ 63 < decimalValue ds
    · rw [if_pos h63]
      simp
      omega
    · rw [if_neg h63]
      simp
      omega

/-- `ParseInt` on a text that denotes an integer within the range. -/
theorem ParseInt_denotes (t : String) (i : Int) (h : denotesInt t i) (hr : inInt64 i) :
    ParseInt t = (i, none) := by
  obtain ⟨ds, hne, hd, h | h | h⟩ := h
  · obtain ⟨ht, hi⟩ := h
    rw [ParseInt_plus t ds hne hd (Or.inl ht)]
    have : ¬ 2 ^ 63 ≤ decimalValue ds := by
      have := hr.2
      rw [hi] at this
      omega
    rw [if_neg this, hi]
  · obtain ⟨ht, hi⟩ := h
    rw [ParseInt_plus t ds hne hd (Or.inr ht)]
    have : ¬ 2 ^ 63 ≤ decimalValue ds := by
      have := hr.2
      rw [hi] at this
      omega
    rw [if_neg this, hi]
  · obtain ⟨ht, hi⟩ := h
    rw [ParseInt_minus t ds hne hd ht]
    have : ¬ 2 ^ 63 < decimalValue ds := by
      have := hr.1
      rw [hi] at this
      omega
    rw [if_neg this, hi]

/-- `ParseInt` on a text that denotes an integer beyond the range. -/
theorem ParseInt_beyond (t : String) (i : Int) (h : denotesInt t i) (hr : ¬ inInt64 i) :
    ParseInt t = (clampInt64 i, some NumError.ErrRange) := by
  obtain ⟨ds, hne, hd, h | h | h⟩ := h
  · obtain ⟨ht, hi⟩ := h
    rw [ParseInt_plus t ds hne hd (Or.inl ht)]
    have h63 : 2 ^ 63 ≤ decimalValue ds := by
      by_contra hn
      apply hr
      rw [hi]
      constructor <;> omega
    have hc : clampInt64 i = (2 : Int) ^ 63 - 1 := by
      have : i ≥ (2 : Int) ^ 63 := by
        rw [hi]
        omega
      simp only [clampInt64, this, ↓reduceIte]
    rw [if_pos h63, hc]
  · obtain ⟨ht, hi⟩ := h
    rw [ParseInt_plus t ds hne hd (Or.inr ht)]
    have h63 : 2 ^ 63 ≤ decimalValue ds := by
      by_contra hn
      apply hr
      rw [hi]
      constructor <;> omega
    have hc : clampInt64 i = (2 : Int) ^ 63 - 1 := by
      have : i ≥ (2 : Int) ^ 63 := by
        rw [hi]
        omega
      simp only [clampInt64, this, ↓reduceIte]
    rw [if_pos h63, hc]
  · obtain ⟨ht, hi⟩ := h
    rw [ParseInt_minus t ds hne hd ht]
    have h63 : 2 ^ 63 < decimalValue ds := by
      by_contra hn
      apply hr
      rw [hi]
      constructor <;> omega
    have hc : clampInt64 i = -(2 : Int) ^ 63 := by
      have h1 : ¬ i ≥ (2 : Int) ^ 63 := by
        rw [hi]
        omega
      have h2 : i < -(2 : Int) ^ 63 := by
        rw [hi]
        omega
      simp only [clampInt64, h1, h2, ↓reduceIte]
    rw [if_pos h63, hc]

/-- `ParseInt` on a text that denotes no integer: a range error when the digits in
front already pass 64 bits, otherwise a syntax error. -/
theorem ParseInt_other (t : String) (h : ∀ i, ¬ denotesInt t i) :
    ParseInt t =
      if 2 ^ 64 ≤ decimalValue ((unsignedPart t).takeWhile isDecimal) then
        (if t.data.head? = some '-' then -(2 : Int) ^ 63 else (2 : Int) ^ 63 - 1,
          some NumError.ErrRange)
      else (0, some NumError.ErrSyntax) := by
  cases ht : t.data with
  | nil =>
    have : ParseInt t = (0, some NumError.ErrSyntax) := by simp only [ParseInt, ht]
    rw [this]
    simp [unsignedPart, ht, decimalValue, decimalFrom]
  | cons c cs =>
    have hu : unsignedPart t = (if c == '+' || c == '-' then cs else c :: cs) := by
      simp only [unsignedPart, ht]
    rw [ParseInt_cons t c cs ht, ← hu]
    cases hds : unsignedPart t with
    | nil => simp [ParseUint, decimalValue, decimalFrom]
    | cons d ds =>
      have hp : ParseUint (d :: ds) = parseUintLoop (d :: ds) 0 := by
        simp [ParseUint]
      rw [hp, parseUintLoop_eq (d :: ds) 0 (by norm_num)]
      by_cases h64 : 2 ^ 64 ≤ decimalFrom 0 ((d :: ds).takeWhile isDecimal)
      · have h64' : 2 ^ 64 ≤ decimalValue ((d :: ds).takeWhile isDecimal) := h64
        rw [if_pos h64, if_pos h64']
        by_cases hm : c = '-'
        · subst hm
          simp
        · simp [hm]
      · have h64' : ¬ 2 ^ 64 ≤ decimalValue ((d :: ds).takeWhile isDecimal) := h64
        rw [if_neg h64, if_neg h64']
        by_cases hall : (d :: ds).all isDecimal = true
        · exfalso
          have hd : ∀ x ∈ d :: ds, isDecimal x = true := List.all_eq_true.mp hall
          rw [hu] at hds
          by_cases hplus : c = '+'
          · subst hplus
            simp only [beq_self_eq_true, Bool.true_or, ↓reduceIte] at hds
            exact h _ ⟨d :: ds, by simp, hd, Or.inr (Or.inl ⟨by rw [ht, hds], rfl⟩)⟩
          · by_cases hminus : c = '-'
            · subst hminus
              simp only [beq_self_eq_true, Bool.or_true, ↓reduceIte] at hds
              exact h _ ⟨d :: ds, by simp, hd, Or.inr (Or.inr ⟨by rw [ht, hds], rfl⟩)⟩
            · have hds2 : c :: cs = d :: ds := by simpa [hplus, hminus] using hds
              exact h _ ⟨d :: ds, by simp, hd, Or.inl ⟨by rw [ht, hds2], rfl⟩⟩
        · rw [if_neg hall]
          simp

/-- `ParseInt` returns `i` without an error exactly on the texts that denote `i`, for
`i` within the range. -/
theorem ParseInt_ok_iff (t : String) (i : Int) :
    ((ParseInt t).2 = none ∧ (ParseInt t).1 = i) ↔ denotesInt t i ∧ inInt64 i := by
  constructor
  · rintro ⟨h2, h1⟩
    by_cases hden : ∃ j, denotesInt t j
    · obtain ⟨j, hj⟩ := hden
      by_cases hr : inInt64 j
      · rw [ParseInt_denotes t j hj hr] at h1
        exact h1 ▸ ⟨hj, hr⟩
      · rw [ParseInt_beyond t j hj hr] at h2
        exact absurd h2 (by simp)
    · rw [ParseInt_other t (fun j hj => hden ⟨j, hj⟩)] at h2
      split_ifs at h2
  · rintro ⟨hd, hr⟩
    rw [ParseInt_denotes t i hd hr]
    exact ⟨rfl, rfl⟩

/-- `Float64.trunc` discards the fraction. -/
theorem trunc_iff (v : Float64) (t : Int) : v.trunc = some t ↔ truncatesTo v t := by
  constructor
  · intro h
    cases v with
    | inf neg => simp [Float64.trunc] at h
    | nan => simp [Float64.trunc] at h
    | finite neg mant exp =>
      simp only [Float64.trunc, Option.some.injEq] at h
      by_cases he : 0 ≤ exp
      · have hz : (-exp).toNat = 0 := Int.toNat_eq_zero.mpr (by omega)
        refine ⟨neg, mant, exp, mant * 2 ^ exp.toNat, rfl, ?_, ?_, ?_⟩
        · rw [← h, if_pos he]
        · rw [hz, pow_zero, Nat.mul_one]
        · rw [hz, pow_zero, Nat.mul_one]
          exact Nat.lt_succ_self _
      · have hz : exp.toNat = 0 := Int.toNat_eq_zero.mpr (by omega)
        refine ⟨neg, mant, exp, mant / 2 ^ (-exp).toNat, rfl, ?_, ?_, ?_⟩
        · rw [← h, if_neg he]
        · rw [hz, pow_zero, Nat.mul_one]
          exact Nat.div_mul_le_self _ _
        · rw [hz, pow_zero, Nat.mul_one]
          rw [Nat.mul_comm]
          exact Nat.lt_mul_div_succ mant (Nat.pow_pos (by norm_num))
  · rintro ⟨neg, mant, exp, q, rfl, ht, hlo, hhi⟩
    simp only [Float64.trunc, Option.some.injEq]
    by_cases he : 0 ≤ exp
    · have hz : (-exp).toNat = 0 := Int.toNat_eq_zero.mpr (by omega)
      rw [hz, pow_zero, Nat.mul_one] at hlo hhi
      have hq : q = mant * 2 ^ exp.toNat := by omega
      rw [if_pos he, ht, hq]
    · have hz : exp.toNat = 0 := Int.toNat_eq_zero.mpr (by omega)
      rw [hz, pow_zero, Nat.mul_one] at hlo hhi
      have hq : mant / 2 ^ (-exp).toNat = q :=
        Nat.div_eq_of_lt_le hlo hhi
      rw [if_neg he, ht, hq]

/-- The conversion of a `float64` whose integer part is within the range. -/
theorem floatToInt_of_truncatesTo (L : Stdlib) (v : Float64) (t : Int)
    (h : truncatesTo v t) (hr : inInt64 t) : floatToInt L v = t := by
  have ht := (trunc_iff v t).mpr h
  have hr2 : -(2 : Int) ^ 63 ≤ t ∧ t < (2 : Int) ^ 63 := hr
  simp only [floatToInt, ht, hr2, and_self, ↓reduceIte]

/-! ## Lemmas on dates -/

theorem digitVal_digitChar (k : Nat) (h : k ≤ 9) : digitVal (digitChar k) = some k := by
  interval_cases k <;> rfl

theorem digitVal_some (c : Char) (a : Nat) (h : digitVal c = some a) :
    a ≤ 9 ∧ c = digitChar a := by
  unfold digitVal at h
  split_ifs at h with hc
  simp only [Option.some.injEq] at h
  refine ⟨by omega, ?_⟩
  have : 0x30 + a = c.toNat := by omega
  rw [digitChar, this, Char.ofNat_toNat]

/-- `parseDate` returns a date exactly on its form `YYYY-MM-DD`, for a date of the
calendar. -/
theorem parseDate_iff (s : String) (d : Date) :
    parseDate s = some d ↔ realDate d ∧ s.data = dateText d := by
  constructor
  · intro h
    unfold parseDate at h
    split at h
    · next y1 y2 y3 y4 s1 m1 m2 s2 d1 d2 hs =>
      split at h
      · next a b c e f g i j ha hb hc he hf hg hi hj =>
        simp only at h
        split_ifs at h with hcond
        simp only [Option.some.injEq] at h
        simp only [Bool.and_eq_true, beq_iff_eq, decide_eq_true_eq] at hcond
        obtain ⟨⟨⟨⟨⟨h1, h2⟩, h3⟩, h4⟩, h5⟩, h6⟩ := hcond
        obtain ⟨ha1, ha2⟩ := digitVal_some _ _ ha
        obtain ⟨hb1, hb2⟩ := digitVal_some _ _ hb
        obtain ⟨hc1, hc2⟩ := digitVal_some _ _ hc
        obtain ⟨he1, he2⟩ := digitVal_some _ _ he
        obtain ⟨hf1, hf2⟩ := digitVal_some _ _ hf
        obtain ⟨hg1, hg2⟩ := digitVal_some _ _ hg
        obtain ⟨hi1, hi2⟩ := digitVal_some _ _ hi
        obtain ⟨hj1, hj2⟩ := digitVal_some _ _ hj
        subst h
        refine ⟨⟨by simp only; omega, h3, h4, h5, h6⟩, ?_⟩
        rw [hs, h1, h2, ha2, hb2, hc2, he2, hf2, hg2, hi2, hj2]
        simp only [dateText, fourDigits, twoDigits, List.cons_append, List.nil_append]
        have e1 : (((a * 10 + b) * 10 + c) * 10 + e) / 1000 = a := by omega
        have e2 : (((a * 10 + b) * 10 + c) * 10 + e) / 100 % 10 = b := by omega
        have e3 : (((a * 10 + b) * 10 + c) * 10 + e) / 10 % 10 = c := by omega
        have e4 : (((a * 10 + b) * 10 + c) * 10 + e) % 10 = e := by omega
        have e5 : (f * 10 + g) / 10 = f := by omega
        have e6 : (f * 10 + g) % 10 = g := by omega
        have e7 : (i * 10 + j) / 10 = i := by omega
        have e8 : (i * 10 + j) % 10 = j := by omega
        rw [e1, e2, e3, e4, e5, e6, e7, e8]
      · exact absurd h (by simp)
    · exact absurd h (by simp)
  · rintro ⟨⟨hy, hm1, hm2, hd1, hd2⟩, hs⟩
    have hday : d.day ≤ 31 := by
      refine Nat.le_trans hd2 ?_
      unfold daysIn
      split_ifs <;> omega
    have e0 : ((d.year / 1000 * 10 + d.year / 100 % 10) * 10 + d.year / 10 % 10) * 10
        + d.year % 10 = d.year := by omega
    have e1 : d.month / 10 * 10 + d.month % 10 = d.month := by omega
    have e2 : d.day / 10 * 10 + d.day % 10 = d.day := by omega
    simp only [parseDate, hs, dateText, fourDigits, twoDigits, List.cons_append,
      List.nil_append]
    rw [digitVal_digitChar _ (by omega), digitVal_digitChar _ (by omega),
      digitVal_digitChar _ (by omega), digitVal_digitChar _ (by omega),
      digitVal_digitChar _ (by omega), digitVal_digitChar _ (by omega),
      digitVal_digitChar _ (by omega), digitVal_digitChar _ (by omega)]
    simp only [e0, e1, e2, beq_self_eq_true, Bool.true_and, hm1, hm2, hd1, hd2, decide_True,
      Bool.and_self, ↓reduceIte]

/-- The form of a date starts with a digit. -/
theorem dateText_head (d : Date) (h : realDate d) :
    ∃ c rest, dateText d = c :: rest ∧ isDecimal c = true := by
  refine ⟨digitChar (d.year / 1000), _, rfl, ?_⟩
  have hk : d.year / 1000 ≤ 9 := by
    have := h.1
    omega
  generalize d.year / 1000 = k at hk
  interval_cases k <;> decide

/-- A text that trims to nothing is white space. -/
theorem trimChars_nil (p : Char → Bool) (s : List Char) (h : trimChars p s = []) :
    ∀ c ∈ s, p c = true := by
  obtain ⟨pre, post, hpre, hpost, hs⟩ := trimChars_decomp p s
  rw [h, List.append_nil] at hs
  intro c hc
  rw [hs, List.mem_append] at hc
  rcases hc with hc | hc
  · exact hpre c hc
  · exact hpost c hc

/-- `getDate` in one formula. -/
theorem getDate_iff (L : Stdlib) (record : Record) (key : String) (d : Date) :
    getDate L record key = some d ↔
      realDate d ∧ (getString L record key).data = dateText d := by
  rw [← parseDate_iff]
  unfold getDate
  by_cases hb : TrimSpace (getString L record key) = ""
  · simp only [hb, ↓reduceIte, reduceCtorEq, false_iff]
    intro hp
    obtain ⟨hr, hs⟩ := (parseDate_iff _ d).mp hp
    obtain ⟨c, rest, hc, hdec⟩ := dateText_head d hr
    have hnil : trimChars isSpace (getString L record key).data = [] := by
      have := congrArg String.data hb
      simpa [TrimSpace] using this
    have hsp := trimChars_nil isSpace _ hnil c (by rw [hs, hc]; exact List.mem_cons_self _ _)
    have hlo : 0x30 ≤ c.toNat ∧ c.toNat ≤ 0x39 := by simpa [isDecimal] using hdec
    simp only [isSpace, Bool.or_eq_true, beq_iff_eq, Bool.and_eq_true, decide_eq_true_eq] at hsp
    omega
  · simp only [hb, ↓reduceIte]

/-! ## Lemmas on the pattern of the fenced block -/

theorem fence_eq : fence = ['\x60', '\x60', '\x60'] := by decide

/-- `startsWith` is the prefix relation. -/
theorem startsWith_iff (s p : List Char) : startsWith s p = true ↔ ∃ t, s = p ++ t := by
  induction p generalizing s with
  | nil => cases s <;> simp [startsWith]
  | cons a ps ih =>
    cases s with
    | nil => simp [startsWith]
    | cons c cs => simp [startsWith, ih]

/-- What `matchBody` returns ends in a closing brace and is followed by white space
and the fence. -/
theorem matchBody_sound (r m : List Char) (h : matchBody r = some m) :
    ∃ body ws2 post, (∀ c ∈ ws2, isRegexSpace c = true) ∧ m = body ++ ['\x7d'] ∧
      r = m ++ (ws2 ++ (fence ++ post)) := by
  induction r generalizing m with
  | nil => simp [matchBody] at h
  | cons c rest ih =>
    by_cases hc : (c == '\x7d' && startsWith (rest.dropWhile isRegexSpace) fence) = true
    · simp only [matchBody, hc, ↓reduceIte, Option.some.injEq] at h
      subst h
      simp only [Bool.and_eq_true, beq_iff_eq] at hc
      obtain ⟨rfl, hs⟩ := hc
      obtain ⟨post, hpost⟩ := (startsWith_iff _ _).mp hs
      refine ⟨[], rest.takeWhile isRegexSpace, post, fun x hx => List.mem_takeWhile_imp hx,
        rfl, ?_⟩
      rw [← hpost, List.takeWhile_append_dropWhile]
      rfl
    · simp only [matchBody, hc, Bool.false_eq_true, ↓reduceIte, Option.map_eq_some'] at h
      obtain ⟨m0, hm0, rfl⟩ := h
      obtain ⟨body, ws2, post, hws, hm, hr⟩ := ih m0 hm0
      exact ⟨c :: body, ws2, post, hws, by rw [hm]; rfl, by rw [hr]; rfl⟩

/-- `matchBody` finds a closing brace that is followed by white space and the fence,
and returns no more than up to the first such brace. -/
theorem matchBody_complete (body ws2 post : List Char)
    (hws : ∀ c ∈ ws2, isRegexSpace c = true) :
    ∃ m, matchBody (body ++ '\x7d' :: (ws2 ++ (fence ++ post))) = some m ∧
      m.length ≤ body.length + 1 := by
  induction body with
  | nil =>
    have hd : (ws2 ++ (fence ++ post)).dropWhile isRegexSpace = fence ++ post := by
      rw [fence_eq]
      exact dropWhile_append_kept isRegexSpace ws2 '\x60' _ hws (by decide)
    refine ⟨['\x7d'], ?_, by simp⟩
    simp only [List.nil_append, matchBody, hd, (startsWith_iff _ _).mpr ⟨post, rfl⟩,
      beq_self_eq_true, Bool.and_self, ↓reduceIte]
  | cons b bs ih =>
    obtain ⟨m0, hm0, hl⟩ := ih
    by_cases hc : (b == '\x7d' && startsWith
        ((bs ++ '\x7d' :: (ws2 ++ (fence ++ post))).dropWhile isRegexSpace) fence) = true
    · exact ⟨[b], by simp only [List.cons_append, matchBody, List.append_eq, hc, ↓reduceIte],
        by simp⟩
    · refine ⟨b :: m0, ?_, by simp only [List.length_cons]; omega⟩
      simp only [List.cons_append, matchBody, List.append_eq, hc, Bool.false_eq_true,
        ↓reduceIte, hm0, Option.map_some']

/-- What `matchObject` returns: white space, then the group from its opening brace to
a closing brace, then white space and the fence. -/
theorem matchObject_sound (r m : List Char) (h : matchObject r = some m) :
    ∃ ws1 body ws2 post, (∀ c ∈ ws1, isRegexSpace c = true) ∧
      (∀ c ∈ ws2, isRegexSpace c = true) ∧ m = '\x7b' :: body ++ ['\x7d'] ∧
      r = ws1 ++ (m ++ (ws2 ++ (fence ++ post))) := by
  unfold matchObject at h
  cases hd : r.dropWhile isRegexSpace with
  | nil => simp [hd] at h
  | cons c rest =>
    simp only [hd] at h
    by_cases hc : (c == '\x7b') = true
    · simp only [hc, ↓reduceIte, Option.map_eq_some'] at h
      obtain ⟨m0, hm0, rfl⟩ := h
      simp only [beq_iff_eq] at hc
      subst hc
      obtain ⟨body, ws2, post, hws, hm, hr⟩ := matchBody_sound rest m0 hm0
      refine ⟨r.takeWhile isRegexSpace, body, ws2, post,
        fun x hx => List.mem_takeWhile_imp hx, hws, by rw [hm]; rfl, ?_⟩
      have := (List.takeWhile_append_dropWhile isRegexSpace r).symm
      rw [hd, hr] at this
      exact this
    · simp [hc] at h

/-- `matchObject` finds a group that is there. -/
theorem matchObject_complete (ws1 body ws2 post : List Char)
    (hws1 : ∀ c ∈ ws1, isRegexSpace c = true) (hws2 : ∀ c ∈ ws2, isRegexSpace c = true) :
    ∃ m, matchObject (ws1 ++ ('\x7b' :: body ++ ['\x7d'] ++ (ws2 ++ (fence ++ post))))
        = some m ∧ m.length ≤ body.length + 2 := by
  obtain ⟨m0, hm0, hl⟩ := matchBody_complete body ws2 post hws2
  have hd : (ws1 ++ ('\x7b' :: body ++ ['\x7d'] ++ (ws2 ++ (fence ++ post)))).dropWhile
      isRegexSpace = '\x7b' :: (body ++ '\x7d' :: (ws2 ++ (fence ++ post))) := by
    have := dropWhile_append_kept isRegexSpace ws1 '\x7b'
      (body ++ '\x7d' :: (ws2 ++ (fence ++ post))) hws1 (by decide)
    simpa using this
  refine ⟨'\x7b' :: m0, ?_, by simp only [List.length_cons]; omega⟩
  simp only [matchObject, hd, beq_self_eq_true, ↓reduceIte, hm0, Option.map_some']

/-- What `matchHere` returns is a match of the pattern at the head. -/
theorem matchHere_sound (s m : List Char) (h : matchHere s = some m) : fencedAt s m := by
  unfold matchHere at h
  by_cases hf : startsWith s fence = true
  · obtain ⟨r, hr⟩ := (startsWith_iff _ _).mp hf
    have hdrop : s.drop 3 = r := by
      rw [hr, fence_eq]
      rfl
    simp only [hf, ↓reduceIte, hdrop] at h
    by_cases hj : startsWith r "json".data = true
    · obtain ⟨r2, hr2⟩ := (startsWith_iff _ _).mp hj
      have hdrop2 : r.drop 4 = r2 := by
        rw [hr2]
        rfl
      simp only [hj, ↓reduceIte, hdrop2] at h
      cases htag : matchObject r2 with
      | some m1 =>
        simp only [htag, Option.some.injEq] at h
        subst h
        obtain ⟨ws1, body, ws2, post, h1, h2, hm, hr3⟩ := matchObject_sound r2 m1 htag
        refine ⟨"json".data, ws1, body, ws2, post, Or.inr rfl, h1, h2, hm, ?_⟩
        rw [hr, hr2, hr3]
        simp only [List.append_assoc]
      | none =>
        simp only [htag] at h
        obtain ⟨ws1, body, ws2, post, h1, h2, hm, hr3⟩ := matchObject_sound r m h
        refine ⟨[], ws1, body, ws2, post, Or.inl rfl, h1, h2, hm, ?_⟩
        rw [hr]
        nth_rewrite 1 [hr3]
        simp only [List.append_assoc, List.append_nil]
    · simp only [hj, Bool.false_eq_true, ↓reduceIte] at h
      obtain ⟨ws1, body, ws2, post, h1, h2, hm, hr3⟩ := matchObject_sound r m h
      refine ⟨[], ws1, body, ws2, post, Or.inl rfl, h1, h2, hm, ?_⟩
      rw [hr]
      nth_rewrite 1 [hr3]
      simp only [List.append_assoc, List.append_nil]
  · simp [hf] at h

/-- `matchHere` finds a match of the pattern at the head when there is one, and
returns a group no longer than that of any such match. -/
theorem matchHere_complete (s m2 : List Char) (h : fencedAt s m2) :
    ∃ m, matchHere s = some m ∧ m.length ≤ m2.length := by
  obtain ⟨tag, ws1, body, ws2, post, htag, h1, h2, hm, hs⟩ := h
  have hs2 : s = fence ++ (tag ++ (ws1 ++ ('\x7b' :: body ++ ['\x7d']
      ++ (ws2 ++ (fence ++ post))))) := by
    rw [hs, hm]
    simp only [List.append_assoc]
  have hf : startsWith s fence = true := (startsWith_iff _ _).mpr ⟨_, hs2⟩
  have hdrop : s.drop 3 = tag ++ (ws1 ++ ('\x7b' :: body ++ ['\x7d']
      ++ (ws2 ++ (fence ++ post)))) := by
    rw [hs2, fence_eq]
    rfl
  obtain ⟨m, hmo, hl⟩ := matchObject_complete ws1 body ws2 post h1 h2
  have hlen : m.length ≤ m2.length := by
    rw [hm]
    simp only [List.length_cons, List.length_append, List.length_nil]
    omega
  refine ⟨m, ?_, hlen⟩
  unfold matchHere
  simp only [hf, ↓reduceIte, hdrop]
  rcases htag with rfl | rfl
  · have hj : startsWith (ws1 ++ ('\x7b' :: body ++ ['\x7d'] ++ (ws2 ++ (fence ++ post))))
        "json".data = false := by
      cases ws1 with
      | nil => simp [startsWith]
      | cons w ws =>
        have hw := h1 w (List.mem_cons_self _ _)
        have : (w == 'j') = false := by
          by_contra hc
          simp only [Bool.not_eq_false, beq_iff_eq] at hc
          subst hc
          revert hw
          decide
        simp [startsWith, this]
    simp only [List.nil_append, hj, Bool.false_eq_true, ↓reduceIte, hmo]
  · have hj : startsWith ("json".data ++ (ws1 ++ ('\x7b' :: body ++ ['\x7d']
        ++ (ws2 ++ (fence ++ post))))) "json".data = true := (startsWith_iff _ _).mpr ⟨_, rfl⟩
    have hdrop2 : ("json".data ++ (ws1 ++ ('\x7b' :: body ++ ['\x7d']
        ++ (ws2 ++ (fence ++ post))))).drop 4
        = ws1 ++ ('\x7b' :: body ++ ['\x7d'] ++ (ws2 ++ (fence ++ post))) := rfl
    simp only [hj, ↓reduceIte, hdrop2, hmo]

theorem matchHere_nil : matchHere [] = none := by decide

/-- `findMatch` returns the match at the first position that has one. -/
theorem findMatch_some (s m : List Char) (h : findMatch s = some m) :
    ∃ pre suf, s = pre ++ suf ∧ matchHere suf = some m ∧
      ∀ pre2 suf2, s = pre2 ++ suf2 → pre2.length < pre.length → matchHere suf2 = none := by
  induction s with
  | nil => simp [findMatch] at h
  | cons c cs ih =>
    cases hm : matchHere (c :: cs) with
    | some m1 =>
      simp only [findMatch, hm, Option.some.injEq] at h
      subst h
      exact ⟨[], c :: cs, rfl, hm, fun _ _ _ hl => absurd hl (by simp)⟩
    | none =>
      simp only [findMatch, hm] at h
      obtain ⟨pre, suf, hs, hsuf, hmin⟩ := ih h
      refine ⟨c :: pre, suf, by rw [hs]; rfl, hsuf, ?_⟩
      intro pre2 suf2 hs2 hl
      cases pre2 with
      | nil =>
        simp only [List.nil_append] at hs2
        rw [← hs2]
        exact hm
      | cons c2 p2 =>
        simp only [List.cons_append, List.cons.injEq] at hs2
        exact hmin p2 suf2 hs2.2 (by simpa using hl)

/-- `findMatch` returns nothing only when no position has a match. -/
theorem findMatch_none (s : List Char) (h : findMatch s = none) :
    ∀ pre suf, s = pre ++ suf → matchHere suf = none := by
  induction s with
  | nil =>
    intro pre suf hs
    have : suf = [] := by
      have := (List.append_eq_nil.mp hs.symm).2
      exact this
    rw [this]
    exact matchHere_nil
  | cons c cs ih =>
    cases hm : matchHere (c :: cs) with
    | some m1 => simp [findMatch, hm] at h
    | none =>
      simp only [findMatch, hm] at h
      intro pre suf hs
      cases pre with
      | nil =>
        simp only [List.nil_append] at hs
        rw [← hs]
        exact hm
      | cons c2 p2 =>
        simp only [List.cons_append, List.cons.injEq] at hs
        exact ih h p2 suf hs.2

/-- The group of a match is a contiguous part of the text the match is in. -/
theorem fencedAt_infix (pre suf m : List Char) (h : fencedAt suf m) :
    List.IsInfix m (pre ++ suf) := by
  obtain ⟨tag, ws1, body, ws2, post, _, _, _, _, hs⟩ := h
  refine ⟨pre ++ (fence ++ tag ++ ws1), ws2 ++ fence ++ post, ?_⟩
  rw [hs]
  simp only [List.append_assoc]

/-- The candidate is a contiguous part of the text. -/
theorem candidate_infix (text : String) : List.IsInfix (candidate text).data text.data := by
  unfold candidate findWriteJSONBlock
  cases hm : findMatch text.data with
  | some m =>
    obtain ⟨pre, suf, hs, hsuf, _⟩ := findMatch_some _ m hm
    simp only [Option.map_some']
    rw [hs]
    exact fencedAt_infix pre suf m (matchHere_sound suf m hsuf)
  | none =>
    simp only [Option.map_none']
    split_ifs
    · obtain ⟨pre, post, _, _, hs⟩ := trimChars_decomp isSpace text.data
      exact ⟨pre, post, hs.symm⟩
    · exact List.nil_infix

/-! ## The claims -/

/-- C1. In every sequence of `MaybeCaptureWrite` and `HandlePendingWrite` calls, each
executed call either invokes the applier not at all, or it is a `HandlePendingWrite`
call with a live handle whose store held an entry under `pendingKey userID sessionID`
and whose lower-cased, trimmed message is affirmative, and then the applier was
invoked exactly once, on the payload stored under that key. A `MaybeCaptureWrite`
call never invokes it, and neither does a `HandlePendingWrite` call whose message
is not affirmative (negative or ambiguous). -/
theorem applier_invoked_only_on_confirmation {DB : Type} (L : Stdlib)
    (ApplyWriteRequests : DB → WritePayload → Except String String × DB)
    (items : Items) (calls : List (Call DB)) (st : Step DB)
    (hst : st ∈ history L ApplyWriteRequests items calls) :
    (st.applied = [] ∨
      ∃ userID sessionID message db pending,
        st.call = Call.handle userID sessionID message (some db) ∧
        st.before (pendingKey userID sessionID) = some pending ∧
        isAffirmative (TrimSpace (ToLower L message)) = true ∧
        st.applied = [pending.Payload]) ∧
    (∀ userID sessionID replies, st.call = Call.capture userID sessionID replies →
      st.applied = []) ∧
    (∀ userID sessionID message dbConn, st.call = Call.handle userID sessionID message dbConn →
      isAffirmative (TrimSpace (ToLower L message)) = false → st.applied = []) := by
  obtain ⟨items0, c, rfl⟩ := history_mem L ApplyWriteRequests items calls st hst
  cases c with
  | capture u s replies =>
    refine ⟨Or.inl rfl, fun _ _ _ _ => rfl, fun _ _ _ _ h => ?_⟩
    simp [Call.exec] at h
  | handle u s m dbConn =>
    refine ⟨?_, fun _ _ _ h => ?_, fun u1 s1 m1 d1 h ha => ?_⟩
    · rcases handle_applied L ApplyWriteRequests items0 u s m dbConn with h | ⟨db, p, h1, h2, h3, h4⟩
      · exact Or.inl h
      · subst h1
        exact Or.inr ⟨u, s, m, db, p, rfl, h2, h3, h4⟩
    · simp [Call.exec] at h
    · simp only [Call.exec, Call.handle.injEq] at h
      obtain ⟨rfl, rfl, rfl, rfl⟩ := h
      exact handle_applied_of_not_affirmative L ApplyWriteRequests items0 u s m dbConn ha

/-- C1, worked example: a capture of the test reply followed by the answer `yes` on
a live handle; the second call is the one that invokes the applier. -/
theorem applier_invoked_only_on_confirmation_witness :
    stepYes ∈ history refLib exampleApplier noItems callsYes ∧
    ((stepYes.applied = [] ∨
      ∃ userID sessionID message db pending,
        stepYes.call = Call.handle userID sessionID message (some db) ∧
        stepYes.before (pendingKey userID sessionID) = some pending ∧
        isAffirmative (TrimSpace (ToLower refLib message)) = true ∧
        stepYes.applied = [pending.Payload]) ∧
    (∀ userID sessionID replies, stepYes.call = Call.capture userID sessionID replies →
      stepYes.applied = []) ∧
    (∀ userID sessionID message dbConn,
      stepYes.call = Call.handle userID sessionID message dbConn →
      isAffirmative (TrimSpace (ToLower refLib message)) = false → stepYes.applied = [])) :=
  ⟨List.Mem.tail _ (List.Mem.head _),
   applier_invoked_only_on_confirmation refLib exampleApplier noItems callsYes stepYes
     (List.Mem.tail _ (List.Mem.head _))⟩

/-- C2. With an entry under the key, an affirmative message and a live handle,
`HandlePendingWrite` invokes the applier once, on the stored payload, removes the
entry (and nothing else) whether the applier succeeds or fails, leaves the database
as the applier left it, and returns `("Applied writes: " ++ s, true)` when the applier
returns the summary `s` and `("Failed to apply writes: " ++ e, true)` when it fails
with the error text `e`. -/
theorem affirm_applies_once_and_clears {DB : Type} (L : Stdlib)
    (ApplyWriteRequests : DB → WritePayload → Except String String × DB)
    (items : Items) (userID sessionID message : String) (db : DB) (pending : pendingWrite)
    (h : items (pendingKey userID sessionID) = some pending)
    (ha : isAffirmative (TrimSpace (ToLower L message)) = true) :
    (HandlePendingWrite L ApplyWriteRequests items userID sessionID message (some db)).applied
      = [pending.Payload] ∧
    (HandlePendingWrite L ApplyWriteRequests items userID sessionID message (some db)).items
      = items.delete (pendingKey userID sessionID) ∧
    (HandlePendingWrite L ApplyWriteRequests items userID sessionID message (some db)).items
      (pendingKey userID sessionID) = none ∧
    (HandlePendingWrite L ApplyWriteRequests items userID sessionID message (some db)).handled
      = true ∧
    (HandlePendingWrite L ApplyWriteRequests items userID sessionID message (some db)).dbConn
      = some (ApplyWriteRequests db pending.Payload).2 ∧
    (∀ s, (ApplyWriteRequests db pending.Payload).1 = .ok s →
      (HandlePendingWrite L ApplyWriteRequests items userID sessionID message (some db)).reply
        = "Applied writes: " ++ s) ∧
    (∀ e, (ApplyWriteRequests db pending.Payload).1 = .error e →
      (HandlePendingWrite L ApplyWriteRequests items userID sessionID message (some db)).reply
        = "Failed to apply writes: " ++ e) := by
  rcases hr : ApplyWriteRequests db pending.Payload with ⟨r, db1⟩
  cases r with
  | error err =>
    rw [handle_affirm_error L ApplyWriteRequests items _ _ _ db db1 pending err h ha hr]
    refine ⟨rfl, rfl, Items.delete_self _ _, rfl, rfl, fun s hs => ?_, fun e he => ?_⟩
    · simp at hs
    · simp at he
      rw [he]
  | ok result =>
    rw [handle_affirm_ok L ApplyWriteRequests items _ _ _ db db1 pending result h ha hr]
    refine ⟨rfl, rfl, Items.delete_self _ _, rfl, rfl, fun s hs => ?_, fun e he => ?_⟩
    · simp at hs
      rw [hs]
    · simp at he

/-- C2, worked example: the stored test entry, the answer `yes`, a live handle. -/
theorem affirm_applies_once_and_clears_witness :
    itemsEngineer (pendingKey "u1" "s1") = some entryEngineer ∧
    isAffirmative (TrimSpace (ToLower refLib "yes")) = true ∧
    (HandlePendingWrite refLib exampleApplier itemsEngineer "u1" "s1" "yes" (some [])).applied
      = [entryEngineer.Payload] ∧
    (HandlePendingWrite refLib exampleApplier itemsEngineer "u1" "s1" "yes" (some [])).items
      (pendingKey "u1" "s1") = none ∧
    (HandlePendingWrite refLib exampleApplier itemsEngineer "u1" "s1" "yes" (some [])).reply
      = "Applied writes: 1 requests" :=
  have h := affirm_applies_once_and_clears refLib exampleApplier itemsEngineer "u1" "s1" "yes" []
    entryEngineer rfl rfl
  ⟨rfl, rfl, h.1, h.2.2.1, h.2.2.2.2.2.1 "1 requests" rfl⟩

/-- C6. `HandlePendingWrite` returns `handled = true` exactly when the store holds an
entry under `pendingKey userID sessionID`. Without an entry it returns `("", false)`,
leaves the store (and the database) as they are and does not invoke the applier;
with an entry it returns `handled = true` whatever the message: affirmative,
negative or neither. -/
theorem handled_iff_pending {DB : Type} (L : Stdlib)
    (ApplyWriteRequests : DB → WritePayload → Except String String × DB)
    (items : Items) (userID sessionID message : String) (dbConn : Option DB) :
    ((HandlePendingWrite L ApplyWriteRequests items userID sessionID message dbConn).handled = true
      ↔ ∃ pending, items (pendingKey userID sessionID) = some pending) ∧
    (items (pendingKey userID sessionID) = none →
      HandlePendingWrite L ApplyWriteRequests items userID sessionID message dbConn =
        { reply := "", handled := false, items := items, dbConn := dbConn, applied := [] }) ∧
    (∀ pending, items (pendingKey userID sessionID) = some pending →
      (isAffirmative (TrimSpace (ToLower L message)) = true →
        (HandlePendingWrite L ApplyWriteRequests items userID sessionID message dbConn).handled
          = true) ∧
      (isAffirmative (TrimSpace (ToLower L message)) = false →
        isNegative (TrimSpace (ToLower L message)) = true →
        (HandlePendingWrite L ApplyWriteRequests items userID sessionID message dbConn).handled
          = true) ∧
      (isAffirmative (TrimSpace (ToLower L message)) = false →
        isNegative (TrimSpace (ToLower L message)) = false →
        (HandlePendingWrite L ApplyWriteRequests items userID sessionID message dbConn).handled
          = true)) := by
  have key : ∀ pending, items (pendingKey userID sessionID) = some pending →
      (HandlePendingWrite L ApplyWriteRequests items userID sessionID message dbConn).handled
        = true :=
    fun pending h => handle_present_handled L ApplyWriteRequests items _ _ _ _ pending h
  refine ⟨⟨fun hh => ?_, fun ⟨p, hp⟩ => key p hp⟩,
    handle_absent L ApplyWriteRequests items _ _ _ _,
    fun p hp => ⟨fun _ => key p hp, fun _ _ => key p hp, fun _ _ => key p hp⟩⟩
  cases h : items (pendingKey userID sessionID) with
  | none =>
    rw [handle_absent L ApplyWriteRequests items _ _ _ _ h] at hh
    simp at hh
  | some p => exact ⟨p, rfl⟩

/-- C7. With an entry under the key and a message that is negative and not
affirmative, `HandlePendingWrite` returns the decline acknowledgment with
`handled = true`, removes that entry, does not invoke the applier and leaves the
database alone; the next `HandlePendingWrite` call for the same user and session,
whatever its message and handle, returns `("", false)`. -/
theorem decline_clears_entry {DB : Type} (L : Stdlib)
    (ApplyWriteRequests : DB → WritePayload → Except String String × DB)
    (items : Items) (userID sessionID message : String) (dbConn : Option DB)
    (pending : pendingWrite)
    (h : items (pendingKey userID sessionID) = some pending)
    (ha : isAffirmative (TrimSpace (ToLower L message)) = false)
    (hn : isNegative (TrimSpace (ToLower L message)) = true) :
    HandlePendingWrite L ApplyWriteRequests items userID sessionID message dbConn =
      { reply := "Okay, skipping the write. Let me know how else I can help.", handled := true,
        items := items.delete (pendingKey userID sessionID), dbConn := dbConn, applied := [] } ∧
    (HandlePendingWrite L ApplyWriteRequests items userID sessionID message dbConn).items
      (pendingKey userID sessionID) = none ∧
    (∀ message2 dbConn2,
      (HandlePendingWrite L ApplyWriteRequests
        (HandlePendingWrite L ApplyWriteRequests items userID sessionID message dbConn).items
        userID sessionID message2 dbConn2).handled = false ∧
      (HandlePendingWrite L ApplyWriteRequests
        (HandlePendingWrite L ApplyWriteRequests items userID sessionID message dbConn).items
        userID sessionID message2 dbConn2).reply = "") := by
  rw [handle_negative L ApplyWriteRequests items _ _ _ _ pending h ha hn]
  refine ⟨rfl, Items.delete_self _ _, fun m2 d2 => ?_⟩
  rw [handle_absent L ApplyWriteRequests _ _ _ _ _ (Items.delete_self _ _)]
  exact ⟨rfl, rfl⟩

/-- C7, worked example: the test `TestHandlePendingWriteDecline`, a stored entry
answered with `no` twice on a nil handle. -/
theorem decline_clears_entry_witness :
    itemsEngineer (pendingKey "u1" "s1") = some entryEngineer ∧
    isAffirmative (TrimSpace (ToLower refLib "no")) = false ∧
    isNegative (TrimSpace (ToLower refLib "no")) = true ∧
    (HandlePendingWrite refLib exampleApplier itemsEngineer "u1" "s1" "no" none).reply
      = "Okay, skipping the write. Let me know how else I can help." ∧
    (HandlePendingWrite refLib exampleApplier
      (HandlePendingWrite refLib exampleApplier itemsEngineer "u1" "s1" "no" none).items
      "u1" "s1" "no" none).handled = false :=
  have h := decline_clears_entry refLib exampleApplier itemsEngineer "u1" "s1" "no" none
    entryEngineer rfl rfl rfl
  ⟨rfl, rfl, rfl, congrArg Outcome.reply h.1, (h.2.2 "no" none).1⟩

/-- C8. With an entry under the key and a message that is neither affirmative nor
negative, `HandlePendingWrite` leaves the whole store (and the database) unchanged,
does not invoke the applier and returns `handled = true` with the reply made of the
fixed sentence followed by the stored raw JSON; a further call with any message that
is neither affirmative nor negative returns the same reply. -/
theorem ambiguous_reprompts {DB : Type} (L : Stdlib)
    (ApplyWriteRequests : DB → WritePayload → Except String String × DB)
    (items : Items) (userID sessionID message : String) (dbConn : Option DB)
    (pending : pendingWrite)
    (h : items (pendingKey userID sessionID) = some pending)
    (ha : isAffirmative (TrimSpace (ToLower L message)) = false)
    (hn : isNegative (TrimSpace (ToLower L message)) = false) :
    HandlePendingWrite L ApplyWriteRequests items userID sessionID message dbConn =
      { reply := "Pending write request detected. Reply \"yes\" to apply or \"no\" to skip.\n\n"
          ++ pending.RawJSON,
        handled := true, items := items, dbConn := dbConn, applied := [] } ∧
    (∀ message2 dbConn2,
      isAffirmative (TrimSpace (ToLower L message2)) = false →
      isNegative (TrimSpace (ToLower L message2)) = false →
      (HandlePendingWrite L ApplyWriteRequests
        (HandlePendingWrite L ApplyWriteRequests items userID sessionID message dbConn).items
        userID sessionID message2 dbConn2).reply =
      (HandlePendingWrite L ApplyWriteRequests items userID sessionID message dbConn).reply) := by
  rw [handle_ambiguous L ApplyWriteRequests items _ _ _ _ pending h ha hn]
  refine ⟨rfl, fun m2 d2 ha2 hn2 => ?_⟩
  rw [handle_ambiguous L ApplyWriteRequests items _ _ _ _ pending h ha2 hn2]

/-- C8, worked example: the test `TestHandlePendingWritePrompt`, a stored entry
answered with `maybe`. -/
theorem ambiguous_reprompts_witness :
    itemsEngineer (pendingKey "u1" "s1") = some entryEngineer ∧
    isAffirmative (TrimSpace (ToLower refLib "maybe")) = false ∧
    isNegative (TrimSpace (ToLower refLib "maybe")) = false ∧
    HandlePendingWrite refLib exampleApplier itemsEngineer "u1" "s1" "maybe" none =
      { reply := "Pending write request detected. Reply \"yes\" to apply or \"no\" to skip.\n\n"
          ++ rawEngineer,
        handled := true, items := itemsEngineer, dbConn := none, applied := [] } :=
  ⟨rfl, rfl, rfl,
   (ambiguous_reprompts refLib exampleApplier itemsEngineer "u1" "s1" "maybe" none
     entryEngineer rfl rfl rfl).1⟩

/-- C9. With an entry under the key, an affirmative message and a nil handle,
`HandlePendingWrite` returns `("Failed to apply writes: database unavailable", true)`
without invoking the applier and removes the entry; the next call for the same user
and session, whatever its message and handle, returns `handled = false`. -/
theorem affirm_without_database {DB : Type} (L : Stdlib)
    (ApplyWriteRequests : DB → WritePayload → Except String String × DB)
    (items : Items) (userID sessionID message : String) (pending : pendingWrite)
    (h : items (pendingKey userID sessionID) = some pending)
    (ha : isAffirmative (TrimSpace (ToLower L message)) = true) :
    HandlePendingWrite L ApplyWriteRequests items userID sessionID message none =
      { reply := "Failed to apply writes: database unavailable", handled := true,
        items := items.delete (pendingKey userID sessionID), dbConn := none, applied := [] } ∧
    (HandlePendingWrite L ApplyWriteRequests items userID sessionID message none).items
      (pendingKey userID sessionID) = none ∧
    (∀ message2 dbConn2,
      (HandlePendingWrite L ApplyWriteRequests
        (HandlePendingWrite L ApplyWriteRequests items userID sessionID message none).items
        userID sessionID message2 dbConn2).handled = false) := by
  rw [handle_affirm_nil L ApplyWriteRequests items _ _ _ pending h ha]
  refine ⟨rfl, Items.delete_self _ _, fun m2 d2 => ?_⟩
  rw [handle_absent L ApplyWriteRequests _ _ _ _ _ (Items.delete_self _ _)]

/-- C9, worked example: the test `TestHandlePendingWriteApplyWithNilDB`, a stored
entry answered with `yes` twice on a nil handle. -/
theorem affirm_without_database_witness :
    itemsEngineer (pendingKey "u1" "s1") = some entryEngineer ∧
    isAffirmative (TrimSpace (ToLower refLib "yes")) = true ∧
    (HandlePendingWrite refLib exampleApplier itemsEngineer "u1" "s1" "yes" none).reply
      = "Failed to apply writes: database unavailable" ∧
    (HandlePendingWrite refLib exampleApplier
      (HandlePendingWrite refLib exampleApplier itemsEngineer "u1" "s1" "yes" none).items
      "u1" "s1" "yes" none).handled = false :=
  have h := affirm_without_database refLib exampleApplier itemsEngineer "u1" "s1" "yes"
    entryEngineer rfl rfl
  ⟨rfl, rfl, congrArg Outcome.reply h.1, h.2.2 "yes" none⟩

/-- C10. Precedence of the affirmative words: when the lower-cased, trimmed message
has a field that is an affirmative word and a field that is a negative word (each
after the punctuation is stripped), `HandlePendingWrite` with an entry under the key
takes the affirmative branch: on a nil handle it reports that the database is
unavailable, on a live handle it invokes the applier on the stored payload and
reports its outcome; the entry is removed and the reply is never the decline
acknowledgment. -/
theorem affirmative_takes_precedence {DB : Type} (L : Stdlib)
    (ApplyWriteRequests : DB → WritePayload → Except String String × DB)
    (items : Items) (userID sessionID message : String) (dbConn : Option DB)
    (pending : pendingWrite)
    (h : items (pendingKey userID sessionID) = some pending)
    (hyes : ∃ token ∈ Fields (TrimSpace (ToLower L message)),
      Trim token ".,!?;:" ∈ ["yes", "y", "yeah", "yep", "sure", "confirm", "ok", "okay"])
    (hno : ∃ token ∈ Fields (TrimSpace (ToLower L message)),
      Trim token ".,!?;:" ∈ ["no", "n", "nope", "nah", "cancel"]) :
    isNegative (TrimSpace (ToLower L message)) = true ∧
    (HandlePendingWrite L ApplyWriteRequests items userID sessionID message dbConn).reply
      ≠ "Okay, skipping the write. Let me know how else I can help." ∧
    (HandlePendingWrite L ApplyWriteRequests items userID sessionID message dbConn).handled
      = true ∧
    (HandlePendingWrite L ApplyWriteRequests items userID sessionID message dbConn).items
      = items.delete (pendingKey userID sessionID) ∧
    (dbConn = none →
      (HandlePendingWrite L ApplyWriteRequests items userID sessionID message dbConn).reply
        = "Failed to apply writes: database unavailable" ∧
      (HandlePendingWrite L ApplyWriteRequests items userID sessionID message dbConn).applied
        = []) ∧
    (∀ db, dbConn = some db →
      (HandlePendingWrite L ApplyWriteRequests items userID sessionID message dbConn).applied
        = [pending.Payload] ∧
      ((∃ s, (ApplyWriteRequests db pending.Payload).1 = .ok s ∧
          (HandlePendingWrite L ApplyWriteRequests items userID sessionID message dbConn).reply
            = "Applied writes: " ++ s) ∨
       (∃ e, (ApplyWriteRequests db pending.Payload).1 = .error e ∧
          (HandlePendingWrite L ApplyWriteRequests items userID sessionID message dbConn).reply
            = "Failed to apply writes: " ++ e))) := by
  have ha : isAffirmative (TrimSpace (ToLower L message)) = true :=
    (isAffirmative_iff _).mpr hyes
  have hn : isNegative (TrimSpace (ToLower L message)) = true := by
    simpa [isNegative, List.any_eq_true] using hno
  refine ⟨hn, ?_⟩
  cases dbConn with
  | none =>
    rw [handle_affirm_nil L ApplyWriteRequests items _ _ _ pending h ha]
    refine ⟨failed_ne_decline "database unavailable", rfl, rfl, fun _ => ⟨rfl, rfl⟩,
      fun db hdb => ?_⟩
    simp at hdb
  | some db =>
    rcases hr : ApplyWriteRequests db pending.Payload with ⟨r, db1⟩
    cases r with
    | error err =>
      rw [handle_affirm_error L ApplyWriteRequests items _ _ _ db db1 pending err h ha hr]
      refine ⟨failed_ne_decline err, rfl, rfl, fun hdb => ?_, fun db2 hdb => ?_⟩
      · simp at hdb
      · simp only [Option.some.injEq] at hdb
        subst hdb
        exact ⟨rfl, Or.inr ⟨err, by rw [hr], rfl⟩⟩
    | ok result =>
      rw [handle_affirm_ok L ApplyWriteRequests items _ _ _ db db1 pending result h ha hr]
      refine ⟨applied_ne_decline result, rfl, rfl, fun hdb => ?_, fun db2 hdb => ?_⟩
      · simp at hdb
      · simp only [Option.some.injEq] at hdb
        subst hdb
        exact ⟨rfl, Or.inl ⟨result, by rw [hr], rfl⟩⟩

/-- C10, worked example: the stored test entry answered with `yes but no`. -/
theorem affirmative_takes_precedence_witness :
    itemsEngineer (pendingKey "u1" "s1") = some entryEngineer ∧
    (∃ token ∈ Fields (TrimSpace (ToLower refLib "yes but no")),
      Trim token ".,!?;:" ∈ ["yes", "y", "yeah", "yep", "sure", "confirm", "ok", "okay"]) ∧
    (∃ token ∈ Fields (TrimSpace (ToLower refLib "yes but no")),
      Trim token ".,!?;:" ∈ ["no", "n", "nope", "nah", "cancel"]) ∧
    (HandlePendingWrite refLib exampleApplier itemsEngineer "u1" "s1" "yes but no"
      (some [])).reply ≠ "Okay, skipping the write. Let me know how else I can help." ∧
    (HandlePendingWrite refLib exampleApplier itemsEngineer "u1" "s1" "yes but no"
      (some [])).applied = [entryEngineer.Payload] :=
  have hyes : ∃ token ∈ Fields (TrimSpace (ToLower refLib "yes but no")),
      Trim token ".,!?;:" ∈ ["yes", "y", "yeah", "yep", "sure", "confirm", "ok", "okay"] :=
    ⟨"yes", by decide, by decide⟩
  have hno : ∃ token ∈ Fields (TrimSpace (ToLower refLib "yes but no")),
      Trim token ".,!?;:" ∈ ["no", "n", "nope", "nah", "cancel"] :=
    ⟨"no", by decide, by decide⟩
  have h := affirmative_takes_precedence refLib exampleApplier itemsEngineer "u1" "s1"
    "yes but no" (some []) entryEngineer rfl hyes hno
  ⟨rfl, hyes, hno, h.2.1, (h.2.2.2.2.2 [] rfl).1⟩

/-- C3. When the candidate JSON of a text decodes to a payload with at least one
write request, `ExtractWritePayload` returns a payload exactly when every request is
valid (action `insert` after trimming and lower-casing, trimmed table not empty, at
least one record), and then it is the whole decoded payload with the candidate as
raw text and no error; when some request is not valid the call returns the error
`invalid write request` with a nil payload, empty raw text and empty summary,
whatever the other requests are. A single request with the action `update` is such
a case. -/
theorem extract_validates_all_requests (L : Stdlib) (text : String) (payload : WritePayload)
    (hc : candidate text ≠ "") (hd : L.decodePayload (candidate text) = .ok payload)
    (hne : payload.WriteRequests ≠ []) :
    ((ExtractWritePayload L text).1 ≠ none ↔ ∀ req ∈ payload.WriteRequests, validRequest L req) ∧
    ((∀ req ∈ payload.WriteRequests, validRequest L req) →
      (ExtractWritePayload L text).1 = some payload ∧
      (ExtractWritePayload L text).2.1 = candidate text ∧
      (ExtractWritePayload L text).2.2.2 = none) ∧
    ((∃ req ∈ payload.WriteRequests, ¬ validRequest L req) →
      ExtractWritePayload L text = (none, "", "", some "invalid write request")) ∧
    (∀ table records,
      payload.WriteRequests = [{ Action := "update", Table := table, Records := records }] →
      ExtractWritePayload L text = (none, "", "", some "invalid write request")) := by
  have hE := extract_of_decoded L text payload hc hd hne
  have hbad : (∃ req ∈ payload.WriteRequests, ¬ validRequest L req) →
      ExtractWritePayload L text = (none, "", "", some "invalid write request") := by
    intro hex
    rw [hE, (summaryLoop_eq_none_iff L _ []).mpr hex]
  have hgood : (∀ req ∈ payload.WriteRequests, validRequest L req) →
      (ExtractWritePayload L text).1 = some payload ∧
      (ExtractWritePayload L text).2.1 = candidate text ∧
      (ExtractWritePayload L text).2.2.2 = none := by
    intro hall
    obtain ⟨out, ho⟩ := (summaryLoop_isSome_iff L _ []).mpr hall
    rw [hE, ho]
    exact ⟨rfl, rfl, rfl⟩
  refine ⟨⟨fun hsome => ?_, fun hall => ?_⟩, hgood, hbad, fun table records hreq => ?_⟩
  · by_contra hnot
    push_neg at hnot
    rw [hbad hnot] at hsome
    exact hsome rfl
  · rw [(hgood hall).1]
    simp
  · apply hbad
    rw [hreq]
    exact ⟨_, List.mem_singleton.mpr rfl, update_not_valid L table records⟩

/-- C3, worked example: the text of `TestExtractWritePayloadInvalidAction`. -/
theorem extract_validates_all_requests_witness :
    candidate replyUpdate ≠ "" ∧
    refLib.decodePayload (candidate replyUpdate) = .ok payloadUpdate ∧
    payloadUpdate.WriteRequests ≠ [] ∧
    ExtractWritePayload refLib replyUpdate = (none, "", "", some "invalid write request") :=
  ⟨by decide, rfl, List.cons_ne_nil _ _,
   (extract_validates_all_requests refLib replyUpdate payloadUpdate (by decide) rfl
     (List.cons_ne_nil _ _)).2.2.2 "projects" [[("name", JsonValue.str "Koala")]] rfl⟩

/-- C4. For a text in which the fenced-block pattern has no match and whose trimmed
form does not both start with an opening brace and end with a closing brace,
`ExtractWritePayload` returns a nil payload, empty raw text, empty summary and no
error. -/
theorem extract_without_candidate (L : Stdlib) (text : String)
    (hf : findWriteJSONBlock text = none)
    (hb : ¬ ((TrimSpace text).data.head? = some '\x7b' ∧
             (TrimSpace text).data.getLast? = some '\x7d')) :
    ExtractWritePayload L text = (none, "", "", none) := by
  have hcand : candidate text = "" := by
    simp only [candidate, hf]
    have : ¬ (startsWith (TrimSpace text).data ['\x7b'] = true ∧
        startsWith (TrimSpace text).data.reverse ['\x7d'] = true) := by
      rw [startsWith_singleton, startsWith_singleton, List.head?_reverse]
      exact hb
    simp only [Bool.and_eq_true, this, ↓reduceIte]
  simp [ExtractWritePayload, hcand]

/-- C4, worked example: the text of `TestExtractWritePayloadEmpty`. -/
theorem extract_without_candidate_witness :
    findWriteJSONBlock "no json here" = none ∧
    ¬ ((TrimSpace "no json here").data.head? = some '\x7b' ∧
       (TrimSpace "no json here").data.getLast? = some '\x7d') ∧
    ExtractWritePayload refLib "no json here" = (none, "", "", none) :=
  ⟨by decide, by decide,
   extract_without_candidate refLib "no json here" (by decide) (by decide)⟩

/-- C5. When the candidate of a text decodes without error to a payload that has no
write requests (what the decoder yields for a JSON object without the field
`write_requests` or with an empty list there), `ExtractWritePayload` returns a nil
payload and no error, with empty raw text and summary. -/
theorem extract_without_requests (L : Stdlib) (text : String) (payload : WritePayload)
    (hd : L.decodePayload (candidate text) = .ok payload)
    (he : payload.WriteRequests = []) :
    ExtractWritePayload L text = (none, "", "", none) := by
  by_cases hc : candidate text = ""
  · simp [ExtractWritePayload, hc]
  · simp [ExtractWritePayload, hc, hd, he]

/-- C5, worked example: the object with the only member `foo`. -/
theorem extract_without_requests_witness :
    refLib.decodePayload (candidate "\x7b\"foo\":1\x7d") = .ok { WriteRequests := [] } ∧
    ExtractWritePayload refLib "\x7b\"foo\":1\x7d" = (none, "", "", none) :=
  ⟨rfl, extract_without_requests refLib "\x7b\"foo\":1\x7d" { WriteRequests := [] } rfl rfl⟩

/-- C11. The classification `HandlePendingWrite` applies to a message (the two tests
on the lower-cased, trimmed message) is the same for two messages that differ only
in letter case, an ASCII capital letter and its small letter being such a
difference, and is unchanged by white space added in front of or behind the
message, for every case table that keeps white space white space. The message
`"  YES!  "` is affirmative, `"Nope."` is negative and not affirmative. -/
theorem classification_ignores_case_and_padding (L : Stdlib)
    (hL : ∀ c, isSpace c = true → isSpace (toLowerRune L c) = true) :
    (∀ m m', caseVariant L m m' →
      isAffirmative (TrimSpace (ToLower L m')) = isAffirmative (TrimSpace (ToLower L m)) ∧
      isNegative (TrimSpace (ToLower L m')) = isNegative (TrimSpace (ToLower L m))) ∧
    (∀ c : Char, 0x41 ≤ c.toNat ∧ c.toNat ≤ 0x5A →
      sameLetter L c (Char.ofNat (c.toNat + 0x20))) ∧
    (∀ pre m post : String,
      (∀ c ∈ pre.data, isSpace c = true) → (∀ c ∈ post.data, isSpace c = true) →
      isAffirmative (TrimSpace (ToLower L (pre ++ m ++ post)))
        = isAffirmative (TrimSpace (ToLower L m)) ∧
      isNegative (TrimSpace (ToLower L (pre ++ m ++ post)))
        = isNegative (TrimSpace (ToLower L m))) ∧
    isAffirmative (TrimSpace (ToLower L "  YES!  ")) = true ∧
    isAffirmative (TrimSpace (ToLower L "Nope.")) = false ∧
    isNegative (TrimSpace (ToLower L "Nope.")) = true := by
  refine ⟨fun m m' h => ?_, sameLetter_ascii L, fun pre m post hpre hpost => ?_, rfl, rfl, rfl⟩
  · rw [ToLower_caseVariant L m m' h]
    exact ⟨rfl, rfl⟩
  · rw [isAffirmative_answer, isAffirmative_answer, isNegative_answer, isNegative_answer]
    unfold isAffirmative isNegative
    rw [Fields_ToLower_padded L hL pre m post hpre hpost]
    exact ⟨rfl, rfl⟩

/-- C11, worked example: the reference table, the message `yes!` padded with blanks. -/
theorem classification_ignores_case_and_padding_witness :
    (∀ c, isSpace c = true → isSpace (toLowerRune refLib c) = true) ∧
    isAffirmative (TrimSpace (ToLower refLib ("  " ++ "yes!" ++ " \t")))
      = isAffirmative (TrimSpace (ToLower refLib "yes!")) ∧
    isAffirmative (TrimSpace (ToLower refLib "  YES!  ")) = true :=
  have hL : ∀ c, isSpace c = true → isSpace (toLowerRune refLib c) = true := by
    intro c hc
    unfold toLowerRune
    split
    · split
      · rename_i h1 h2
        simp only [isSpace, Bool.or_eq_true, beq_iff_eq, Bool.and_eq_true,
          decide_eq_true_eq] at hc
        omega
      · exact hc
    · exact hc
  have h := classification_ignores_case_and_padding refLib hL
  ⟨hL, (h.2.2.1 "  " "yes!" " \t" (by decide) (by decide)).1, h.2.2.2.1⟩

/-- C12, counterexample: the lower-cased, trimmed message `!yes` is affirmative,
although its only token, stripped of trailing punctuation, is `!yes` and not one of
the affirmative words. -/
theorem isAffirmative_strips_leading_too :
    TrimSpace (ToLower refLib "!yes") = "!yes" ∧
    ¬ (isAffirmative "!yes" = true ↔
        ∃ token ∈ Fields "!yes",
          stripTrailing token ".,!?;:"
            ∈ ["yes", "y", "yeah", "yep", "sure", "confirm", "ok", "okay"]) := by
  decide

/-- C12, amended. For every message, `isAffirmative` is true exactly when some
white-space-separated token is one of the words yes, y, yeah, yep, sure, confirm,
ok, okay with any number of the punctuation characters `. , ! ? ; :` in front of it
and behind it (the stripping is done at both ends); `isNegative` is true exactly
when some token is one of no, n, nope, nah, cancel wrapped in the same way. -/
theorem classification_iff_wrapped_word (msg : String) :
    (isAffirmative msg = true ↔
      ∃ token ∈ Fields msg,
        ∃ w ∈ ["yes", "y", "yeah", "yep", "sure", "confirm", "ok", "okay"],
          ∃ pre post : List Char,
            (∀ c ∈ pre, c ∈ ".,!?;:".data) ∧ (∀ c ∈ post, c ∈ ".,!?;:".data) ∧
            token.data = pre ++ w.data ++ post) ∧
    (isNegative msg = true ↔
      ∃ token ∈ Fields msg,
        ∃ w ∈ ["no", "n", "nope", "nah", "cancel"],
          ∃ pre post : List Char,
            (∀ c ∈ pre, c ∈ ".,!?;:".data) ∧ (∀ c ∈ post, c ∈ ".,!?;:".data) ∧
            token.data = pre ++ w.data ++ post) := by
  constructor
  · rw [isAffirmative_iff]
    constructor
    · rintro ⟨token, ht, hmem⟩
      exact ⟨token, ht, (Trim_mem_iff_wrapped token ".,!?;:" _ (by decide)).mp hmem⟩
    · rintro ⟨token, ht, hex⟩
      exact ⟨token, ht, (Trim_mem_iff_wrapped token ".,!?;:" _ (by decide)).mpr hex⟩
  · rw [isNegative_iff]
    constructor
    · rintro ⟨token, ht, hmem⟩
      exact ⟨token, ht, (Trim_mem_iff_wrapped token ".,!?;:" _ (by decide)).mp hmem⟩
    · rintro ⟨token, ht, hex⟩
      exact ⟨token, ht, (Trim_mem_iff_wrapped token ".,!?;:" _ (by decide)).mpr hex⟩

/-- C13. `MaybeCaptureWrite` acts on the first fragment for which
`ExtractWritePayload` returns a payload and no error: the fragments before it (no
payload, or an error) are skipped and those after it are not looked at. It returns
the prompt built from that fragment's summary and raw JSON with `true`, and stores
the entry under the key. When no fragment qualifies it returns `("", false)` and
leaves the store as it is; so a prompt is returned only when some fragment
qualifies. -/
theorem capture_acts_on_first_valid (L : Stdlib) (items : Items)
    (userID sessionID : String) :
    (∀ (pre : List String) (r : String) (post : List String) (payload : WritePayload)
        (raw summary : String),
      (∀ x ∈ pre, ¬ capturable L x) →
      ExtractWritePayload L r = (some payload, raw, summary, none) →
      MaybeCaptureWrite L items userID sessionID (pre ++ r :: post) =
        ("I can apply the following write request(s): " ++ summary
            ++ "\n\nReply \"yes\" to insert, or \"no\" to skip.\n\n```json\n" ++ raw ++ "\n```",
          true,
          items.set (pendingKey userID sessionID)
            { Payload := payload, RawJSON := raw, Summary := summary })) ∧
    (∀ replies : List String, (∀ x ∈ replies, ¬ capturable L x) →
      MaybeCaptureWrite L items userID sessionID replies = ("", false, items)) ∧
    (∀ replies : List String,
      (MaybeCaptureWrite L items userID sessionID replies).2.1 = true ↔
        ∃ x ∈ replies, capturable L x) := by
  have hnone : ∀ replies : List String, (∀ x ∈ replies, ¬ capturable L x) →
      MaybeCaptureWrite L items userID sessionID replies = ("", false, items) := by
    intro replies h
    have := capture_skip_all L items userID sessionID replies [] h
    rw [List.append_nil] at this
    rw [this]
    rfl
  refine ⟨fun pre r post payload raw summary hpre he => ?_, hnone, fun replies => ?_⟩
  · rw [capture_skip_all L items _ _ pre _ hpre]
    exact capture_take L items _ _ r post payload raw summary he
  · rcases capture_cases L replies with h | ⟨pre, r, post, rfl, hpre, hr⟩
    · rw [hnone replies h]
      constructor
      · intro hf
        simp at hf
      · rintro ⟨x, hx, hc⟩
        exact absurd hc (h x hx)
    · obtain ⟨payload, raw, summary, he⟩ := capturable_result L r hr
      rw [capture_skip_all L items _ _ pre _ hpre,
        capture_take L items _ _ r post payload raw summary he]
      exact ⟨fun _ => ⟨r, by simp, hr⟩, fun _ => rfl⟩

/-- C13, worked example: a malformed fragment and a fragment without JSON are
skipped, the test reply is captured, the fragment after it is ignored. -/
theorem capture_acts_on_first_valid_witness :
    MaybeCaptureWrite refLib noItems "u1" "s1"
        ([replyUpdate, "no json here"] ++ replyEngineer :: [replyKoala]) =
      ("I can apply the following write request(s): " ++ "insert 1 -> job_applications"
          ++ "\n\nReply \"yes\" to insert, or \"no\" to skip.\n\n```json\n" ++ rawEngineer
          ++ "\n```",
        true,
        noItems.set (pendingKey "u1" "s1")
          { Payload := payloadEngineer, RawJSON := rawEngineer,
            Summary := "insert 1 -> job_applications" }) :=
  (capture_acts_on_first_valid refLib noItems "u1" "s1").1 [replyUpdate, "no json here"]
    replyEngineer [replyKoala] payloadEngineer rawEngineer "insert 1 -> job_applications"
    (by
      intro x hx
      simp only [List.mem_cons, List.mem_singleton, List.not_mem_nil, or_false] at hx
      rcases hx with rfl | rfl
      · intro h
        exact h.1 rfl
      · intro h
        exact h.1 rfl)
    rfl

/-- C14. A successful `MaybeCaptureWrite` leaves under `pendingKey userID sessionID`
the entry made of the payload, raw JSON and summary of the captured fragment (the
first capturable one), whatever was stored under that key before, and leaves every
other key as it was; an affirmative `HandlePendingWrite` on a live handle that
follows invokes the applier on that payload. -/
theorem capture_overwrites_entry (L : Stdlib) (items : Items) (userID sessionID : String)
    (replies : List String)
    (hok : (MaybeCaptureWrite L items userID sessionID replies).2.1 = true) :
    ∃ pre r post payload raw summary,
      replies = pre ++ r :: post ∧ (∀ x ∈ pre, ¬ capturable L x) ∧
      ExtractWritePayload L r = (some payload, raw, summary, none) ∧
      (MaybeCaptureWrite L items userID sessionID replies).2.2 (pendingKey userID sessionID)
        = some { Payload := payload, RawJSON := raw, Summary := summary } ∧
      (∀ k, k ≠ pendingKey userID sessionID →
        (MaybeCaptureWrite L items userID sessionID replies).2.2 k = items k) ∧
      (∀ (DB : Type) (ApplyWriteRequests : DB → WritePayload → Except String String × DB)
          (message : String) (db : DB),
        isAffirmative (TrimSpace (ToLower L message)) = true →
        (HandlePendingWrite L ApplyWriteRequests
          (MaybeCaptureWrite L items userID sessionID replies).2.2
          userID sessionID message (some db)).applied = [payload]) := by
  rcases capture_cases L replies with h | ⟨pre, r, post, rfl, hpre, hr⟩
  · have := capture_skip_all L items userID sessionID replies [] h
    rw [List.append_nil] at this
    rw [this] at hok
    simp [MaybeCaptureWrite] at hok
  · obtain ⟨payload, raw, summary, he⟩ := capturable_result L r hr
    have hres := capture_skip_all L items userID sessionID pre (r :: post) hpre
    rw [capture_take L items _ _ r post payload raw summary he] at hres
    have hitem : (MaybeCaptureWrite L items userID sessionID (pre ++ r :: post)).2.2
        (pendingKey userID sessionID)
          = some { Payload := payload, RawJSON := raw, Summary := summary } := by
      rw [hres]
      simp [Items.set]
    refine ⟨pre, r, post, payload, raw, summary, rfl, hpre, he, hitem,
      fun k hk => capture_items_other L items _ _ _ k hk, fun DB apply message db ha => ?_⟩
    rcases handle_applied L apply
      (MaybeCaptureWrite L items userID sessionID (pre ++ r :: post)).2.2
      userID sessionID message (some db) with h0 | ⟨db', pending, _, hp, _, happ⟩
    · rcases hr2 : apply db
        ({ Payload := payload, RawJSON := raw, Summary := summary } : pendingWrite).Payload
        with ⟨res, db1⟩
      cases res with
      | error err =>
        rw [handle_affirm_error L apply _ _ _ _ db db1 _ err hitem ha hr2] at h0
        simp at h0
      | ok result =>
        rw [handle_affirm_ok L apply _ _ _ _ db db1 _ result hitem ha hr2] at h0
        simp at h0
    · rw [hitem] at hp
      simp only [Option.some.injEq] at hp
      rw [happ, ← hp]

/-- C14, worked example: the store already holds the job-application entry for
`u1`, `s1`; a capture of the projects reply replaces it. -/
theorem capture_overwrites_entry_witness :
    (MaybeCaptureWrite refLib itemsEngineer "u1" "s1" [replyKoala]).2.1 = true ∧
    itemsEngineer (pendingKey "u1" "s1") = some entryEngineer ∧
    ∃ pre r post payload raw summary,
      [replyKoala] = pre ++ r :: post ∧ (∀ x ∈ pre, ¬ capturable refLib x) ∧
      ExtractWritePayload refLib r = (some payload, raw, summary, none) ∧
      (MaybeCaptureWrite refLib itemsEngineer "u1" "s1" [replyKoala]).2.2 (pendingKey "u1" "s1")
        = some { Payload := payload, RawJSON := raw, Summary := summary } ∧
      (∀ k, k ≠ pendingKey "u1" "s1" →
        (MaybeCaptureWrite refLib itemsEngineer "u1" "s1" [replyKoala]).2.2 k
          = itemsEngineer k) ∧
      (∀ (DB : Type) (ApplyWriteRequests : DB → WritePayload → Except String String × DB)
          (message : String) (db : DB),
        isAffirmative (TrimSpace (ToLower refLib message)) = true →
        (HandlePendingWrite refLib ApplyWriteRequests
          (MaybeCaptureWrite refLib itemsEngineer "u1" "s1" [replyKoala]).2.2
          "u1" "s1" message (some db)).applied = [payload]) :=
  ⟨rfl, rfl, capture_overwrites_entry refLib itemsEngineer "u1" "s1" [replyKoala] rfl⟩

/-- C15. For one user and two distinct sessions the keys differ, and a
`HandlePendingWrite` call (whatever the message and the handle) or a
`MaybeCaptureWrite` call for the first session leaves what the store holds for the
second session as it was, so an entry pending there is still pending. -/
theorem sessions_are_independent {DB : Type} (L : Stdlib)
    (ApplyWriteRequests : DB → WritePayload → Except String String × DB)
    (items : Items) (userID s1 s2 : String) (hs : s1 ≠ s2) :
    pendingKey userID s1 ≠ pendingKey userID s2 ∧
    (∀ (message : String) (dbConn : Option DB),
      (HandlePendingWrite L ApplyWriteRequests items userID s1 message dbConn).items
        (pendingKey userID s2) = items (pendingKey userID s2)) ∧
    (∀ replies : List String,
      (MaybeCaptureWrite L items userID s1 replies).2.2 (pendingKey userID s2)
        = items (pendingKey userID s2)) := by
  have hk : pendingKey userID s2 ≠ pendingKey userID s1 :=
    fun h => hs (pendingKey_session_injective userID s2 s1 h).symm
  exact ⟨fun h => hk h.symm,
    fun message dbConn => handle_items_other L ApplyWriteRequests items _ _ _ _ _ hk,
    fun replies => capture_items_other L items _ _ replies _ hk⟩

/-- C15, worked example: the entry of session `s1` stays when session `s0` of the
same user is answered with `yes` or captures a new reply. -/
theorem sessions_are_independent_witness :
    "s0" ≠ "s1" ∧
    (HandlePendingWrite refLib exampleApplier itemsEngineer "u1" "s0" "yes" (some [])).items
      (pendingKey "u1" "s1") = some entryEngineer ∧
    (MaybeCaptureWrite refLib itemsEngineer "u1" "s0" [replyKoala]).2.2 (pendingKey "u1" "s1")
      = some entryEngineer :=
  have h := sessions_are_independent refLib exampleApplier itemsEngineer "u1" "s0" "s1"
    (by decide)
  ⟨by decide, h.2.1 "yes" (some []), h.2.2 [replyKoala]⟩

/-- C16. When every request of a payload has the action `insert` and a table of the
seven (both after trimming and lower-casing), every record of a goal table has a
parseable date in the field its table requires, and every insert succeeds,
`ApplyWriteRequests` runs exactly the inserts the records call for, one per record,
request by request and record by record, and returns `<total> records (<fragments>)`:
`total` is the number of records of all requests, the fragments are `<n> <table>` for
each request in order, joined by a comma and a blank, `<table>` being the matched
table name. -/
theorem apply_inserts_every_record {DB : Type} (L : Stdlib) (queryRow : QueryRow DB)
    (db : DB) (payload : WritePayload)
    (hact : ∀ req ∈ payload.WriteRequests, ToLower L (TrimSpace req.Action) = "insert")
    (htab : ∀ req ∈ payload.WriteRequests, ToLower L (TrimSpace req.Table) ∈ supportedTables)
    (hdate : ∀ req ∈ payload.WriteRequests, ∀ g ∈ goalTables,
      g.1 = ToLower L (TrimSpace req.Table) → ∀ r ∈ req.Records, getDate L r g.2.1 ≠ none)
    (hins : allSucceed queryRow db (plannedRows L payload.WriteRequests)) :
    ApplyWriteRequests L queryRow db payload =
      (.ok (toString (recordCount payload.WriteRequests) ++ " records ("
          ++ Join (fragments L payload.WriteRequests) ", " ++ ")"),
        runRows queryRow db (plannedRows L payload.WriteRequests)) ∧
    (plannedRows L payload.WriteRequests).map some =
      (payload.WriteRequests.map fun req =>
        req.Records.map (rowOf L (ToLower L (TrimSpace req.Table)))).flatten ∧
    (plannedRows L payload.WriteRequests).length = recordCount payload.WriteRequests := by
  have hreq : ∀ req ∈ payload.WriteRequests,
      ToLower L (TrimSpace req.Action) = "insert" ∧
      ToLower L (TrimSpace req.Table) ∈ supportedTables ∧
      ∀ r ∈ req.Records, rowOf L (ToLower L (TrimSpace req.Table)) r ≠ none :=
    fun req hr => ⟨hact req hr, htab req hr, fun r hrec =>
      rowOf_ne_none L _ r (htab req hr) (fun g hg hgt => hdate req hr g hg hgt r hrec)⟩
  have hrows : (plannedRows L payload.WriteRequests).map some =
      (payload.WriteRequests.map fun req =>
        req.Records.map (rowOf L (ToLower L (TrimSpace req.Table)))).flatten := by
    have key : ∀ reqs : List WriteRequest,
        (∀ req ∈ reqs, ∀ r ∈ req.Records, rowOf L (ToLower L (TrimSpace req.Table)) r ≠ none) →
        (plannedRows L reqs).map some =
          (reqs.map fun req =>
            req.Records.map (rowOf L (ToLower L (TrimSpace req.Table)))).flatten := by
      intro reqs
      induction reqs with
      | nil => intro _; rfl
      | cons req rest ih =>
        intro h
        simp only [plannedRows, List.map_cons, List.flatten_cons, List.map_append]
        rw [show (List.map (requestRows L) rest).flatten = plannedRows L rest from rfl,
          ih (fun x hx => h x (List.mem_cons_of_mem _ hx))]
        rw [show requestRows L req
            = req.Records.filterMap (rowOf L (ToLower L (TrimSpace req.Table))) from rfl,
          filterMap_all_some _ _ (h req (List.mem_cons_self _ _))]
    exact key _ (fun req hr => (hreq req hr).2.2)
  refine ⟨?_, hrows, ?_⟩
  · simp only [ApplyWriteRequests,
      applyRequests_complete L queryRow payload.WriteRequests db 0 [] hreq hins,
      Nat.zero_add, List.nil_append]
  · have := congrArg List.length hrows
    simp only [List.length_map, List.length_flatten, List.map_map] at this
    rw [this, recordCount]
    congr 1
    apply List.map_congr_left
    intro req _
    simp

/-- C16, worked example: two requests, three records, a store where every insert
succeeds. -/
theorem apply_inserts_every_record_witness :
    (∀ req ∈ payloadTwo.WriteRequests, ToLower refLib (TrimSpace req.Action) = "insert") ∧
    (∀ req ∈ payloadTwo.WriteRequests,
      ToLower refLib (TrimSpace req.Table) ∈ supportedTables) ∧
    allSucceed logStore [] (plannedRows refLib payloadTwo.WriteRequests) ∧
    ApplyWriteRequests refLib logStore [] payloadTwo =
      (.ok "3 records (2 job_applications, 1 projects)",
        plannedRows refLib payloadTwo.WriteRequests) ∧
    (plannedRows refLib payloadTwo.WriteRequests).length = 3 :=
  have hact : ∀ req ∈ payloadTwo.WriteRequests,
      ToLower refLib (TrimSpace req.Action) = "insert" := by decide
  have htab : ∀ req ∈ payloadTwo.WriteRequests,
      ToLower refLib (TrimSpace req.Table) ∈ supportedTables := by decide
  have hins : allSucceed logStore [] (plannedRows refLib payloadTwo.WriteRequests) :=
    ⟨⟨_, rfl⟩, ⟨_, rfl⟩, ⟨_, rfl⟩, trivial⟩
  have h := apply_inserts_every_record refLib logStore [] payloadTwo hact htab (by decide) hins
  ⟨hact, htab, hins, h.1, h.2.2⟩

/-- C17, counterexample: the table name `Projects`, with a capital letter, is none of
the seven names, yet the request is routed to `projects` and its record inserted. -/
theorem capital_table_is_routed :
    "Projects" ∉ supportedTables ∧
    ApplyWriteRequests refLib logStore [] payloadCapital =
      (.ok "1 records (1 projects)",
        [Row.projects { ID := 0, Name := "Koala", RepoURL := "", Active := false,
                        TechStack := [], Summary := "" }]) :=
  ⟨by decide, rfl⟩

/-- C17, amended. When the requests before a request complete, the request has the
action `insert` and its table name, trimmed and lower-cased, is none of the seven
names, `ApplyWriteRequests` fails at once with `unsupported table: ` followed by the
table text as written: no insert is run for that request or a later one, and the
database is the one the inserts of the earlier requests left. -/
theorem unsupported_table_fails {DB : Type} (L : Stdlib) (queryRow : QueryRow DB)
    (db db1 : DB) (payload : WritePayload) (pre : List WriteRequest) (req : WriteRequest)
    (post : List WriteRequest) (total1 : Nat) (summaries1 : List String)
    (hsplit : payload.WriteRequests = pre ++ req :: post)
    (hpre : applyRequests L queryRow db pre 0 [] = (.ok (total1, summaries1), db1))
    (hact : ToLower L (TrimSpace req.Action) = "insert")
    (htab : ToLower L (TrimSpace req.Table) ∉ supportedTables) :
    ApplyWriteRequests L queryRow db payload
      = (.error ("unsupported table: " ++ req.Table), db1) ∧
    db1 = runRows queryRow db (plannedRows L pre) :=
  ⟨apply_reaches L queryRow db db1 db1 payload pre req post total1 summaries1 _ hsplit hpre
      (applyRequests_bad_table L queryRow db1 req post total1 summaries1 hact htab),
    (applyRequests_ok L queryRow pre db db1 0 total1 [] summaries1 hpre).2.2.1⟩

/-- C17, worked example: a `job_applications` request followed by a request for the
table `widgets`. -/
theorem unsupported_table_fails_witness :
    applyRequests refLib logStore [] payloadEngineer.WriteRequests 0 []
      = (.ok (1, ["1 job_applications"]), plannedRows refLib payloadEngineer.WriteRequests) ∧
    ToLower refLib (TrimSpace "widgets") ∉ supportedTables ∧
    ApplyWriteRequests refLib logStore [] payloadWidgets =
      (.error "unsupported table: widgets",
        plannedRows refLib payloadEngineer.WriteRequests) :=
  ⟨rfl, by decide,
   (unsupported_table_fails refLib logStore [] (plannedRows refLib payloadEngineer.WriteRequests)
     payloadWidgets payloadEngineer.WriteRequests
     { Action := "insert", Table := "widgets", Records := [[("name", JsonValue.str "X")]] }
     payloadKoala.WriteRequests 1 ["1 job_applications"] rfl rfl rfl (by decide)).1⟩

/-- C18, counterexample: a `daily_goals` request whose first record has a date and
whose second has none. The call fails, and the first record of that request has been
inserted. -/
theorem goal_request_inserted_in_part :
    getDate refLib [("description", JsonValue.str "rest")] "target_date" = none ∧
    ApplyWriteRequests refLib logStore [] payloadGoals =
      (.error "daily_goals requires target_date",
        [Row.daily_goals
          { ID := 0, Description := "apply",
            TargetDate := { year := 2025, month := 12, day := 1 }, Completed := false,
            JobApplication := none, CodingProblem := none, Project := none,
            Contact := none }]) :=
  ⟨rfl, rfl⟩

/-- C18, amended. A payload with a `daily_goals` request in which some record has no
parseable `target_date` makes `ApplyWriteRequests` fail, whatever the position of the
record. When the call reaches the first such record (the earlier requests complete,
the records before it in the request have dates and their inserts succeed) it
reports `daily_goals requires target_date`; the records of the request before it
have been inserted and stay so, that record and all later ones are not inserted. -/
theorem daily_goal_without_date {DB : Type} (L : Stdlib) (queryRow : QueryRow DB) :
    (∀ (db : DB) (payload : WritePayload) (req : WriteRequest) (bad : Record),
      req ∈ payload.WriteRequests → ToLower L (TrimSpace req.Table) = "daily_goals" →
      bad ∈ req.Records → getDate L bad "target_date" = none →
      ∃ msg, (ApplyWriteRequests L queryRow db payload).1 = .error msg) ∧
    (∀ (db db1 : DB) (payload : WritePayload) (pre : List WriteRequest) (req : WriteRequest)
        (post : List WriteRequest) (total1 : Nat) (summaries1 : List String)
        (good : List Record) (bad : Record) (rest : List Record),
      payload.WriteRequests = pre ++ req :: post →
      applyRequests L queryRow db pre 0 [] = (.ok (total1, summaries1), db1) →
      ToLower L (TrimSpace req.Action) = "insert" →
      ToLower L (TrimSpace req.Table) = "daily_goals" →
      req.Records = good ++ bad :: rest →
      (∀ r ∈ good, getDate L r "target_date" ≠ none) →
      allSucceed queryRow db1 (good.filterMap (rowOf L "daily_goals")) →
      getDate L bad "target_date" = none →
      ApplyWriteRequests L queryRow db payload =
        (.error "daily_goals requires target_date",
          runRows queryRow db1 (good.filterMap (rowOf L "daily_goals"))) ∧
      (good.filterMap (rowOf L "daily_goals")).length = good.length) := by
  have hg : ("daily_goals", "target_date", "daily_goals requires target_date") ∈ goalTables := by
    simp [goalTables]
  constructor
  · intro db payload req bad hreq htab hbad hdate
    rcases hres : applyRequests L queryRow db payload.WriteRequests 0 [] with ⟨res, db2⟩
    cases res with
    | error msg => exact ⟨msg, by simp [ApplyWriteRequests, hres]⟩
    | ok out =>
      exfalso
      obtain ⟨h1, _⟩ := applyRequests_ok L queryRow payload.WriteRequests db db2 0 out.1 []
        out.2 hres
      have := (h1 req hreq).2.2 bad hbad
      rw [htab] at this
      exact this (((applyCase_goal L queryRow _ _ _ hg).2.1 bad).mpr hdate)
  · intro db db1 payload pre req post total1 summaries1 good bad rest hsplit hpre hact htab
      hrec hgood hins hbad
    obtain ⟨hsup, hrow, hstop⟩ := applyCase_goal L queryRow _ _ _ hg
    obtain ⟨step, hs, hf⟩ := (applyCase_spec L queryRow "daily_goals").2 hsup
    have hgood' : ∀ r ∈ good, rowOf L "daily_goals" r ≠ none :=
      fun r hr hn => hgood r hr ((hrow r).mp hn)
    have hloop := insertRecords_stop queryRow step _ hf good bad rest db1 total1 _ hgood' hins
      (fun d => hstop step hs d bad hbad)
    rw [← hrec] at hloop
    refine ⟨apply_reaches L queryRow db db1 _ payload pre req post total1 summaries1 _ hsplit
      hpre (applyRequests_record_error L queryRow db1 req post total1 summaries1 step _ _ hact
        (by rw [htab]; exact hs) hloop), ?_⟩
    have := congrArg List.length (filterMap_all_some (rowOf L "daily_goals") good hgood')
    simpa using this

/-- C18, worked example: the two-record `daily_goals` request. -/
theorem daily_goal_without_date_witness :
    ApplyWriteRequests refLib logStore [] payloadGoals =
      (.error "daily_goals requires target_date",
        runRows logStore []
          ([[("description", JsonValue.str "apply"),
             ("target_date", JsonValue.str "2025-12-01")]].filterMap
            (rowOf refLib "daily_goals"))) :=
  ((daily_goal_without_date refLib logStore).2 [] [] payloadGoals []
    { Action := "insert", Table := "daily_goals",
      Records := [[("description", JsonValue.str "apply"),
                   ("target_date", JsonValue.str "2025-12-01")],
                  [("description", JsonValue.str "rest")]] }
    [] 0 []
    [[("description", JsonValue.str "apply"), ("target_date", JsonValue.str "2025-12-01")]]
    [("description", JsonValue.str "rest")] []
    rfl rfl rfl rfl rfl (by decide) ⟨⟨_, rfl⟩, trivial⟩ rfl).1

/-- C19. When `ApplyWriteRequests` reaches, in a request for a goal table, a record
whose required date field (`target_date` for `daily_goals`, `week_of` for
`weekly_goals`, `month_of` for `monthly_goals`) yields no date, it returns the
table's error (`daily_goals requires target_date`, `weekly_goals requires week_of`,
`monthly_goals requires month_of`) and no result string, and runs no insert for that
record or for any later record or request: the database is the one left by the
inserts before it. A field that is absent, null, empty or blank, or whose text is
not a valid `YYYY-MM-DD` date yields no date. -/
theorem goal_without_date_stops {DB : Type} (L : Stdlib) (queryRow : QueryRow DB)
    (db db1 : DB) (payload : WritePayload) (pre : List WriteRequest) (req : WriteRequest)
    (post : List WriteRequest) (total1 : Nat) (summaries1 : List String)
    (table field msg : String) (good : List Record) (bad : Record) (rest : List Record)
    (hg : (table, field, msg) ∈ goalTables)
    (hsplit : payload.WriteRequests = pre ++ req :: post)
    (hpre : applyRequests L queryRow db pre 0 [] = (.ok (total1, summaries1), db1))
    (hact : ToLower L (TrimSpace req.Action) = "insert")
    (htab : ToLower L (TrimSpace req.Table) = table)
    (hrec : req.Records = good ++ bad :: rest)
    (hgood : ∀ r ∈ good, getDate L r field ≠ none)
    (hins : allSucceed queryRow db1 (good.filterMap (rowOf L table)))
    (hbad : getDate L bad field = none) :
    ApplyWriteRequests L queryRow db payload =
      (.error msg, runRows queryRow db1 (good.filterMap (rowOf L table))) ∧
    db1 = runRows queryRow db (plannedRows L pre) ∧
    (∀ (record : Record) (key : String),
      (record.lookup key = none ∨ record.lookup key = some JsonValue.null ∨
        ∃ s, (record.lookup key = some (JsonValue.str s) ∨
              record.lookup key = some (JsonValue.number s)) ∧
          (TrimSpace s = "" ∨ parseDate s = none)) →
      getDate L record key = none) := by
  obtain ⟨hsup, hrow, hstop⟩ := applyCase_goal L queryRow _ _ _ hg
  obtain ⟨step, hs, hf⟩ := (applyCase_spec L queryRow table).2 hsup
  have hgood' : ∀ r ∈ good, rowOf L table r ≠ none :=
    fun r hr hn => hgood r hr ((hrow r).mp hn)
  have hloop := insertRecords_stop queryRow step _ hf good bad rest db1 total1 _ hgood' hins
    (fun d => hstop step hs d bad hbad)
  rw [← hrec] at hloop
  exact ⟨apply_reaches L queryRow db db1 _ payload pre req post total1 summaries1 _ hsplit
      hpre (applyRequests_record_error L queryRow db1 req post total1 summaries1 step _ _ hact
        (by rw [htab]; exact hs) hloop),
    (applyRequests_ok L queryRow pre db db1 0 total1 [] summaries1 hpre).2.2.1,
    getDate_eq_none L⟩

/-- C19, worked example: a `job_applications` request, then a `weekly_goals` request
whose second record has a `week_of` that is not a date. -/
theorem goal_without_date_stops_witness :
    ("weekly_goals", "week_of", "weekly_goals requires week_of") ∈ goalTables ∧
    getDate refLib [("week_of", JsonValue.str "2025-02-30")] "week_of" = none ∧
    ApplyWriteRequests refLib logStore [] payloadWeekly =
      (.error "weekly_goals requires week_of",
        runRows logStore (plannedRows refLib payloadEngineer.WriteRequests)
          ([[("week_of", JsonValue.str "2025-12-01")]].filterMap
            (rowOf refLib "weekly_goals"))) :=
  ⟨by decide, rfl,
   (goal_without_date_stops refLib logStore [] (plannedRows refLib payloadEngineer.WriteRequests)
     payloadWeekly payloadEngineer.WriteRequests
     { Action := "insert", Table := "Weekly_Goals",
       Records := [[("week_of", JsonValue.str "2025-12-01")],
                   [("week_of", JsonValue.str "2025-02-30")],
                   [("week_of", JsonValue.str "2025-12-08")]] }
     [] 1 ["1 job_applications"] "weekly_goals" "week_of" "weekly_goals requires week_of"
     [[("week_of", JsonValue.str "2025-12-01")]] [("week_of", JsonValue.str "2025-02-30")]
     [[("week_of", JsonValue.str "2025-12-08")]]
     (by decide) rfl rfl rfl rfl rfl (by decide) ⟨⟨_, rfl⟩, trivial⟩ rfl).1⟩

/-- C20. When the requests before a request complete and that request's action,
trimmed and lower-cased, is not `insert`, `ApplyWriteRequests` returns at once the
error `unsupported action: ` followed by the action text as written, and runs no
insert for that request or a later one: the database is the one the inserts of the
earlier requests left. This holds for every payload, whether or not it went through
`ExtractWritePayload`. -/
theorem unsupported_action_fails {DB : Type} (L : Stdlib) (queryRow : QueryRow DB)
    (db db1 : DB) (payload : WritePayload) (pre : List WriteRequest) (req : WriteRequest)
    (post : List WriteRequest) (total1 : Nat) (summaries1 : List String)
    (hsplit : payload.WriteRequests = pre ++ req :: post)
    (hpre : applyRequests L queryRow db pre 0 [] = (.ok (total1, summaries1), db1))
    (hact : ToLower L (TrimSpace req.Action) ≠ "insert") :
    ApplyWriteRequests L queryRow db payload
      = (.error ("unsupported action: " ++ req.Action), db1) ∧
    db1 = runRows queryRow db (plannedRows L pre) :=
  ⟨apply_reaches L queryRow db db1 db1 payload pre req post total1 summaries1 _ hsplit hpre
      (applyRequests_bad_action L queryRow db1 req post total1 summaries1 hact),
    (applyRequests_ok L queryRow pre db db1 0 total1 [] summaries1 hpre).2.2.1⟩

/-- C20, worked example: the payload of the test with the action `update`, which
`ExtractWritePayload` rejects, handed to the applier directly. -/
theorem unsupported_action_fails_witness :
    ToLower refLib (TrimSpace "update") ≠ "insert" ∧
    ApplyWriteRequests refLib logStore [] payloadUpdate
      = (.error "unsupported action: update", []) :=
  ⟨by decide,
   (unsupported_action_fails refLib logStore [] [] payloadUpdate []
     { Action := "update", Table := "projects",
       Records := [[("name", JsonValue.str "Koala")]] }
     [] 0 [] rfl rfl (by decide)).1⟩

/-- C21. The parser does not restrict table names: when the candidate of a text
decodes to a payload whose only request has the action `insert`, the table `widgets`
and one record, `ExtractWritePayload` returns that payload with no error and the
summary `insert 1 -> widgets`, and `ApplyWriteRequests` on the same payload returns
the error `unsupported table: widgets` and leaves the database untouched. -/
theorem widgets_parses_but_is_not_applied {DB : Type} (L : Stdlib) (queryRow : QueryRow DB)
    (db : DB) (text : String) (payload : WritePayload) (record : Record)
    (hc : candidate text ≠ "") (hd : L.decodePayload (candidate text) = .ok payload)
    (hp : payload.WriteRequests
      = [{ Action := "insert", Table := "widgets", Records := [record] }]) :
    ExtractWritePayload L text = (some payload, candidate text, "insert 1 -> widgets", none) ∧
    ApplyWriteRequests L queryRow db payload = (.error "unsupported table: widgets", db) := by
  have hne : payload.WriteRequests ≠ [] := by simp [hp]
  have e1 : ToLower L (TrimSpace "insert") = "insert" := rfl
  have e2 : TrimSpace "widgets" = "widgets" := by decide
  have e3 : "insert" ++ " " ++ toString 1 ++ " -> " ++ "widgets" = "insert 1 -> widgets" := by
    decide
  have hs : summaryLoop L payload.WriteRequests [] = some ["insert 1 -> widgets"] := by
    rw [hp]
    simp only [summaryLoop, e1, e2, List.length_singleton, List.nil_append]
    simp only [ne_eq, not_true_eq_false, String.reduceEq, one_ne_zero, or_self, ↓reduceIte, e3]
  have ht : ToLower L (TrimSpace "widgets") ∉ supportedTables := by
    have e : ToLower L (TrimSpace "widgets") = "widgets" := rfl
    rw [e]
    decide
  constructor
  · rw [extract_of_decoded L text payload hc hd hne, hs]
    rfl
  · exact apply_reaches L queryRow db db db payload []
      { Action := "insert", Table := "widgets", Records := [record] } [] 0 [] _ hp rfl
      (applyRequests_bad_table L queryRow db _ [] 0 [] rfl ht)

/-- C21, worked example: the JSON text with the table `widgets`, the reference
decoder and the logging store. -/
theorem widgets_parses_but_is_not_applied_witness :
    candidate replyWidgets ≠ "" ∧
    refLib.decodePayload (candidate replyWidgets) = .ok payloadOnlyWidgets ∧
    ExtractWritePayload refLib replyWidgets
      = (some payloadOnlyWidgets, candidate replyWidgets, "insert 1 -> widgets", none) ∧
    ApplyWriteRequests refLib logStore [] payloadOnlyWidgets
      = (.error "unsupported table: widgets", []) :=
  have h := widgets_parses_but_is_not_applied refLib logStore [] replyWidgets payloadOnlyWidgets
    [("name", JsonValue.str "X")] (by decide) rfl rfl
  ⟨by decide, rfl, h.1, h.2⟩

/-- C22. When `ExtractWritePayload` returns a payload, the summary it returns is the
list of the items `<action> <record-count> -> <table>`, one per request in request
order, joined by a comma and a blank; the action shown is the trimmed, lower-cased
one, which is `insert`, the count is the number of records in decimal, and the table
is the trimmed one. -/
theorem summary_lists_requests (L : Stdlib) (text : String) (payload : WritePayload)
    (h : (ExtractWritePayload L text).1 = some payload) :
    (ExtractWritePayload L text).2.2.1
      = Join (payload.WriteRequests.map fun req =>
          "insert " ++ toString req.Records.length ++ " -> " ++ TrimSpace req.Table) ", " ∧
    (ExtractWritePayload L text).2.2.1 = Join (payload.WriteRequests.map (summaryItem L)) ", " ∧
    (∀ req ∈ payload.WriteRequests, ToLower L (TrimSpace req.Action) = "insert") ∧
    (ExtractWritePayload L text).2.2.2 = none := by
  obtain ⟨_, _, _, parts, hs, he⟩ := extract_some L text payload h
  have hv := (extract_valid L text payload h).2
  have hparts := summaryLoop_some L _ [] parts hs
  rw [List.nil_append] at hparts
  have hitems : payload.WriteRequests.map (summaryItem L)
      = payload.WriteRequests.map fun req =>
          "insert " ++ toString req.Records.length ++ " -> " ++ TrimSpace req.Table := by
    apply List.map_congr_left
    intro req hreq
    have ha := (hv req hreq).1
    simp only [summaryItem, ha]
    rfl
  rw [he]
  refine ⟨?_, ?_, fun req hreq => (hv req hreq).1, rfl⟩
  · show Join parts ", " = _
    rw [hparts, hitems]
  · show Join parts ", " = _
    rw [hparts]

/-- C22, worked example: the text of `TestExtractWritePayloadFromFence`. -/
theorem summary_lists_requests_witness :
    (ExtractWritePayload refLib replyEngineer).1 = some payloadEngineer ∧
    (ExtractWritePayload refLib replyEngineer).2.2.1 = "insert 1 -> job_applications" :=
  ⟨rfl, (summary_lists_requests refLib replyEngineer payloadEngineer rfl).1⟩

/-- C23. When the pattern of the fenced block (the fence, the optional tag `json`,
white space, an object from an opening brace to a closing brace, white space, the
fence) matches somewhere in the text, the candidate is the object of the match at the
first position that has one, and the shortest object there, whether or not the
trimmed text itself starts and ends with a brace; the pattern matches whenever some
position has such a block. Only when no position matches is the candidate the trimmed
text, and only if that starts with an opening brace and ends with a closing brace;
otherwise there is no candidate. On success the raw string returned is the candidate,
which decodes to the payload and is a contiguous part of the text. -/
theorem candidate_is_first_fence_else_trimmed_text (L : Stdlib) (text : String) :
    (∀ m, findWriteJSONBlock text = some m →
      candidate text = m ∧
      ∃ pre suf, text.data = pre ++ suf ∧ fencedAt suf m.data ∧
        ∀ pre2 suf2 m2, text.data = pre2 ++ suf2 → fencedAt suf2 m2 →
          pre.length ≤ pre2.length ∧
          (pre2.length = pre.length → m.data.length ≤ m2.length)) ∧
    ((∃ pre suf m, text.data = pre ++ suf ∧ fencedAt suf m) →
      ∃ m, findWriteJSONBlock text = some m) ∧
    (findWriteJSONBlock text = none →
      candidate text =
        if (TrimSpace text).data.head? = some '\x7b' ∧
            (TrimSpace text).data.getLast? = some '\x7d' then TrimSpace text
        else "") ∧
    List.IsInfix (candidate text).data text.data ∧
    (∀ payload, (ExtractWritePayload L text).1 = some payload →
      (ExtractWritePayload L text).2.1 = candidate text ∧
      L.decodePayload (candidate text) = .ok payload) ∧
    candidate "\x7b ```json\n\x7b\"a\":1\x7d\n``` \x7d" = "\x7b\"a\":1\x7d" ∧
    candidate "```\x7b\"a\":1\x7d``` and ```\x7b\"b\":2\x7d```" = "\x7b\"a\":1\x7d" ∧
    candidate "  \x7b\"a\":1\x7d\n" = "\x7b\"a\":1\x7d" ∧
    candidate "see \x7b\"a\":1\x7d" = "" := by
  refine ⟨?_, ?_, ?_, candidate_infix text, ?_, by decide, by decide, by decide, by decide⟩
  · intro m hm
    have hc : candidate text = m := by simp only [candidate, hm]
    refine ⟨hc, ?_⟩
    simp only [findWriteJSONBlock, Option.map_eq_some'] at hm
    obtain ⟨l, hl, rfl⟩ := hm
    obtain ⟨pre, suf, hs, hsuf, hmin⟩ := findMatch_some _ l hl
    refine ⟨pre, suf, hs, matchHere_sound suf l hsuf, ?_⟩
    intro pre2 suf2 m2 hs2 hf2
    obtain ⟨m3, hm3, hlen⟩ := matchHere_complete suf2 m2 hf2
    have hle : pre.length ≤ pre2.length := by
      by_contra hn
      rw [hmin pre2 suf2 hs2 (Nat.lt_of_not_le hn)] at hm3
      exact absurd hm3 (by simp)
    refine ⟨hle, fun heq => ?_⟩
    have hsame : suf2 = suf := by
      rw [hs] at hs2
      exact ((List.append_inj hs2 heq.symm).2).symm
    rw [hsame, hsuf, Option.some.injEq] at hm3
    rw [hm3]
    exact hlen
  · rintro ⟨pre, suf, m, hs, hf⟩
    obtain ⟨m1, hm1, _⟩ := matchHere_complete suf m hf
    cases hfm : findMatch text.data with
    | some l => exact ⟨String.mk l, by simp only [findWriteJSONBlock, hfm, Option.map_some']⟩
    | none =>
      rw [findMatch_none _ hfm pre suf hs] at hm1
      exact absurd hm1 (by simp)
  · intro hnone
    simp only [candidate, hnone, Bool.and_eq_true, startsWith_singleton, List.head?_reverse]
  · intro payload h
    obtain ⟨_, hd, _, parts, _, he⟩ := extract_some L text payload h
    rw [he]
    exact ⟨rfl, hd⟩

/-- C24. `getIntPtr` returns null for a field that is absent or null, and returns an
integer `i` exactly in three cases: the field is a decimal-preserving number or a
string whose text is a base-10 integer (an optional sign and digits) that denotes `i`
within the signed 64-bit range; the field is a native `float64` and `i` is its
conversion, which is the value with the fraction discarded when that is within the
range; the field is a native `int` and `i` is that integer. Every other field (text
that is not such an integer, a boolean, a list, an object) gives null. The integer is
the one the digits denote, whatever their number: `7` gives 7 and `9007199254740993`
gives 9007199254740993. -/
theorem getIntPtr_parses_exactly (L : Stdlib) (record : Record) (key : String) :
    (record.lookup key = none → getIntPtr L record key = none) ∧
    (record.lookup key = some JsonValue.null → getIntPtr L record key = none) ∧
    (∀ i, getIntPtr L record key = some i ↔
      (∃ t, (record.lookup key = some (JsonValue.number t) ∨
          record.lookup key = some (JsonValue.str t)) ∧
        denotesInt t i ∧ inInt64 i) ∨
      (∃ v, record.lookup key = some (JsonValue.float64 v) ∧ i = floatToInt L v) ∨
      record.lookup key = some (JsonValue.int i)) ∧
    (∀ v t, record.lookup key = some (JsonValue.float64 v) → truncatesTo v t → inInt64 t →
      getIntPtr L record key = some t) ∧
    getIntPtr L [("contact_id", JsonValue.number "7")] "contact_id" = some 7 ∧
    getIntPtr L [("contact_id", JsonValue.number "9007199254740993")] "contact_id"
      = some 9007199254740993 ∧
    getIntPtr L [("contact_id", JsonValue.float64 (Float64.finite false 15 (-1)))]
      "contact_id" = some 7 ∧
    getIntPtr L [("contact_id", JsonValue.int 7)] "contact_id" = some 7 := by
  have text : ∀ t i, (if ((ParseInt t).2 == none) = true then some (ParseInt t).1 else none)
      = some i ↔ denotesInt t i ∧ inInt64 i := by
    intro t i
    rw [← ParseInt_ok_iff]
    by_cases h : (ParseInt t).2 = none
    · simp [h]
    · simp [h]
  refine ⟨fun h => by simp [getIntPtr, h], fun h => by simp [getIntPtr, h], fun i => ?_,
    fun v t h ht hr => ?_, rfl, rfl, rfl, rfl⟩
  · cases h : record.lookup key with
    | none => simp [getIntPtr, h]
    | some v =>
      cases v with
      | null => simp [getIntPtr, h]
      | bool b => simp [getIntPtr, h]
      | arr a => simp [getIntPtr, h]
      | obj o => simp [getIntPtr, h]
      | strs l => simp [getIntPtr, h]
      | float64 f =>
        simp only [getIntPtr, h, Option.some.injEq, reduceCtorEq, or_self, false_and,
          exists_false, JsonValue.float64.injEq, exists_eq_left', false_or, or_false]
        exact eq_comm
      | int n =>
        simp only [getIntPtr, h, Option.some.injEq, reduceCtorEq, or_self, false_and,
          exists_false, JsonValue.int.injEq, false_or]
      | number t =>
        simp only [getIntPtr, h, text, Option.some.injEq, JsonValue.number.injEq,
          reduceCtorEq, or_false, exists_eq_left', false_and, exists_false]
      | str t =>
        simp only [getIntPtr, h, text, Option.some.injEq, JsonValue.str.injEq, reduceCtorEq,
          false_or, exists_eq_left', false_and, exists_false, or_false]
  · simp only [getIntPtr, h, floatToInt_of_truncatesTo L v t ht hr]

/-- C25, the case that fails: the decoder keeps the number `1.5` as its text, and
`getBool` on that number, which is not zero, is false; so it is on the integer
`18446744073709551616`, which does not fit 64 bits. -/
theorem fractional_number_is_not_true :
    refLib.decodePayload replyFraction = .ok payloadFraction ∧
    getBool refLib [("already_solved", JsonValue.number "1.5")] "already_solved" = false ∧
    getBool refLib [("already_solved", JsonValue.number "18446744073709551616")]
      "already_solved" = false :=
  ⟨rfl, by decide, by decide⟩

/-- C25, amended. `getBool` returns false for a field that is absent or null, the
value itself for a boolean, true for a string exactly when its lower-case form is
`true`, true for a decimal-preserving number exactly when its text is a base-10
integer within the signed 64-bit range that is not zero, and false for a list or an
object. -/
theorem getBool_cases (L : Stdlib) (record : Record) (key : String) :
    (record.lookup key = none → getBool L record key = false) ∧
    (record.lookup key = some JsonValue.null → getBool L record key = false) ∧
    (∀ b, record.lookup key = some (JsonValue.bool b) → getBool L record key = b) ∧
    (∀ s, record.lookup key = some (JsonValue.str s) →
      (getBool L record key = true ↔ ToLower L s = "true")) ∧
    (∀ t, record.lookup key = some (JsonValue.number t) →
      (getBool L record key = true ↔ ∃ i, denotesInt t i ∧ inInt64 i ∧ i ≠ 0)) ∧
    (∀ a, record.lookup key = some (JsonValue.arr a) → getBool L record key = false) ∧
    (∀ o, record.lookup key = some (JsonValue.obj o) → getBool L record key = false) ∧
    getBool L [("already_solved", JsonValue.number "1")] "already_solved" = true ∧
    getBool L [("active", JsonValue.str "TRUE")] "active" = true := by
  refine ⟨fun h => by simp [getBool, h], fun h => by simp [getBool, h],
    fun b h => by simp [getBool, h], fun s h => by simp [getBool, h], fun t h => ?_,
    fun a h => by simp [getBool, h], fun o h => by simp [getBool, h], rfl, rfl⟩
  have hb : getBool L record key = ((ParseInt t).2 == none && (ParseInt t).1 != 0) := by
    simp only [getBool, h]
  rw [hb]
  constructor
  · intro hp
    simp only [Bool.and_eq_true, beq_iff_eq, bne_iff_ne, ne_eq] at hp
    exact ⟨(ParseInt t).1, ((ParseInt_ok_iff t _).mp ⟨hp.1, rfl⟩).1,
      ((ParseInt_ok_iff t _).mp ⟨hp.1, rfl⟩).2, hp.2⟩
  · rintro ⟨i, hd, hr, hi⟩
    rw [ParseInt_denotes t i hd hr]
    simp [hi]

/-- C26, the case that fails: the digit string `99999999999999999999` does not parse
(`Atoi` reports a range error), and `getInt` returns the largest 64-bit integer for
it, not 0. -/
theorem out_of_range_string_is_clamped :
    (Atoi "99999999999999999999").2 = some NumError.ErrRange ∧
    getInt refLib [("leetcode_number", JsonValue.str "99999999999999999999")]
      "leetcode_number" = 9223372036854775807 :=
  ⟨by decide, by decide⟩

/-- C26, amended. `getInt` returns 0 for a field that is absent or null. For a
numeric value it returns the truncated or parsed integer: a native `float64` gives
its conversion, which is the value with the fraction discarded when that is within
the signed 64-bit range, a native `int` gives itself, and a decimal-preserving number
whose text is a base-10 integer within the range gives that integer (`42` gives 42).
For a string it returns the integer the string denotes when the string is a base-10
integer (an optional sign and digits) within the range, the nearest bound of the
range when it is one beyond the range, and 0 for any other string, unless the digits
in front of the first other character already pass 64 bits, which gives the bound as
well. A boolean, a list and an object give 0. -/
theorem getInt_cases (L : Stdlib) (record : Record) (key : String) :
    (record.lookup key = none → getInt L record key = 0) ∧
    (record.lookup key = some JsonValue.null → getInt L record key = 0) ∧
    (∀ v, record.lookup key = some (JsonValue.float64 v) →
      getInt L record key = floatToInt L v ∧
      ∀ t, truncatesTo v t → inInt64 t → getInt L record key = t) ∧
    (∀ n, record.lookup key = some (JsonValue.int n) → getInt L record key = n) ∧
    (∀ t, record.lookup key = some (JsonValue.number t) →
      ∀ i, denotesInt t i → inInt64 i → getInt L record key = i) ∧
    (∀ s, record.lookup key = some (JsonValue.str s) →
      (∀ i, denotesInt s i → inInt64 i → getInt L record key = i) ∧
      (∀ i, denotesInt s i → ¬ inInt64 i → getInt L record key = clampInt64 i) ∧
      ((∀ i, ¬ denotesInt s i) →
        getInt L record key =
          if 2 ^ 64 ≤ decimalValue ((unsignedPart s).takeWhile isDecimal) then
            (if s.data.head? = some '-' then -(2 : Int) ^ 63 else (2 : Int) ^ 63 - 1)
          else 0)) ∧
    (∀ b, record.lookup key = some (JsonValue.bool b) → getInt L record key = 0) ∧
    (∀ a, record.lookup key = some (JsonValue.arr a) → getInt L record key = 0) ∧
    (∀ o, record.lookup key = some (JsonValue.obj o) → getInt L record key = 0) ∧
    (∀ l, record.lookup key = some (JsonValue.strs l) → getInt L record key = 0) ∧
    getInt L [("leetcode", JsonValue.number "42")] "leetcode" = 42 ∧
    getInt L [("leetcode", JsonValue.float64 (Float64.finite false 85 (-1)))] "leetcode"
      = 42 ∧
    getInt L [("leetcode", JsonValue.float64 (Float64.finite true 85 (-1)))] "leetcode"
      = -42 ∧
    getInt L [("leetcode", JsonValue.int 42)] "leetcode" = 42 ∧
    getInt L [("leetcode", JsonValue.str "42")] "leetcode" = 42 ∧
    getInt L [("leetcode", JsonValue.str "abc")] "leetcode" = 0 := by
  refine ⟨fun h => by simp [getInt, h], fun h => by simp [getInt, h], fun v h => ?_,
    fun n h => by simp [getInt, h], fun t h i hd hr => ?_, fun s h => ?_,
    fun b h => by simp [getInt, h], fun a h => by simp [getInt, h],
    fun o h => by simp [getInt, h], fun l h => by simp [getInt, h],
    rfl, rfl, rfl, rfl, rfl, rfl⟩
  · have hg : getInt L record key = floatToInt L v := by simp only [getInt, h]
    exact ⟨hg, fun t ht hr => by rw [hg, floatToInt_of_truncatesTo L v t ht hr]⟩
  · have hg : getInt L record key = (ParseInt t).1 := by simp only [getInt, h]
    rw [hg, ParseInt_denotes t i hd hr]
  · have hg : getInt L record key = (ParseInt s).1 := by simp only [getInt, h, Atoi]
    rw [hg]
    refine ⟨fun i hd hr => ?_, fun i hd hr => ?_, fun hn => ?_⟩
    · rw [ParseInt_denotes s i hd hr]
    · rw [ParseInt_beyond s i hd hr]
    · rw [ParseInt_other s hn]
      split_ifs <;> rfl

/-- C27. `getDate` returns null for a field that is absent, null, empty or white
space only, and returns a date exactly when the text of the field is the form
`YYYY-MM-DD` (four digits, a hyphen, two digits, a hyphen, two digits, nothing else)
of a date of the calendar, which is then the date it returns, at 00:00:00 UTC; any
other text, and a boolean, a list or an object, give null. `getDatePtr` is the same
function. `2025-12-01` gives 2025-12-01; `2025-02-30`, `2025-12-1` and a date with a
blank in front give null. -/
theorem getDate_is_strict_calendar_date (L : Stdlib) (record : Record) (key : String) :
    (record.lookup key = none → getDate L record key = none) ∧
    (record.lookup key = some JsonValue.null → getDate L record key = none) ∧
    (TrimSpace (getString L record key) = "" → getDate L record key = none) ∧
    (∀ s, (record.lookup key = some (JsonValue.str s) ∨
        record.lookup key = some (JsonValue.number s)) → getString L record key = s) ∧
    (∀ d, getDate L record key = some d ↔
      realDate d ∧ (getString L record key).data = dateText d) ∧
    (∀ b, record.lookup key = some (JsonValue.bool b) → getDate L record key = none) ∧
    (∀ a, record.lookup key = some (JsonValue.arr a) → getDate L record key = none) ∧
    (∀ o, record.lookup key = some (JsonValue.obj o) → getDate L record key = none) ∧
    getDatePtr L record key = getDate L record key ∧
    getDate L [("start_date", JsonValue.str "2025-12-01")] "start_date"
      = some { year := 2025, month := 12, day := 1 } ∧
    getDate L [("start_date", JsonValue.str "2025-02-30")] "start_date" = none ∧
    getDate L [("start_date", JsonValue.str "2025-12-1")] "start_date" = none ∧
    getDate L [("start_date", JsonValue.str " 2025-12-01")] "start_date" = none := by
  have hopen : ∀ (c : Char) (x : String), isDecimal c = false →
      getString L record key = String.mk [c] ++ x → getDate L record key = none := by
    intro c x hc hg
    cases hd : getDate L record key with
    | none => rfl
    | some d =>
      obtain ⟨hr, hs⟩ := (getDate_iff L record key d).mp hd
      obtain ⟨c', rest, hc', hdec⟩ := dateText_head d hr
      rw [hg, hc', String.data_append] at hs
      simp only [List.singleton_append, List.cons.injEq] at hs
      rw [hs.1, hdec] at hc
      exact absurd hc (by simp)
  refine ⟨fun h => getDate_eq_none L record key (Or.inl h),
    fun h => getDate_eq_none L record key (Or.inr (Or.inl h)),
    fun h => by simp [getDate, h],
    fun s h => by rcases h with h | h <;> simp [getString, h],
    getDate_iff L record key, fun b h => ?_, fun a h => ?_, fun o h => ?_, rfl,
    rfl, rfl, rfl, rfl⟩
  · have hg : getString L record key = formatValue L (JsonValue.bool b) := by
      simp [getString, h]
    cases b with
    | true => exact hopen 't' "rue" (by decide) (by rw [hg]; rfl)
    | false => exact hopen 'f' "alse" (by decide) (by rw [hg]; rfl)
  · have hg : getString L record key = formatValue L (JsonValue.arr a) := by
      simp [getString, h]
    refine hopen '[' (" ".intercalate (formatItems L a) ++ "]") (by decide) ?_
    rw [hg, formatValue, String.append_assoc]
  · have hg : getString L record key = formatValue L (JsonValue.obj o) := by
      simp [getString, h]
    refine hopen 'm' ("ap[" ++ (" ".intercalate
      ((sortByKey (formatMembers L o)).map fun kv => kv.1 ++ ":" ++ kv.2) ++ "]")) (by decide) ?_
    rw [hg, formatValue, String.append_assoc]
    rfl

/-- C28. The store key is not injective when a user identifier contains the separator:
the distinct pairs `("a:b", "c")` and `("a", "b:c")` have the same `pendingKey`, so
after a successful capture for the first pair `HandlePendingWrite` for the second
pair is handled whatever the message, a negative message removes the first pair's
entry (a later call for the first pair finds nothing), and an affirmative message on
a live handle invokes the applier on the first pair's payload and removes the
entry. -/
theorem colliding_keys_share_an_entry {DB : Type} (L : Stdlib)
    (ApplyWriteRequests : DB → WritePayload → Except String String × DB)
    (items : Items) (replies : List String)
    (hcap : (MaybeCaptureWrite L items "a:b" "c" replies).2.1 = true) :
    (("a:b", "c") : String × String) ≠ ("a", "b:c") ∧
    pendingKey "a:b" "c" = pendingKey "a" "b:c" ∧
    ∃ entry,
      (MaybeCaptureWrite L items "a:b" "c" replies).2.2 (pendingKey "a:b" "c") = some entry ∧
      (∀ message dbConn,
        (HandlePendingWrite L ApplyWriteRequests
          (MaybeCaptureWrite L items "a:b" "c" replies).2.2 "a" "b:c" message dbConn).handled
          = true) ∧
      (∀ message dbConn, isAffirmative (TrimSpace (ToLower L message)) = false →
        isNegative (TrimSpace (ToLower L message)) = true →
        (HandlePendingWrite L ApplyWriteRequests
          (MaybeCaptureWrite L items "a:b" "c" replies).2.2 "a" "b:c" message dbConn).items
          (pendingKey "a:b" "c") = none ∧
        ∀ message2 dbConn2,
          (HandlePendingWrite L ApplyWriteRequests
            (HandlePendingWrite L ApplyWriteRequests
              (MaybeCaptureWrite L items "a:b" "c" replies).2.2 "a" "b:c" message dbConn).items
            "a:b" "c" message2 dbConn2).handled = false) ∧
      (∀ message db, isAffirmative (TrimSpace (ToLower L message)) = true →
        (HandlePendingWrite L ApplyWriteRequests
          (MaybeCaptureWrite L items "a:b" "c" replies).2.2 "a" "b:c" message (some db)).applied
          = [entry.Payload] ∧
        (HandlePendingWrite L ApplyWriteRequests
          (MaybeCaptureWrite L items "a:b" "c" replies).2.2 "a" "b:c" message (some db)).items
          (pendingKey "a:b" "c") = none) := by
  have hkey : pendingKey "a" "b:c" = pendingKey "a:b" "c" := by decide
  obtain ⟨r, payload, raw, summary, _, _, hentry⟩ := capture_entry L items "a:b" "c" replies hcap
  have hentry2 : (MaybeCaptureWrite L items "a:b" "c" replies).2.2 (pendingKey "a" "b:c")
      = some { Payload := payload, RawJSON := raw, Summary := summary } := by
    rw [hkey]
    exact hentry
  refine ⟨by decide, hkey.symm, _, hentry, ?_, ?_, ?_⟩
  · intro message dbConn
    exact handle_present_handled L ApplyWriteRequests _ "a" "b:c" message dbConn _ hentry2
  · intro message dbConn ha hn
    have hd : (HandlePendingWrite L ApplyWriteRequests
        (MaybeCaptureWrite L items "a:b" "c" replies).2.2 "a" "b:c" message dbConn).items
        (pendingKey "a:b" "c") = none := by
      rw [handle_negative L ApplyWriteRequests _ "a" "b:c" message dbConn _ hentry2 ha hn, hkey]
      simp [Items.delete]
    refine ⟨hd, fun message2 dbConn2 => ?_⟩
    rw [handle_absent L ApplyWriteRequests _ "a:b" "c" message2 dbConn2 hd]
  · intro message db ha
    rcases hr : ApplyWriteRequests db payload with ⟨res, db1⟩
    cases res with
    | error err =>
      rw [handle_affirm_error L ApplyWriteRequests _ "a" "b:c" message db db1 _ err hentry2 ha
        hr, hkey]
      exact ⟨rfl, by simp [Items.delete]⟩
    | ok result =>
      rw [handle_affirm_ok L ApplyWriteRequests _ "a" "b:c" message db db1 _ result hentry2 ha
        hr, hkey]
      exact ⟨rfl, by simp [Items.delete]⟩

/-- C28, worked example: the test reply captured for `("a:b", "c")`; a call for
`("a", "b:c")` with the message `no` is handled. -/
theorem colliding_keys_share_an_entry_witness :
    (MaybeCaptureWrite refLib noItems "a:b" "c" [replyEngineer]).2.1 = true ∧
    (HandlePendingWrite refLib exampleApplier
      (MaybeCaptureWrite refLib noItems "a:b" "c" [replyEngineer]).2.2 "a" "b:c" "no"
      none).handled = true :=
  ⟨rfl,
   (colliding_keys_share_an_entry refLib exampleApplier noItems [replyEngineer] rfl).2.2.elim
     fun _ h => h.2.1 "no" none⟩

/-- C29. In a history of calls that starts from the empty store, every entry of the
store before and after every call holds a payload that is valid for the parser (at
least one request; every request has the action `insert` after trimming and
lower-casing, a table that is not blank and at least one record), and so does every
payload the applier is invoked with. Every payload `ExtractWritePayload` returns is
valid, and on a valid payload an error of `ApplyWriteRequests` is an unsupported
table, a missing goal date or an error of the data store, never an unsupported
action: the action test of the loop passes for every request. -/
theorem stored_payloads_are_valid {DB : Type} (L : Stdlib) (queryRow : QueryRow DB)
    (calls : List (Call DB)) (st : Step DB)
    (hst : st ∈ history L (ApplyWriteRequests L queryRow) noItems calls) :
    (∀ k e, st.before k = some e → validPayload L e.Payload) ∧
    (∀ k e, st.after k = some e → validPayload L e.Payload) ∧
    (∀ p ∈ st.applied, validPayload L p) ∧
    (∀ text payload, (ExtractWritePayload L text).1 = some payload → validPayload L payload) ∧
    (∀ payload, validPayload L payload →
      (∀ req ∈ payload.WriteRequests, ToLower L (TrimSpace req.Action) = "insert") ∧
      ∀ db e, (ApplyWriteRequests L queryRow db payload).1 = .error e →
        (∃ req ∈ payload.WriteRequests, e = "unsupported table: " ++ req.Table) ∨
        (∃ g ∈ goalTables, e = g.2.2) ∨
        (∃ d row, (queryRow d row).1 = .error e)) := by
  have h0 : validStore L noItems := by
    intro k e hk
    simp [noItems] at hk
  obtain ⟨hb, ha, c, hc⟩ := history_valid L (ApplyWriteRequests L queryRow) noItems calls h0 st hst
  refine ⟨hb, ha, ?_, fun text payload h => extract_valid L text payload h, ?_⟩
  · intro p hp
    cases c with
    | capture u s replies =>
      rw [hc] at hp
      simp [Call.exec] at hp
    | handle u s m dbConn =>
      rcases handle_applied L (ApplyWriteRequests L queryRow) st.before u s m dbConn with
        h | ⟨db, pending, _, hpend, _, happ⟩
      · rw [hc] at hp
        simp only [Call.exec] at hp
        rw [h] at hp
        simp at hp
      · rw [hc] at hp
        simp only [Call.exec] at hp
        rw [happ, List.mem_singleton] at hp
        rw [hp]
        exact hb _ pending hpend
  · intro payload hv
    refine ⟨fun req hreq => (hv.2 req hreq).1, fun db e he => ?_⟩
    obtain ⟨db1, hloop⟩ := apply_error_inv L queryRow db payload e he
    rcases applyRequests_error L queryRow _ db db1 0 [] e hloop with
      ⟨req, hreq, hne, _⟩ | h | h | h
    · exact absurd (hv.2 req hreq).1 hne
    · exact Or.inl h
    · exact Or.inr (Or.inl h)
    · exact Or.inr (Or.inr h)

/-- C29, worked example: the test reply captured and confirmed on the logging store;
the payload applied is the valid one the capture stored. -/
theorem stored_payloads_are_valid_witness :
    stepLogged ∈ history refLib (ApplyWriteRequests refLib logStore) noItems callsLogged ∧
    stepLogged.applied = [payloadEngineer] ∧
    ∀ p ∈ stepLogged.applied, validPayload refLib p :=
  ⟨List.Mem.tail _ (List.Mem.head _), rfl,
   (stored_payloads_are_valid refLib logStore callsLogged stepLogged
     (List.Mem.tail _ (List.Mem.head _))).2.2.1⟩

/-- C30. `ApplyWriteRequests` routes a request by its table after trimming and
lower-casing: the switch has a case for the request exactly when the lower-cased,
trimmed table is one of the seven names, and the body of that case sends the data
store a row of the table of that name; a request that is reached with the action
`insert` and no case fails the call with `unsupported table: ` followed by the table
text as written. The table ` Projects ` is inserted into `projects` with the fragment
`1 projects`, while the summary of the parser for the same request reads
`insert 1 -> Projects`. -/
theorem table_is_routed_after_normalising {DB : Type} (L : Stdlib) (queryRow : QueryRow DB) :
    (∀ req : WriteRequest,
      (∃ step, applyCase L queryRow (ToLower L (TrimSpace req.Table)) = some step) ↔
        ToLower L (TrimSpace req.Table) ∈ supportedTables) ∧
    (∀ (req : WriteRequest) step,
      applyCase L queryRow (ToLower L (TrimSpace req.Table)) = some step →
      ∀ d record row, rowOf L (ToLower L (TrimSpace req.Table)) record = some row →
        step d record = queryRow d row ∧ row.table = ToLower L (TrimSpace req.Table)) ∧
    (∀ db db1 payload pre req post total1 summaries1,
      payload.WriteRequests = pre ++ req :: post →
      applyRequests L queryRow db pre 0 [] = (.ok (total1, summaries1), db1) →
      ToLower L (TrimSpace req.Action) = "insert" →
      ToLower L (TrimSpace req.Table) ∉ supportedTables →
      ApplyWriteRequests L queryRow db payload
        = (.error ("unsupported table: " ++ req.Table), db1)) ∧
    (∀ db record id db1,
      queryRow db (Row.projects (projectOf L record)) = (.ok id, db1) →
      ApplyWriteRequests L queryRow db
          { WriteRequests := [{ Action := "insert", Table := " Projects ", Records := [record] }] }
        = (.ok "1 records (1 projects)", db1)) ∧
    (∀ text payload record, candidate text ≠ "" →
      L.decodePayload (candidate text) = .ok payload →
      payload.WriteRequests = [{ Action := "insert", Table := " Projects ", Records := [record] }] →
      ExtractWritePayload L text
        = (some payload, candidate text, "insert 1 -> Projects", none)) := by
  refine ⟨?_, ?_, ?_, ?_, ?_⟩
  · intro req
    constructor
    · rintro ⟨step, hs⟩
      by_contra hn
      rw [(applyCase_spec L queryRow _).1 hn] at hs
      simp at hs
    · intro ht
      obtain ⟨step, hs, _⟩ := (applyCase_spec L queryRow _).2 ht
      exact ⟨step, hs⟩
  · intro req step hs d record row hrow
    have ht : ToLower L (TrimSpace req.Table) ∈ supportedTables := by
      by_contra hn
      rw [(applyCase_spec L queryRow _).1 hn] at hs
      simp at hs
    obtain ⟨step', hs', hf⟩ := (applyCase_spec L queryRow _).2 ht
    have hst : step = step' := by
      rw [hs] at hs'
      exact Option.some.inj hs'
    subst hst
    exact ⟨(hf d record).1 row hrow, rowOf_table L _ record row hrow⟩
  · intro db db1 payload pre req post total1 summaries1 hsplit hpre ha ht
    exact apply_reaches L queryRow db db1 db1 payload pre req post total1 summaries1 _ hsplit
      hpre (applyRequests_bad_table L queryRow db1 req post total1 summaries1 ha ht)
  · intro db record id db1 hq
    have e1 : ToLower L (TrimSpace "insert") = "insert" := rfl
    have e2 : ToLower L (TrimSpace " Projects ") = "projects" := rfl
    have e3 : toString (0 + 1) ++ " records (" ++ Join ([] ++ [toString 1 ++ " " ++ "projects"]) ", "
        ++ ")" = "1 records (1 projects)" := by decide
    simp only [ApplyWriteRequests, applyRequests, e1, e2, applyCase, insertRecords,
      InsertProject, hq, List.length_singleton, String.reduceEq, ↓reduceIte, ne_eq,
      not_true_eq_false, e3]
  · intro text payload record hc hd hp
    have hne : payload.WriteRequests ≠ [] := by simp [hp]
    have e1 : ToLower L (TrimSpace "insert") = "insert" := rfl
    have e2 : TrimSpace " Projects " = "Projects" := by decide
    have e3 : "insert" ++ " " ++ toString 1 ++ " -> " ++ "Projects" = "insert 1 -> Projects" := by
      decide
    have hs : summaryLoop L payload.WriteRequests [] = some ["insert 1 -> Projects"] := by
      rw [hp]
      simp only [summaryLoop, e1, e2, List.length_singleton, List.nil_append]
      simp only [ne_eq, not_true_eq_false, String.reduceEq, one_ne_zero, or_self, ↓reduceIte,
        e3]
    rw [extract_of_decoded L text payload hc hd hne, hs]
    rfl

end CareerKoala
